import Mathlib

/-!
# HdriVault: a shallow embedding of the manager and thumbnail cache

The development follows `HdriVaultManager.cpp`, `HdriVaultThumbnailManager.cpp`
and `HdriVaultTypes.h`.

Conventions of the embedding

* `FString` is Lean's `String`; the engine's default comparisons
  (`operator==`, `StartsWith`, `Contains`, `RemoveFromStart`, `TMap` keys)
  ignore letter case and are modelled that way.
* `TMap<FString, V>` is an association list in insertion order with at most
  one entry per key; `Add` on a present key replaces that entry.
* `TSharedPtr<T>` is `Option Nat`: `none` is the null pointer and `some i`
  points at cell `i` of a heap (`Items` for material items, `Folders` for
  folder nodes). `MakeShared` appends a cell to the heap.
* Children and Materials of a folder node only ever receive valid pointers
  (every `Add` in the source is guarded by `IsValid`), so they are lists of
  heap indices.
* Engine services that the plugin calls (date-time formatting, JSON object
  fields, path helpers) are written out next to the code that uses them and
  are marked as engine behaviour.
-/

namespace HdriVault

/-! ## Strings -/

/-- Case-insensitive string equality, the engine's `FString::operator==`. -/
def FString.Equals (a b : String) : Bool :=
  a.data.map Char.toLower == b.data.map Char.toLower

/-- Engine `FString::StartsWith` with the default `ESearchCase::IgnoreCase`;
an empty prefix never matches. -/
def FString.StartsWith (s p : String) : Bool :=
  !p.data.isEmpty && (p.data.map Char.toLower).isPrefixOf (s.data.map Char.toLower)

/-- True when `p` occurs in `s` as a contiguous block. -/
def containsSub (p : List Char) : List Char → Bool
  | [] => p.isEmpty
  | c :: cs => p.isPrefixOf (c :: cs) || containsSub p cs

/-- Engine `FString::Contains` with the default `ESearchCase::IgnoreCase`. -/
def FString.Contains (s p : String) : Bool :=
  !p.data.isEmpty && containsSub (p.data.map Char.toLower) (s.data.map Char.toLower)

/-- Engine `FString::RemoveFromStart` (ignoring case): drops the prefix when present. -/
def FString.RemoveFromStart (s p : String) : String :=
  if FString.StartsWith s p then ⟨s.data.drop p.data.length⟩ else s

/-- Engine `FString::ReplaceInline` for a one-character pattern. -/
def FString.ReplaceChar (s : String) (c d : Char) : String :=
  ⟨s.data.map (fun x => if x = c then d else x)⟩

/-- Splits at every `sep`, keeping empty pieces. -/
def splitAt (sep : Char) : List Char → List (List Char)
  | [] => [[]]
  | c :: cs =>
    match splitAt sep cs with
    | [] => [[]]
    | w :: ws => if c = sep then [] :: w :: ws else (c :: w) :: ws

/-- Engine `FString::ParseIntoArray(Out, Delim, true)`: the non-empty pieces
between one-character delimiters. -/
def FString.ParseIntoArray (s : String) (sep : Char) : List String :=
  ((splitAt sep s.data).filter (fun w => !w.isEmpty)).map String.mk

def IsSlashOrBackslash (c : Char) : Bool := c = '/' || c = '\\'

/-- Everything before the last character satisfying `p`; `none` when no
character does. -/
def beforeLast (p : Char → Bool) : List Char → Option (List Char)
  | [] => none
  | c :: cs =>
    match beforeLast p cs with
    | some r => some (c :: r)
    | none => if p c then some [] else none

/-- Engine `FPaths::GetPath`: the text before the last slash or backslash,
empty when there is none. -/
def FPaths.GetPath (s : String) : String :=
  match beforeLast IsSlashOrBackslash s.data with
  | some r => ⟨r⟩
  | none => ""

/-- Engine `FPaths::GetCleanFilename`: trailing slashes are dropped and the
last path component is returned. -/
def FPaths.GetCleanFilename (s : String) : String :=
  let trimmed := (s.data.reverse.dropWhile IsSlashOrBackslash)
  ⟨(trimmed.takeWhile (fun c => !IsSlashOrBackslash c)).reverse⟩

/-- Engine `FPaths::Combine` of two parts: a separator is inserted unless the
left part is empty, already ends in a slash, or the right part starts with
one. -/
def FPaths.Combine (a b : String) : String :=
  if a.data.isEmpty then b
  else if b.data.isEmpty then a
  else if IsSlashOrBackslash (a.data.getLast?.getD '/') then a ++ b
  else if b.data.head? = some '/' then a ++ b
  else a ++ "/" ++ b

/-! ## TMap -/

/-- Model of `TMap<FString, V>`: entries in insertion order. -/
abbrev TMap (V : Type) := List (String × V)

def TMap.Contains {V : Type} (m : TMap V) (k : String) : Bool :=
  m.any (fun p => FString.Equals p.1 k)

/-- Lookup: `TMap::Find`. -/
def TMap.Find {V : Type} (m : TMap V) (k : String) : Option V :=
  match m with
  | [] => none
  | p :: rest => if FString.Equals p.1 k then some p.2 else TMap.Find rest k

/-- Insert or replace: `TMap::Add`. -/
def TMap.Add {V : Type} (m : TMap V) (k : String) (v : V) : TMap V :=
  match m with
  | [] => [(k, v)]
  | p :: rest => if FString.Equals p.1 k then (k, v) :: rest else p :: TMap.Add rest k v

def TMap.Remove {V : Type} (m : TMap V) (k : String) : TMap V :=
  m.filter (fun p => !FString.Equals p.1 k)

def TMap.Num {V : Type} (m : TMap V) : Nat := m.length

/-- Shared pointers are heap indices; `none` is the null pointer. -/
abbrev TSharedPtr := Option Nat

/-- Lookup on a map of shared pointers: `TMap::FindRef`, null when absent. -/
def TMap.FindRef (m : TMap TSharedPtr) (k : String) : TSharedPtr :=
  (TMap.Find m k).getD none

/-! ## Engine date-time

Engine behaviour, not part of the plugin: `FDateTime` counts ticks of 100
nanoseconds since 0001-01-01 00:00:00. `ToString()` prints with the format
`%Y.%m.%d-%H.%M.%S`, so nothing below a second is printed. `Parse` reads six
or seven numbers (the seventh is milliseconds). -/

structure FDateTime where
  Ticks : Nat
deriving DecidableEq, Repr

def TicksPerSecond : Nat := 10000000
def TicksPerMinute : Nat := 60 * TicksPerSecond
def TicksPerHour : Nat := 60 * TicksPerMinute
def TicksPerDay : Nat := 24 * TicksPerHour
def TicksPerMillisecond : Nat := 10000

def IsLeapYear (y : Nat) : Bool := y % 4 = 0 && (y % 100 ≠ 0 || y % 400 = 0)

def DaysPerMonth : List Nat := [0, 31, 28, 31, 30, 31, 30, 31, 31, 30, 31, 30, 31]
def DaysToMonth : List Nat := [0, 31, 59, 90, 120, 151, 181, 212, 243, 273, 304, 334, 365]

def DaysInMonth (y m : Nat) : Nat :=
  if m = 2 ∧ IsLeapYear y then 29 else DaysPerMonth.getD m 0

/-- Calendar date of a tick count (the engine uses the Fliegel and
Van Flandern conversion from the Julian day number). -/
def FDateTime.GetDate (t : FDateTime) : Nat × Nat × Nat :=
  let l0 := t.Ticks / TicksPerDay + 1721426 + 68569
  let n := 4 * l0 / 146097
  let l1 := l0 - (146097 * n + 3) / 4
  let i := 4000 * (l1 + 1) / 1461001
  let l2 := l1 - 1461 * i / 4 + 31
  let j := 80 * l2 / 2447
  let k := l2 - 2447 * j / 80
  let l3 := j / 11
  (100 * (n - 49) + i + l3, j + 2 - 12 * l3, k)

def FDateTime.GetHour (t : FDateTime) : Nat := (t.Ticks / TicksPerHour) % 24
def FDateTime.GetMinute (t : FDateTime) : Nat := (t.Ticks / TicksPerMinute) % 60
def FDateTime.GetSecond (t : FDateTime) : Nat := (t.Ticks / TicksPerSecond) % 60

/-- Decimal digits of `n`, left-padded with zeros to `w` characters. -/
def padDigits (w n : Nat) : List Char :=
  let ds := Nat.toDigits 10 n
  List.replicate (w - ds.length) '0' ++ ds

/-- Engine `FDateTime::ToString()`, format `%Y.%m.%d-%H.%M.%S`. -/
def FDateTime.ToString (t : FDateTime) : String :=
  let ymd := t.GetDate
  ⟨padDigits 4 ymd.1 ++ '.' :: padDigits 2 ymd.2.1 ++ '.' :: padDigits 2 ymd.2.2 ++
    '-' :: padDigits 2 t.GetHour ++ '.' :: padDigits 2 t.GetMinute ++
    '.' :: padDigits 2 t.GetSecond⟩

/-- Value of the leading decimal digits, accumulated left to right. -/
def atoiDigits (acc : Nat) : List Char → Nat
  | [] => acc
  | c :: cs => if c.isDigit then atoiDigits (10 * acc + (c.toNat - 48)) cs else acc

/-- Engine `FCString::Atoi` on a token without blanks or minus sign. -/
def Atoi (s : List Char) : Nat :=
  match s with
  | '+' :: cs => atoiDigits 0 cs
  | cs => atoiDigits 0 cs

/-- Engine `FDateTime::Validate`. -/
def FDateTime.Validate (y mo d h mi s ms : Nat) : Bool :=
  1 ≤ y && y ≤ 9999 && 1 ≤ mo && mo ≤ 12 && 1 ≤ d && d ≤ DaysInMonth y mo &&
  h ≤ 23 && mi ≤ 59 && s ≤ 59 && ms ≤ 999

/-- Engine constructor `FDateTime(Year, Month, Day, Hour, Minute, Second, Millisecond)`. -/
def FDateTime.ofParts (y mo d h mi s ms : Nat) : FDateTime :=
  let leap := if mo > 2 ∧ IsLeapYear y then 1 else 0
  let y1 := y - 1
  let days := leap + y1 * 365 + y1 / 4 - y1 / 100 + y1 / 400 + DaysToMonth.getD (mo - 1) 0 + (d - 1)
  ⟨days * TicksPerDay + h * TicksPerHour + mi * TicksPerMinute + s * TicksPerSecond +
    ms * TicksPerMillisecond⟩

/-- Engine `FDateTime::Parse`: `-`, `:` and `.` separate the numbers; `none`
stands for the return value `false`, which leaves the output untouched. -/
def FDateTime.Parse (s : String) : Option FDateTime :=
  let fixed := s.data.map (fun c => if c = '-' ∨ c = ':' ∨ c = '.' then ' ' else c)
  let tokens := (splitAt ' ' fixed).filter (fun w => !w.isEmpty)
  match tokens with
  | [y, mo, d, h, mi, sec] =>
    if FDateTime.Validate (Atoi y) (Atoi mo) (Atoi d) (Atoi h) (Atoi mi) (Atoi sec) 0 then
      some (FDateTime.ofParts (Atoi y) (Atoi mo) (Atoi d) (Atoi h) (Atoi mi) (Atoi sec) 0)
    else none
  | [y, mo, d, h, mi, sec, ms] =>
    if FDateTime.Validate (Atoi y) (Atoi mo) (Atoi d) (Atoi h) (Atoi mi) (Atoi sec) (Atoi ms) then
      some (FDateTime.ofParts (Atoi y) (Atoi mo) (Atoi d) (Atoi h) (Atoi mi) (Atoi sec) (Atoi ms))
    else none
  | _ => none

/-! ## Engine JSON objects

Engine behaviour: a JSON object is a map from field names to values. Only the
value kinds the metadata file uses or that a hand-edited file could put in
place of a string are modelled. The text written to disk is the serialised
object; writer and reader are taken to be inverse to each other, so a file
holds the object itself. -/

inductive FJsonValue where
  | ValueNull
  | ValueBoolean (b : Bool)
  | ValueString (s : String)
  | ValueArray (a : List FJsonValue)

/-- Engine `FJsonValue::AsString`: the string of a string value, `true` or
`false` for a boolean, empty otherwise. -/
def FJsonValue.AsString : FJsonValue → String
  | .ValueString s => s
  | .ValueBoolean b => if b then "true" else "false"
  | _ => ""

abbrev FJsonObject := TMap FJsonValue

def FJsonObject.SetStringField (o : FJsonObject) (name value : String) : FJsonObject :=
  TMap.Add o name (FJsonValue.ValueString value)

def FJsonObject.SetArrayField (o : FJsonObject) (name : String) (a : List FJsonValue) :
    FJsonObject :=
  TMap.Add o name (FJsonValue.ValueArray a)

/-- Engine `GetStringField`: a missing field reads as the empty string. -/
def FJsonObject.GetStringField (o : FJsonObject) (name : String) : String :=
  match TMap.Find o name with
  | some v => v.AsString
  | none => ""

def FJsonObject.TryGetArrayField (o : FJsonObject) (name : String) : Option (List FJsonValue) :=
  match TMap.Find o name with
  | some (FJsonValue.ValueArray a) => some a
  | _ => none

/-- Engine `HasTypedField<EJson::String>`. -/
def FJsonObject.HasStringField (o : FJsonObject) (name : String) : Bool :=
  match TMap.Find o name with
  | some (FJsonValue.ValueString _) => true
  | _ => false

/-! ## Data model (`HdriVaultTypes.h`) -/

/-- The fields of the engine's `FAssetData` that the plugin reads. -/
structure FAssetData where
  PackageName : String
  PackagePath : String
  AssetName : String
  AssetClassPath : String
deriving DecidableEq, Repr

/-- Engine `FAssetData::GetObjectPathString`: `PackageName.AssetName`. -/
def FAssetData.GetObjectPathString (a : FAssetData) : String :=
  a.PackageName ++ "." ++ a.AssetName

structure FHdriVaultMetadata where
  MaterialName : String
  Location : String
  Author : String
  LastModified : FDateTime
  Notes : String
  Tags : List String
  Category : String
  CustomThumbnailPath : String
deriving DecidableEq, Repr

/-- Default constructor of `FHdriVaultMetadata`; `now` is `FDateTime::Now()`. -/
def FHdriVaultMetadata.default (now : FDateTime) : FHdriVaultMetadata :=
  { MaterialName := "", Location := "", Author := "", LastModified := now, Notes := "",
    Tags := [], Category := "", CustomThumbnailPath := "" }

structure FHdriVaultMaterialItem where
  AssetData : FAssetData
  MaterialPtr : String
  Metadata : FHdriVaultMetadata
  DisplayName : String
  bThumbnailLoaded : Bool
deriving DecidableEq, Repr

/-- Constructor `FHdriVaultMaterialItem(const FAssetData&)`. -/
def FHdriVaultMaterialItem.ofAssetData (a : FAssetData) (now : FDateTime) :
    FHdriVaultMaterialItem :=
  { AssetData := a
    MaterialPtr := a.GetObjectPathString
    Metadata := { FHdriVaultMetadata.default now with
                  MaterialName := a.AssetName, Location := a.PackageName }
    DisplayName := a.AssetName
    bThumbnailLoaded := false }

structure FHdriVaultFolderNode where
  FolderName : String
  FolderPath : String
  Parent : TSharedPtr
  Children : List Nat
  Materials : List Nat
  bIsExpanded : Bool
deriving DecidableEq, Repr

/-- Constructor `FHdriVaultFolderNode(InFolderName, InFolderPath)`. -/
def FHdriVaultFolderNode.new (name path : String) : FHdriVaultFolderNode :=
  { FolderName := name, FolderPath := path, Parent := none, Children := [], Materials := [],
    bIsExpanded := false }

inductive EHdriVaultSortMode where
  | Name | DateModified | Size | Type
deriving DecidableEq, Repr

/-- The settings the manager reads. -/
structure FHdriVaultSettings where
  SortMode : EHdriVaultSortMode
  RootFolder : String
deriving DecidableEq, Repr

/-- Member initialisers of `FHdriVaultSettings`. -/
def FHdriVaultSettings.default : FHdriVaultSettings :=
  { SortMode := EHdriVaultSortMode.Name, RootFolder := "/Game" }

/-- Class path name of `UTextureCube`. -/
def TextureCubeClassPath : String := "/Script/Engine.TextureCube"

/-- State of `UHdriVaultManager` together with the parts of the environment it
touches: the two heaps behind the shared pointers, the sidecar files, the
project directory and the clock. -/
structure UHdriVaultManager where
  Items : List FHdriVaultMaterialItem
  Folders : List FHdriVaultFolderNode
  MaterialMap : TMap TSharedPtr
  RootFolderNode : TSharedPtr
  FolderMap : TMap TSharedPtr
  Settings : FHdriVaultSettings
  AssetRegistryModule : Option (List FAssetData)
  MetadataCache : TMap FHdriVaultMetadata
  bIsInitialized : Bool
  Files : TMap FJsonObject
  ProjectDir : String
  Now : FDateTime

/-! ## Metadata persistence (`HdriVaultManager.cpp`, lines 514 to 608 and 808 to 820) -/

/-- Source function `UHdriVaultManager::GetMetadataFilePath`. -/
def UHdriVaultManager.GetMetadataFilePath (st : UHdriVaultManager) (AssetData : FAssetData) :
    String :=
  let MetadataDir :=
    FPaths.Combine (FPaths.Combine (FPaths.Combine st.ProjectDir "Saved") "HdriVault") "Metadata"
  let AssetPath := FString.ReplaceChar (FString.RemoveFromStart AssetData.PackageName "/Game/") '/' '_'
  let MetadataFileName := AssetPath ++ "_" ++ AssetData.AssetName ++ ".json"
  FPaths.Combine MetadataDir MetadataFileName

/-- The JSON object that `SaveMaterialMetadata` builds from the item's
metadata (lines 527 to 541). -/
def MetadataJsonObject (m : FHdriVaultMetadata) : FJsonObject :=
  let o : FJsonObject := []
  let o := o.SetStringField "MaterialName" m.MaterialName
  let o := o.SetStringField "Location" m.Location
  let o := o.SetStringField "Author" m.Author
  let o := o.SetStringField "LastModified" m.LastModified.ToString
  let o := o.SetStringField "Notes" m.Notes
  let o := o.SetStringField "Category" m.Category
  let o := o.SetStringField "CustomThumbnailPath" m.CustomThumbnailPath
  let TagsArray := m.Tags.map FJsonValue.ValueString
  o.SetArrayField "Tags" TagsArray

/-- Source function `UHdriVaultManager::SaveMaterialMetadata`. A pointer without a heap cell
is treated like the null pointer. -/
def UHdriVaultManager.SaveMaterialMetadata (st : UHdriVaultManager) (MaterialItem : TSharedPtr) :
    UHdriVaultManager :=
  match MaterialItem with
  | none => st
  | some i =>
    match st.Items[i]? with
    | none => st
    | some item =>
      let cache := TMap.Add st.MetadataCache item.AssetData.GetObjectPathString item.Metadata
      let MetadataPath := st.GetMetadataFilePath item.AssetData
      { st with MetadataCache := cache
                Files := TMap.Add st.Files MetadataPath (MetadataJsonObject item.Metadata) }

/-- The metadata that `LoadMaterialMetadata` reads from a parsed JSON object
into an item whose metadata was `old` (lines 576 to 602). -/
def MetadataFromJson (JsonObject : FJsonObject) (old : FHdriVaultMetadata) : FHdriVaultMetadata :=
  let md := { old with
    MaterialName := JsonObject.GetStringField "MaterialName"
    Location := JsonObject.GetStringField "Location"
    Author := JsonObject.GetStringField "Author"
    Notes := JsonObject.GetStringField "Notes"
    Category := JsonObject.GetStringField "Category" }
  let md :=
    match FDateTime.Parse (JsonObject.GetStringField "LastModified") with
    | some t => { md with LastModified := t }
    | none => md
  let md :=
    match JsonObject.TryGetArrayField "Tags" with
    | some TagsArray => { md with Tags := TagsArray.map FJsonValue.AsString }
    | none => md
  if JsonObject.HasStringField "CustomThumbnailPath" then
    { md with CustomThumbnailPath := JsonObject.GetStringField "CustomThumbnailPath" }
  else
    { md with CustomThumbnailPath := "" }

/-- Source function `UHdriVaultManager::LoadMaterialMetadata`. A file that is missing or does
not parse leaves the item as it is. -/
def UHdriVaultManager.LoadMaterialMetadata (st : UHdriVaultManager) (MaterialItem : TSharedPtr) :
    UHdriVaultManager :=
  match MaterialItem with
  | none => st
  | some i =>
    match st.Items[i]? with
    | none => st
    | some item =>
      let ObjectPath := item.AssetData.GetObjectPathString
      match TMap.Find st.MetadataCache ObjectPath with
      | some cached => { st with Items := st.Items.set i { item with Metadata := cached } }
      | none =>
        let MetadataPath := st.GetMetadataFilePath item.AssetData
        match TMap.Find st.Files MetadataPath with
        | none => st
        | some JsonObject =>
          let md := MetadataFromJson JsonObject item.Metadata
          { st with Items := st.Items.set i { item with Metadata := md }
                    MetadataCache := TMap.Add st.MetadataCache ObjectPath md }

/-! ## Heap helpers -/

/-- Applies `f` to cell `i` of a heap; a pointer without a cell changes nothing. -/
def modifyAt {α : Type} (l : List α) (i : Nat) (f : α → α) : List α :=
  match l[i]? with
  | some a => l.set i (f a)
  | none => l

/-- Write through a folder pointer: `Ptr->field = ...`; nothing happens for the null pointer. -/
def UHdriVaultManager.withFolder (st : UHdriVaultManager) (p : TSharedPtr)
    (f : FHdriVaultFolderNode → FHdriVaultFolderNode) : UHdriVaultManager :=
  match p with
  | some n => { st with Folders := modifyAt st.Folders n f }
  | none => st

/-! ## Asset bookkeeping (`HdriVaultManager.cpp`, lines 663 to 721) -/

/-- Source function `UHdriVaultManager::ProcessMaterialAsset`. -/
def UHdriVaultManager.ProcessMaterialAsset (st : UHdriVaultManager) (AssetData : FAssetData) :
    UHdriVaultManager :=
  let ObjectPath := AssetData.GetObjectPathString
  match TMap.FindRef st.MaterialMap ObjectPath with
  | none =>
    let MaterialItem := st.Items.length
    let st1 := { st with
      Items := st.Items ++ [FHdriVaultMaterialItem.ofAssetData AssetData st.Now]
      MaterialMap := TMap.Add st.MaterialMap ObjectPath (some MaterialItem) }
    st1.LoadMaterialMetadata (some MaterialItem)
  | some MaterialItem =>
    let st1 := { st with
      Items := modifyAt st.Items MaterialItem (fun item =>
        { item with AssetData := AssetData
                    MaterialPtr := AssetData.GetObjectPathString
                    DisplayName := AssetData.AssetName }) }
    st1.LoadMaterialMetadata (some MaterialItem)

/-- Source function `UHdriVaultManager::RemoveMaterialAsset`. -/
def UHdriVaultManager.RemoveMaterialAsset (st : UHdriVaultManager) (AssetData : FAssetData) :
    UHdriVaultManager :=
  let ObjectPath := AssetData.GetObjectPathString
  { st with MaterialMap := TMap.Remove st.MaterialMap ObjectPath
            MetadataCache := TMap.Remove st.MetadataCache ObjectPath }

/-! ## Folder structure (`HdriVaultManager.cpp`, lines 144 to 195, 723 to 779, 822 to 869) -/

/-- Source function `UHdriVaultManager::OrganizePackagePath`. -/
def OrganizePackagePath (PackagePath : String) : String :=
  if FString.StartsWith PackagePath "/Game" then PackagePath
  else if FString.StartsWith PackagePath "/Engine" then PackagePath
  else
    let PathComponents := FString.ParseIntoArray PackagePath '/'
    let looksLikePlugin :=
      match PathComponents with
      | [] => false
      | FirstComponent :: _ =>
        !FString.Equals FirstComponent "Engine" &&
        !FString.Equals FirstComponent "Game" &&
        !FString.Equals FirstComponent "Script" &&
        !FString.Equals FirstComponent "Temp" &&
        !FString.Equals FirstComponent "Memory"
    if looksLikePlugin then "/Plugins" ++ PackagePath
    else if FString.StartsWith PackagePath "/Script" ||
        FString.StartsWith PackagePath "/Temp" ||
        FString.StartsWith PackagePath "/Memory" ||
        FString.Contains PackagePath "Engine" then "/Engine" ++ PackagePath
    else "/Game" ++ PackagePath

/-- Source function `UHdriVaultManager::CreateFolderNode`: null for an empty path, otherwise a
new node on the heap. -/
def UHdriVaultManager.CreateFolderNode (st : UHdriVaultManager) (FolderPath : String) :
    UHdriVaultManager × TSharedPtr :=
  if FolderPath.data.isEmpty then (st, none)
  else
    let CleanName := FPaths.GetCleanFilename FolderPath
    let FolderName := if CleanName.data.isEmpty then "Root" else CleanName
    ({ st with Folders := st.Folders ++ [FHdriVaultFolderNode.new FolderName FolderPath] },
      some st.Folders.length)

/-- The two assignments that hang a new folder under its parent
(`NewFolder->Parent = ParentFolder; ParentFolder->Children.Add(NewFolder)`,
lines 764 to 765 and 773 to 774). -/
def UHdriVaultManager.AttachChild (st : UHdriVaultManager) (ParentFolder NewFolder : Nat) :
    UHdriVaultManager :=
  let st1 := st.withFolder (some NewFolder) (fun n => { n with Parent := some ParentFolder })
  st1.withFolder (some ParentFolder) (fun n => { n with Children := n.Children ++ [NewFolder] })

/-- Source function `UHdriVaultManager::GetOrCreateFolderNode`, with the recursion depth
bounded by `fuel`; `none` means the bound was reached before the recursion
ended. -/
def UHdriVaultManager.GetOrCreateFolderNodeAux :
    Nat → UHdriVaultManager → String → Option (UHdriVaultManager × TSharedPtr)
  | 0, _, _ => none
  | fuel + 1, st, FolderPath =>
    if TMap.Contains st.FolderMap FolderPath then
      some (st, TMap.FindRef st.FolderMap FolderPath)
    else
      match st.CreateFolderNode FolderPath with
      | (st1, none) => some (st1, none)
      | (st1, some NewFolder) =>
        let st2 := { st1 with FolderMap := TMap.Add st1.FolderMap FolderPath (some NewFolder) }
        let ParentPath := FPaths.GetPath FolderPath
        if !ParentPath.data.isEmpty && !FString.Equals ParentPath FolderPath then
          match UHdriVaultManager.GetOrCreateFolderNodeAux fuel st2 ParentPath with
          | none => none
          | some (st3, some ParentFolder) => some (st3.AttachChild ParentFolder NewFolder, some NewFolder)
          | some (st3, none) => some (st3, some NewFolder)
        else
          match st2.RootFolderNode with
          | some Root => some (st2.AttachChild Root NewFolder, some NewFolder)
          | none => some (st2, some NewFolder)

/-- Source function `UHdriVaultManager::GetOrCreateFolderNode`. Every recursive call is on a
strictly shorter path, so a depth of one more than the length of the path is
never exhausted (`GetOrCreateFolderNodeAux_isSome`). -/
def UHdriVaultManager.GetOrCreateFolderNode (st : UHdriVaultManager) (FolderPath : String) :
    UHdriVaultManager × TSharedPtr :=
  (UHdriVaultManager.GetOrCreateFolderNodeAux (FolderPath.data.length + 1) st FolderPath).getD
    (st, none)

/-- Body of the loop over `MaterialMap` in `BuildFolderStructure` (lines 179 to 194). -/
def UHdriVaultManager.PlaceMaterial (st : UHdriVaultManager) (MaterialPair : String × TSharedPtr) :
    UHdriVaultManager :=
  match MaterialPair.2 with
  | none => st
  | some MaterialItem =>
    match st.Items[MaterialItem]? with
    | none => st
    | some item =>
      let PackagePath := item.AssetData.PackagePath
      let OrganizedPath := OrganizePackagePath PackagePath
      match st.GetOrCreateFolderNode OrganizedPath with
      | (st1, some FolderNode) =>
        st1.withFolder (some FolderNode) (fun n => { n with Materials := n.Materials ++ [MaterialItem] })
      | (st1, none) => st1

/-- The part of `BuildFolderStructure` before the loop (lines 151 to 176):
the structure is cleared and the three main folders are created. -/
def UHdriVaultManager.ResetFolderStructure (st : UHdriVaultManager) (Root : Nat) :
    UHdriVaultManager :=
  let st := st.withFolder (some Root) (fun n => { n with Children := [] })
  let st := { st with FolderMap := TMap.Add [] st.Settings.RootFolder (some Root) }
  let (st, ContentFolder) := st.CreateFolderNode "/Game"
  let st := st.withFolder ContentFolder (fun n => { n with FolderName := "Content" })
  let (st, EngineFolder) := st.CreateFolderNode "/Engine"
  let st := st.withFolder EngineFolder (fun n => { n with FolderName := "Engine" })
  let (st, PluginFolder) := st.CreateFolderNode "/Plugins"
  let st := st.withFolder PluginFolder (fun n => { n with FolderName := "Plugins" })
  let st := st.withFolder ContentFolder (fun n => { n with Parent := some Root })
  let st := st.withFolder EngineFolder (fun n => { n with Parent := some Root })
  let st := st.withFolder PluginFolder (fun n => { n with Parent := some Root })
  let st := st.withFolder (some Root)
    (fun n => { n with Children := n.Children ++ ContentFolder.toList })
  let st := st.withFolder (some Root)
    (fun n => { n with Children := n.Children ++ EngineFolder.toList })
  let st := st.withFolder (some Root)
    (fun n => { n with Children := n.Children ++ PluginFolder.toList })
  let st := { st with FolderMap := TMap.Add st.FolderMap "/Game" ContentFolder }
  let st := { st with FolderMap := TMap.Add st.FolderMap "/Engine" EngineFolder }
  { st with FolderMap := TMap.Add st.FolderMap "/Plugins" PluginFolder }

/-- Source function `UHdriVaultManager::BuildFolderStructure`. -/
def UHdriVaultManager.BuildFolderStructure (st : UHdriVaultManager) : UHdriVaultManager :=
  match st.RootFolderNode with
  | none => st
  | some Root =>
    st.MaterialMap.foldl UHdriVaultManager.PlaceMaterial (st.ResetFolderStructure Root)

/-- Source function `UHdriVaultManager::FindFolder`. -/
def UHdriVaultManager.FindFolder (st : UHdriVaultManager) (FolderPath : String) : TSharedPtr :=
  TMap.FindRef st.FolderMap FolderPath

/-! ## Refresh and registry callbacks (lines 49 to 142 and 663 to 691) -/

/-- Engine `IAssetRegistry::GetAssetsByClass`: the registered assets of that class. -/
def GetAssetsByClass (registry : List FAssetData) (ClassPath : String) : List FAssetData :=
  registry.filter (fun a => FString.Equals a.AssetClassPath ClassPath)

/-- The block "Clear existing data" of `RefreshMaterialDatabase` (lines 113 to 119). -/
def UHdriVaultManager.ClearMaterialData (st : UHdriVaultManager) : UHdriVaultManager :=
  let st1 : UHdriVaultManager := { st with MaterialMap := [] }
  st1.withFolder st1.RootFolderNode (fun n => { n with Materials := [], Children := [] })

/-- The assets that `RefreshMaterialDatabase` asks the registry for (lines 122 to 129). -/
def UHdriVaultManager.HdriAssets (st : UHdriVaultManager) : List FAssetData :=
  match st.AssetRegistryModule with
  | some registry => GetAssetsByClass registry TextureCubeClassPath
  | none => []

/-- Source function `UHdriVaultManager::RefreshMaterialDatabase`. -/
def UHdriVaultManager.RefreshMaterialDatabase (st : UHdriVaultManager) : UHdriVaultManager :=
  if !st.bIsInitialized then st
  else
    let st1 := st.ClearMaterialData
    let st2 := st.HdriAssets.foldl UHdriVaultManager.ProcessMaterialAsset st1
    st2.BuildFolderStructure

/-- Source function `UHdriVaultManager::Initialize`; `registry` is the content of the asset
registry module that gets loaded. -/
def UHdriVaultManager.Initialize (st : UHdriVaultManager) (registry : List FAssetData) :
    UHdriVaultManager :=
  let st := { st with AssetRegistryModule := some registry }
  let Root := st.Folders.length
  let st := { st with
    Folders := st.Folders ++ [FHdriVaultFolderNode.new "Root" st.Settings.RootFolder]
    RootFolderNode := some Root }
  let st := { st with FolderMap := TMap.Add st.FolderMap st.Settings.RootFolder (some Root) }
  let st := st.RefreshMaterialDatabase
  { st with bIsInitialized := true }

/-- Source function `UHdriVaultManager::SetSettings`. -/
def UHdriVaultManager.SetSettings (st : UHdriVaultManager) (NewSettings : FHdriVaultSettings) :
    UHdriVaultManager :=
  { st with Settings := NewSettings }

/-- Source function `UHdriVaultManager::OnAssetAdded`. -/
def UHdriVaultManager.OnAssetAdded (st : UHdriVaultManager) (AssetData : FAssetData) :
    UHdriVaultManager :=
  if FString.Equals AssetData.AssetClassPath TextureCubeClassPath then
    (st.ProcessMaterialAsset AssetData).BuildFolderStructure
  else st

/-- Source function `UHdriVaultManager::OnAssetRemoved`. -/
def UHdriVaultManager.OnAssetRemoved (st : UHdriVaultManager) (AssetData : FAssetData) :
    UHdriVaultManager :=
  (st.RemoveMaterialAsset AssetData).BuildFolderStructure

/-- Source function `UHdriVaultManager::OnAssetRenamed`; the old object path is not used by the body. -/
def UHdriVaultManager.OnAssetRenamed (st : UHdriVaultManager) (AssetData : FAssetData)
    (_OldObjectPath : String) : UHdriVaultManager :=
  ((st.RemoveMaterialAsset AssetData).ProcessMaterialAsset AssetData).BuildFolderStructure

/-- Source function `UHdriVaultManager::OnAssetUpdated`. -/
def UHdriVaultManager.OnAssetUpdated (st : UHdriVaultManager) (AssetData : FAssetData) :
    UHdriVaultManager :=
  if FString.Equals AssetData.AssetClassPath TextureCubeClassPath then
    st.ProcessMaterialAsset AssetData
  else st

/-! ## Sorting and folder queries (lines 228 to 257 and 781 to 806) -/

/-- Engine `TArray::Sort` with a strict order `lt`. The engine's sort is not
stable; the model is an insertion sort, and the results below only use that
the outcome is an ordered rearrangement. -/
def TArray.Sort {α : Type} (lt : α → α → Bool) (l : List α) : List α :=
  l.insertionSort (fun a b => lt b a = false)

/-- Engine `FString::operator<`: lexicographic, ignoring case. -/
def FString.Less (a b : String) : Bool :=
  decide (a.data.map Char.toLower < b.data.map Char.toLower)

/-- Source function `UHdriVaultManager::SortMaterials` on a list of item pointers. -/
def UHdriVaultManager.SortMaterials (st : UHdriVaultManager) (Materials : List Nat) : List Nat :=
  match st.Settings.SortMode with
  | EHdriVaultSortMode.Name =>
    TArray.Sort (fun A B =>
      match st.Items[A]?, st.Items[B]? with
      | some a, some b => FString.Less a.DisplayName b.DisplayName
      | _, _ => false) Materials
  | EHdriVaultSortMode.DateModified =>
    TArray.Sort (fun A B =>
      match st.Items[A]?, st.Items[B]? with
      | some a, some b => decide (a.Metadata.LastModified.Ticks > b.Metadata.LastModified.Ticks)
      | _, _ => false) Materials
  | EHdriVaultSortMode.Type =>
    TArray.Sort (fun A B =>
      match st.Items[A]?, st.Items[B]? with
      | some a, some b => FString.Less a.AssetData.AssetClassPath b.AssetData.AssetClassPath
      | _, _ => false) Materials
  | EHdriVaultSortMode.Size => Materials

/-- Results of the recursive calls on the children, appended in order. -/
def gatherChildren (f : Nat → Option (List Nat)) : List Nat → Option (List Nat)
  | [] => some []
  | c :: cs =>
    match f c, gatherChildren f cs with
    | some a, some b => some (a ++ b)
    | _, _ => none

/-- The lambda `GatherMaterialsRecursive` of `GetMaterialsInFolder`, with the
recursion depth bounded by `fuel`; `none` means the bound was reached. -/
def GatherMaterialsRecursive (Folders : List FHdriVaultFolderNode) :
    Nat → Nat → Option (List Nat)
  | 0, _ => none
  | fuel + 1, Node =>
    match Folders[Node]? with
    | none => some []
    | some node =>
      (gatherChildren (GatherMaterialsRecursive Folders fuel) node.Children).map
        (fun collected => node.Materials ++ collected)

/-- Source function `UHdriVaultManager::GetMaterialsInFolder`, with the depth bound of the
recursive lambda as a parameter. -/
def UHdriVaultManager.GetMaterialsInFolder (fuel : Nat) (st : UHdriVaultManager)
    (FolderPath : String) : Option (List Nat) :=
  match st.FindFolder FolderPath with
  | some FolderNode =>
    (GatherMaterialsRecursive st.Folders fuel FolderNode).map (fun c => st.SortMaterials c)
  | none => some []

/-! ## Thumbnail cache (`HdriVaultThumbnailManager.cpp`, lines 420 to 476) -/

structure FThumbnailCacheEntry where
  Brush : Option (Nat × Int)
  Texture : Option Nat
  ThumbnailSize : Int
  LastAccessTime : FDateTime
deriving DecidableEq, Repr

/-- State of `FHdriVaultThumbnailManager`; `Now` is the clock. -/
structure FHdriVaultThumbnailManager where
  ThumbnailCache : TMap FThumbnailCacheEntry
  DefaultThumbnailSize : Int
  MaxCacheSize : Int
  PendingThumbnails : TMap TSharedPtr
  DefaultMaterialTexture : Option Nat
  ErrorTexture : Option Nat
  bIsInitialized : Bool
  Now : FDateTime

/-- Decimal text of an `int32`, as printed by the format `%d`. -/
def Int32ToString (n : Int) : String :=
  match n with
  | Int.ofNat k => ⟨Nat.toDigits 10 k⟩
  | Int.negSucc k => ⟨'-' :: Nat.toDigits 10 (k + 1)⟩

/-- Source function `FHdriVaultThumbnailManager::GetCacheKey`: format `%s_%d`. -/
def GetCacheKey (MaterialPath : String) (ThumbnailSize : Int) : String :=
  MaterialPath ++ "_" ++ Int32ToString ThumbnailSize

/-- Source function `FHdriVaultThumbnailManager::CreateBrushFromTexture`: a brush for the
texture at the given size, null for a null texture. -/
def CreateBrushFromTexture (Texture : Option Nat) (ThumbnailSize : Int) : Option (Nat × Int) :=
  Texture.map (fun t => (t, ThumbnailSize))

/-- The removal loop of `TrimCache` (lines 440 to 444): the keys of the first
`EntriesToRemove` sorted entries are removed in turn. -/
def RemoveOldest (cache : TMap FThumbnailCacheEntry) (SortedEntries : List (String × FDateTime))
    (EntriesToRemove : Nat) : TMap FThumbnailCacheEntry :=
  (List.range EntriesToRemove).foldl
    (fun c i =>
      match SortedEntries[i]? with
      | some e => TMap.Remove c e.1
      | none => c) cache

/-- Source function `FHdriVaultThumbnailManager::TrimCache`. -/
def FHdriVaultThumbnailManager.TrimCache (tm : FHdriVaultThumbnailManager) :
    FHdriVaultThumbnailManager :=
  if (TMap.Num tm.ThumbnailCache : Int) ≤ tm.MaxCacheSize then tm
  else
    let Entries := tm.ThumbnailCache.map (fun e => (e.1, e.2.LastAccessTime))
    let SortedEntries := TArray.Sort (fun A B => decide (A.2.Ticks < B.2.Ticks)) Entries
    let EntriesToRemove : Int := (TMap.Num tm.ThumbnailCache : Int) - tm.MaxCacheSize
    { tm with ThumbnailCache := RemoveOldest tm.ThumbnailCache SortedEntries EntriesToRemove.toNat }

/-- Source function `FHdriVaultThumbnailManager::OnThumbnailGenerated`. -/
def FHdriVaultThumbnailManager.OnThumbnailGenerated (tm : FHdriVaultThumbnailManager)
    (MaterialPath : String) (Thumbnail : Option Nat) (ThumbnailSize : Int) :
    FHdriVaultThumbnailManager :=
  match Thumbnail with
  | none => tm
  | some t =>
    let CacheKey := GetCacheKey MaterialPath ThumbnailSize
    let Entry : FThumbnailCacheEntry :=
      { Texture := some t
        Brush := CreateBrushFromTexture (some t) ThumbnailSize
        ThumbnailSize := ThumbnailSize
        LastAccessTime := tm.Now }
    FHdriVaultThumbnailManager.TrimCache
      { tm with ThumbnailCache := TMap.Add tm.ThumbnailCache CacheKey Entry }

/-- Source function `FHdriVaultThumbnailManager::UpdateCacheWithThumbnail`. -/
def FHdriVaultThumbnailManager.UpdateCacheWithThumbnail (tm : FHdriVaultThumbnailManager)
    (MaterialPath : String) (Thumbnail : Option Nat) (ThumbnailSize : Int) :
    FHdriVaultThumbnailManager :=
  tm.OnThumbnailGenerated MaterialPath Thumbnail ThumbnailSize

/-! ## Thumbnail generation (`HdriVaultThumbnailManager.cpp`, lines 179 to 276, 385 to 413 and 478 to 491)

Engine behaviour, not part of the plugin: an engine object is seen through
its identity and its class, and the casts of the plugin test the class. The
rendering of a thumbnail happens inside the engine; `FThumbnailRender` lists
the outcomes of the engine calls of one `GenerateMaterialThumbnail` that
decide what the function returns. Packages, files and registry notifications
that the function produces on the way are not part of the model. -/

/-- The engine classes that the plugin casts to. -/
inductive UClass where
  | TextureCube | Texture2D | Material | MaterialInstanceConstant | Other
deriving DecidableEq, Repr

/-- An engine object as the plugin sees it. -/
structure UObject where
  Id : Nat
  Class : UClass
deriving DecidableEq, Repr

/-- Engine `Cast<UMaterialInterface>` succeeds: materials and material instances. -/
def UObject.IsMaterialInterface (o : UObject) : Bool :=
  o.Class = UClass.Material || o.Class = UClass.MaterialInstanceConstant

/-- Engine `Cast<UTextureCube>` succeeds. -/
def UObject.IsTextureCube (o : UObject) : Bool :=
  o.Class = UClass.TextureCube

/-- Outcomes of the engine calls of one `GenerateMaterialThumbnail`:
`FindObject` for the generated thumbnail asset, `CreatePackage`, the object
made by `NewObject`, and the number of pixels that `ReadPixels` delivers
(`none` when it fails). -/
structure FThumbnailRender where
  ExistingThumbnail : Option Nat
  CreatePackageSucceeds : Bool
  NewThumbnail : Nat
  ReadPixels : Option Int
deriving DecidableEq, Repr

/-- Arithmetic of `int32`: the value reduced to 32 bits, two's complement. -/
def Int32Wrap (x : Int) : Int :=
  (x + 2147483648) % 4294967296 - 2147483648

/-- Source function `FHdriVaultThumbnailManager::GetDefaultMaterialThumbnail`. -/
def FHdriVaultThumbnailManager.GetDefaultMaterialThumbnail (tm : FHdriVaultThumbnailManager) :
    Option Nat :=
  match tm.DefaultMaterialTexture with
  | some t => some t
  | none =>
    match tm.ErrorTexture with
    | some t => some t
    | none => none

/-- Source function `FHdriVaultThumbnailManager::GenerateMaterialThumbnail`: the returned
texture, null (`none`) included. -/
def FHdriVaultThumbnailManager.GenerateMaterialThumbnail (tm : FHdriVaultThumbnailManager)
    (Asset : Option UObject) (ThumbnailSize : Int) (bForceRegenerate : Bool)
    (engine : FThumbnailRender) : Option Nat :=
  match Asset with
  | none => tm.GetDefaultMaterialThumbnail
  | some asset =>
    if !tm.bIsInitialized then tm.GetDefaultMaterialThumbnail
    else if !asset.IsMaterialInterface then none
    else
      match engine.ExistingThumbnail, bForceRegenerate with
      | some ThumbnailAsset, false => some ThumbnailAsset
      | existing, _ =>
        if existing.isNone && !engine.CreatePackageSucceeds then tm.GetDefaultMaterialThumbnail
        else
          let ThumbnailAsset := existing.getD engine.NewThumbnail
          match engine.ReadPixels with
          | none => tm.GetDefaultMaterialThumbnail
          | some Num =>
            let ExpectedPixels := Int32Wrap (ThumbnailSize * ThumbnailSize)
            if Num ≠ ExpectedPixels then tm.GetDefaultMaterialThumbnail
            else some ThumbnailAsset

/-- The game-thread task of `LoadThumbnailAsync` (lines 399 to 410). `WeakAsset`
is what `WeakAsset.Get()` returns when the task runs. -/
def FHdriVaultThumbnailManager.LoadThumbnailCompletion (tm : FHdriVaultThumbnailManager)
    (WeakAsset : Option UObject) (ThumbnailSize : Int) (MaterialPath : String)
    (engine : FThumbnailRender) : FHdriVaultThumbnailManager :=
  let tm1 :=
    match WeakAsset with
    | some StrongAsset =>
      match tm.GenerateMaterialThumbnail (some StrongAsset) ThumbnailSize false engine with
      | some Thumbnail => tm.UpdateCacheWithThumbnail MaterialPath (some Thumbnail) ThumbnailSize
      | none => tm
    | none => tm
  { tm1 with PendingThumbnails := TMap.Remove tm1.PendingThumbnails MaterialPath }

/-- Source function `FHdriVaultThumbnailManager::LoadThumbnailAsync`, with the background task
and the game-thread task run one after the other. `LoadSynchronous` is the
engine's loader of soft object paths; the asset is taken to stay loaded
between the two tasks. -/
def FHdriVaultThumbnailManager.LoadThumbnailAsync (tm : FHdriVaultThumbnailManager)
    (MaterialItem : Option FHdriVaultMaterialItem) (ThumbnailSize : Int)
    (LoadSynchronous : String → Option UObject) (engine : FThumbnailRender) :
    FHdriVaultThumbnailManager :=
  match MaterialItem with
  | none => tm
  | some item =>
    let MaterialPath := item.AssetData.GetObjectPathString
    let Asset := LoadSynchronous item.MaterialPtr
    tm.LoadThumbnailCompletion Asset ThumbnailSize MaterialPath engine

/-! ## EXR to HDR conversion (`HdriVaultImageUtils.cpp`, lines 37 to 91)

The two codec libraries (tinyexr and stb_image_write) are not part of the
plugin: a call is modelled by its outcome. Both take the file name after the
conversion `TCHAR_TO_ANSI`, which is counted as part of the call. -/

/-- Return code `TINYEXR_SUCCESS` of tinyexr. -/
def TINYEXR_SUCCESS : Int := 0

/-- Outcome of tinyexr's `LoadEXR`: return code, pixel buffer (`none` is the
null pointer), image size and error message (`none`: `Err` stays null). -/
structure FLoadEXRResult where
  Ret : Int
  Rgba : Option Nat
  Width : Int
  Height : Int
  Err : Option String
deriving DecidableEq, Repr

/-- Source function `FHdriVaultImageUtils::ConvertExrToHdr`: the return value and the content
of `OutError` afterwards. `stbi_write_hdr` gets the file name, width, height,
number of components and pixel buffer. -/
def ConvertExrToHdr (LoadEXR : String → FLoadEXRResult)
    (stbi_write_hdr : String → Int → Int → Int → Nat → Int)
    (InputFile OutputFile : String) (OutError : String) : Bool × String :=
  let r := LoadEXR InputFile
  if r.Ret ≠ TINYEXR_SUCCESS then
    match r.Err with
    | some Err => (false, "TinyEXR Error: " ++ Err)
    | none => (false, "Unknown TinyEXR Error")
  else
    match r.Rgba with
    | none => (false, "Failed to load EXR data (null buffer)")
    | some Rgba =>
      let WriteRet := stbi_write_hdr OutputFile r.Width r.Height 4 Rgba
      if WriteRet = 0 then (false, "Failed to write HDR file using stbi_write_hdr")
      else (true, OutError)

/-! ## Applying an HDRI to the level (`HdriVaultManager.cpp`, lines 303 to 460)

Engine behaviour, not part of the plugin: the editor world is a list of
actors. Of an actor the function looks at its name and class name, at whether
it is an `ASkyLight` (then at its light component), at whether it is an
instance of the HDRI backdrop class, and at its property named `Cubemap`. The
undo transaction and the notifications are not part of the model. -/

inductive ESkyLightSourceType where
  | SLS_CapturedScene | SLS_SpecifiedCubemap
deriving DecidableEq, Repr

/-- The fields of `USkyLightComponent` that the plugin writes. -/
structure USkyLightComponent where
  SourceType : ESkyLightSourceType
  Cubemap : Option UObject
  bCaptureIsDirty : Bool
deriving DecidableEq, Repr

/-- The property named `Cubemap` of an actor class: whether it is an object
property whose class is a child of `UTextureCube`, and its value. -/
structure FCubemapProperty where
  IsTextureCubeProperty : Bool
  Value : Option UObject
deriving DecidableEq, Repr

structure AActor where
  Name : String
  ClassName : String
  IsSkyLight : Bool
  LightComponent : Option USkyLightComponent
  IsBackdrop : Bool
  CubemapProperty : Option FCubemapProperty
deriving DecidableEq, Repr

/-- Body of the loop over the sky lights (lines 336 to 354). -/
def ApplyToSkyLight (HdriTexture : UObject) (SkyLight : AActor) : AActor :=
  if SkyLight.IsSkyLight then
    match SkyLight.LightComponent with
    | some Component =>
      let Modified : USkyLightComponent :=
        { Component with SourceType := ESkyLightSourceType.SLS_SpecifiedCubemap
                         Cubemap := some HdriTexture
                         bCaptureIsDirty := true }
      { SkyLight with LightComponent := some Modified }
    | none => SkyLight
  else SkyLight

/-- The block that sets the `Cubemap` property of one actor (lines 369 to 386
and 402 to 418). -/
def SetCubemapProperty (HdriTexture : UObject) (Actor : AActor) : AActor :=
  match Actor.CubemapProperty with
  | some Property =>
    if Property.IsTextureCubeProperty then
      { Actor with CubemapProperty := some { Property with Value := some HdriTexture } }
    else Actor
  | none => Actor

/-- Body of the loops over the backdrop actors: the actors of the backdrop
class when that class loads, otherwise the actors with `HDRI` in their name
or class name. -/
def ApplyToBackdrop (BackdropClassLoads : Bool) (HdriTexture : UObject) (Actor : AActor) :
    AActor :=
  if BackdropClassLoads then
    if Actor.IsBackdrop then SetCubemapProperty HdriTexture Actor else Actor
  else if FString.Contains Actor.Name "HDRI" || FString.Contains Actor.ClassName "HDRI" then
    SetCubemapProperty HdriTexture Actor
  else Actor

/-- Source function `UHdriVaultManager::ApplyMaterialToSelection`: the actors of the editor
world afterwards (`none`: there is no editor world). `LoadSynchronous` is the
engine's loader of soft object paths. -/
def UHdriVaultManager.ApplyMaterialToSelection (st : UHdriVaultManager)
    (MaterialItem : TSharedPtr) (LoadSynchronous : String → Option UObject)
    (BackdropClassLoads : Bool) (World : Option (List AActor)) : Option (List AActor) :=
  match MaterialItem.bind (fun i => st.Items[i]?) with
  | none => World
  | some item =>
    match (LoadSynchronous item.MaterialPtr).filter UObject.IsTextureCube with
    | none => World
    | some HdriTexture =>
      World.map (fun Actors =>
        (Actors.map (ApplyToSkyLight HdriTexture)).map
          (ApplyToBackdrop BackdropClassLoads HdriTexture))

/-! ## Category view (`SHdriVaultCategoriesPanel.cpp`, lines 362 to 439, and
`SHdriVaultMetadataPanel.cpp`, lines 857 to 864) -/

structure FHdriVaultCategoryItem where
  CategoryName : String
  Materials : List Nat
  Children : List Nat
  Parent : TSharedPtr
  bIsExpanded : Bool
deriving DecidableEq, Repr

/-- Constructor `FHdriVaultCategoryItem(InCategoryName)`. -/
def FHdriVaultCategoryItem.new (name : String) : FHdriVaultCategoryItem :=
  { CategoryName := name, Materials := [], Children := [], Parent := none, bIsExpanded := false }

/-- State of `SHdriVaultCategoriesPanel` as far as the category structure goes:
the heap of category items behind the shared pointers and the array
`RootCategories` of pointers into it. -/
structure SHdriVaultCategoriesPanel where
  Categories : List FHdriVaultCategoryItem
  RootCategories : List Nat
deriving DecidableEq, Repr

/-- The statement `Category->Materials.Add(Material)`. -/
def SHdriVaultCategoriesPanel.AddMaterial (p : SHdriVaultCategoriesPanel) (Category Material : Nat) :
    SHdriVaultCategoriesPanel :=
  { p with Categories :=
      modifyAt p.Categories Category (fun c => { c with Materials := c.Materials ++ [Material] }) }

/-- Source function `SHdriVaultCategoriesPanel::GetOrCreateCategory`. -/
def SHdriVaultCategoriesPanel.GetOrCreateCategory (p : SHdriVaultCategoriesPanel)
    (CategoryName : String) : SHdriVaultCategoriesPanel × Nat :=
  match p.RootCategories.find? (fun Category =>
      match p.Categories[Category]? with
      | some c => FString.Equals c.CategoryName CategoryName
      | none => false) with
  | some Category => (p, Category)
  | none =>
    let NewCategory := p.Categories.length
    ({ p with Categories := p.Categories ++ [FHdriVaultCategoryItem.new CategoryName]
              RootCategories := p.RootCategories ++ [NewCategory] }, NewCategory)

/-- Source function `SHdriVaultCategoriesPanel::AddMaterialToCategory`. -/
def SHdriVaultCategoriesPanel.AddMaterialToCategory (p : SHdriVaultCategoriesPanel)
    (Material : Nat) (CategoryName : String) : SHdriVaultCategoriesPanel :=
  match p.GetOrCreateCategory CategoryName with
  | (p1, Category) => p1.AddMaterial Category Material

/-- The order that `BuildCategoryStructure` sorts the root categories with
(lines 402 to 413). -/
def CategoryLess (Categories : List FHdriVaultCategoryItem) (A B : Nat) : Bool :=
  match Categories[A]?, Categories[B]? with
  | some a, some b =>
    if FString.Equals a.CategoryName "All" then true
    else if FString.Equals b.CategoryName "All" then false
    else if FString.Equals a.CategoryName "Uncategorized" then false
    else if FString.Equals b.CategoryName "Uncategorized" then true
    else FString.Less a.CategoryName b.CategoryName
  | _, _ => false

/-- Body of the loop over `MaterialMap` in `BuildCategoryStructure` (lines 375
to 393). -/
def SHdriVaultCategoriesPanel.PlaceInCategories (Items : List FHdriVaultMaterialItem)
    (AllCategory UncategorizedCategory : Nat) (p : SHdriVaultCategoriesPanel)
    (MaterialPair : String × TSharedPtr) : SHdriVaultCategoriesPanel :=
  match MaterialPair.2 with
  | none => p
  | some Material =>
    match Items[Material]? with
    | none => p
    | some item =>
      let p1 := p.AddMaterial AllCategory Material
      let Category := item.Metadata.Category
      if Category.data.isEmpty then p1.AddMaterial UncategorizedCategory Material
      else p1.AddMaterialToCategory Material Category

/-- Source function `SHdriVaultCategoriesPanel::BuildCategoryStructure`; the argument is the
manager behind the pointer `HdriVaultManager` (`none` for the null pointer). -/
def SHdriVaultCategoriesPanel.BuildCategoryStructure (p : SHdriVaultCategoriesPanel)
    (HdriVaultManager : Option UHdriVaultManager) : SHdriVaultCategoriesPanel :=
  let p0 : SHdriVaultCategoriesPanel := { p with RootCategories := [] }
  match HdriVaultManager with
  | none => p0
  | some Manager =>
    let AllCategory := p0.Categories.length
    let p1 : SHdriVaultCategoriesPanel :=
      { Categories := p0.Categories ++ [FHdriVaultCategoryItem.new "All"]
        RootCategories := p0.RootCategories ++ [AllCategory] }
    let UncategorizedCategory := p1.Categories.length
    let p2 : SHdriVaultCategoriesPanel :=
      { p1 with Categories := p1.Categories ++ [FHdriVaultCategoryItem.new "Uncategorized"] }
    let p3 := Manager.MaterialMap.foldl
      (SHdriVaultCategoriesPanel.PlaceInCategories Manager.Items AllCategory
        UncategorizedCategory) p2
    let HasUncategorized :=
      match p3.Categories[UncategorizedCategory]? with
      | some c => decide (c.Materials.length > 0)
      | none => false
    let p4 : SHdriVaultCategoriesPanel :=
      if HasUncategorized then
        { p3 with RootCategories := p3.RootCategories ++ [UncategorizedCategory] }
      else p3
    { p4 with RootCategories := TArray.Sort (CategoryLess p4.Categories) p4.RootCategories }

/-- The assignment of `SHdriVaultMetadataPanel::OnCategoryChanged` (line 861), seen from the
manager: the text typed into the Category box is written to the item. The
panel with its change mark is modelled in the section on the metadata panel. -/
def UHdriVaultManager.OnCategoryChanged (st : UHdriVaultManager) (MaterialItem : TSharedPtr)
    (NewText : String) : UHdriVaultManager :=
  match MaterialItem with
  | some i =>
    { st with Items := modifyAt st.Items i (fun item =>
        { item with Metadata := { item.Metadata with Category := NewText } }) }
  | none => st

/-! ## Tag filter and lookup by path (`HdriVaultManager.cpp`, lines 259 to 262 and 646 to 661) -/

/-- Engine `TArray<FString>::Contains`: some element equals the text (ignoring
case, as `FString::operator==` does). -/
def TArray.Contains (l : List String) (s : String) : Bool :=
  l.any (fun t => FString.Equals t s)

/-- Source function `UHdriVaultManager::FilterMaterialsByTag`. -/
def UHdriVaultManager.FilterMaterialsByTag (st : UHdriVaultManager) (Tag : String) : List Nat :=
  let Results := st.MaterialMap.foldl (fun (Results : List Nat) MaterialPair =>
    match MaterialPair.2 with
    | some MaterialItem =>
      match st.Items[MaterialItem]? with
      | some item =>
        if TArray.Contains item.Metadata.Tags Tag then Results ++ [MaterialItem] else Results
      | none => Results
    | none => Results) []
  st.SortMaterials Results

/-- Source function `UHdriVaultManager::GetMaterialByPath`. -/
def UHdriVaultManager.GetMaterialByPath (st : UHdriVaultManager) (AssetPath : String) :
    TSharedPtr :=
  TMap.FindRef st.MaterialMap AssetPath

/-! ## Cache lookups and cache clearing (`HdriVaultThumbnailManager.cpp`, lines 112 to 177, and
`HdriVaultThumbnailManager.h`, line 46) -/

/-- Write through `Map[Key]`: the entry found under the key is replaced by `f`
of it. -/
def TMap.Modify {V : Type} (m : TMap V) (k : String) (f : V → V) : TMap V :=
  match m with
  | [] => []
  | p :: rest =>
    if FString.Equals p.1 k then (p.1, f p.2) :: rest else p :: TMap.Modify rest k f

/-- Source function `FHdriVaultThumbnailManager::ClearThumbnailForMaterial`: every entry whose key
contains the path is removed (`FString::Contains`, ignoring case). -/
def FHdriVaultThumbnailManager.ClearThumbnailForMaterial (tm : FHdriVaultThumbnailManager)
    (MaterialPath : String) : FHdriVaultThumbnailManager :=
  let Kept := tm.ThumbnailCache.filter (fun e => !FString.Contains e.1 MaterialPath)
  { tm with ThumbnailCache := Kept }

/-- Source function `FHdriVaultThumbnailManager::RequestThumbnail`. The second component is the
call of `LoadThumbnailAsync` that the function makes (item pointer and
thumbnail size), `none` when it makes none. -/
def FHdriVaultThumbnailManager.RequestThumbnail (tm : FHdriVaultThumbnailManager)
    (Items : List FHdriVaultMaterialItem) (MaterialItem : TSharedPtr) (ThumbnailSize : Int) :
    FHdriVaultThumbnailManager × Option (Nat × Int) :=
  match MaterialItem with
  | none => (tm, none)
  | some i =>
    match Items[i]? with
    | none => (tm, none)
    | some item =>
      if !tm.bIsInitialized then (tm, none)
      else
        let MaterialPath := item.AssetData.GetObjectPathString
        if TMap.Contains tm.PendingThumbnails MaterialPath then (tm, none)
        else
          let Pending := TMap.Add tm.PendingThumbnails MaterialPath (some i)
          ({ tm with PendingThumbnails := Pending }, some (i, ThumbnailSize))

/-- Source function `FHdriVaultThumbnailManager::GetMaterialThumbnail`: the manager afterwards,
the returned brush (`none` is the null pointer) and the call of
`LoadThumbnailAsync` that was started, if any. -/
def FHdriVaultThumbnailManager.GetMaterialThumbnail (tm : FHdriVaultThumbnailManager)
    (Items : List FHdriVaultMaterialItem) (MaterialItem : TSharedPtr) (ThumbnailSize : Int) :
    FHdriVaultThumbnailManager × Option (Nat × Int) × Option (Nat × Int) :=
  match MaterialItem.bind (fun i => Items[i]?) with
  | none => (tm, none, none)
  | some item =>
    if !tm.bIsInitialized then (tm, none, none)
    else
      let CacheKey := GetCacheKey item.AssetData.GetObjectPathString ThumbnailSize
      match TMap.Find tm.ThumbnailCache CacheKey with
      | some Entry =>
        let Touched := TMap.Modify tm.ThumbnailCache CacheKey
          (fun e => { e with LastAccessTime := tm.Now })
        ({ tm with ThumbnailCache := Touched }, Entry.Brush, none)
      | none =>
        match tm.RequestThumbnail Items MaterialItem ThumbnailSize with
        | (tm1, started) =>
          (tm1, CreateBrushFromTexture tm1.DefaultMaterialTexture ThumbnailSize, started)

/-- Source function `FHdriVaultThumbnailManager::SetMaxCacheSize`. -/
def FHdriVaultThumbnailManager.SetMaxCacheSize (tm : FHdriVaultThumbnailManager) (MaxSize : Int) :
    FHdriVaultThumbnailManager :=
  { tm with MaxCacheSize := MaxSize }

/-- The indices with which the removal loop of `TrimCache` reads `SortedEntries`
(lines 440 to 444), when every read goes through; `EntriesToRemove` is
computed in `int32`. -/
def FHdriVaultThumbnailManager.TrimCacheReads (tm : FHdriVaultThumbnailManager) : List Nat :=
  if (TMap.Num tm.ThumbnailCache : Int) ≤ tm.MaxCacheSize then []
  else List.range (Int32Wrap ((TMap.Num tm.ThumbnailCache : Int) - tm.MaxCacheSize)).toNat

/-- The removal loop of `TrimCache` with the range check of `TArray::operator[]`:
`none` when an index is out of range. -/
def RemoveOldestChecked (cache : TMap FThumbnailCacheEntry)
    (SortedEntries : List (String × FDateTime)) (EntriesToRemove : Nat) :
    Option (TMap FThumbnailCacheEntry) :=
  (List.range EntriesToRemove).foldl
    (fun c i =>
      match c, SortedEntries[i]? with
      | some c, some e => some (TMap.Remove c e.1)
      | _, _ => none) (some cache)

/-- Source function `FHdriVaultThumbnailManager::TrimCache` with the range check of the array
read: `none` when the loop reads `SortedEntries` out of range. -/
def FHdriVaultThumbnailManager.TrimCacheChecked (tm : FHdriVaultThumbnailManager) :
    Option FHdriVaultThumbnailManager :=
  if (TMap.Num tm.ThumbnailCache : Int) ≤ tm.MaxCacheSize then some tm
  else
    let Entries := tm.ThumbnailCache.map (fun e => (e.1, e.2.LastAccessTime))
    let SortedEntries := TArray.Sort (fun A B => decide (A.2.Ticks < B.2.Ticks)) Entries
    let EntriesToRemove : Int :=
      Int32Wrap ((TMap.Num tm.ThumbnailCache : Int) - tm.MaxCacheSize)
    (RemoveOldestChecked tm.ThumbnailCache SortedEntries EntriesToRemove.toNat).map
      (fun c => { tm with ThumbnailCache := c })

/-! ## Import of HDRI files (`HdriVaultManager.cpp`, lines 897 to 925)

Engine behaviour, not part of the plugin: `FString::ToLower`,
`FPaths::GetExtension` (the text after the last dot of the file name) and
`FPaths::ChangeExtension` (the text before the last dot, a dot and the new
extension; a path whose last dot stands before a slash is returned as it
is). -/

/-- Engine `FString::ToLower`. -/
def FString.ToLower (s : String) : String :=
  ⟨s.data.map Char.toLower⟩

/-- Everything after the last character satisfying `p`; `none` when no
character does. -/
def afterLast (p : Char → Bool) : List Char → Option (List Char)
  | [] => none
  | c :: cs =>
    match afterLast p cs with
    | some r => some r
    | none => if p c then some cs else none

/-- Engine `FPaths::GetExtension` (without the dot). -/
def FPaths.GetExtension (s : String) : String :=
  match afterLast (fun c => c = '.') (FPaths.GetCleanFilename s).data with
  | some ext => ⟨ext⟩
  | none => ""

/-- Engine `FPaths::ChangeExtension`. -/
def FPaths.ChangeExtension (s : String) (NewExtension : String) : String :=
  match beforeLast (fun c => c = '.') s.data, afterLast (fun c => c = '.') s.data with
  | some stem, some tail =>
    if tail.any IsSlashOrBackslash then s
    else if !NewExtension.data.isEmpty && NewExtension.data.head? != some '.' then
      ⟨stem ++ '.' :: NewExtension.data⟩
    else ⟨stem ++ NewExtension.data⟩
  | _, _ => s

/-- The loop "Pre-process files: Convert EXR to HDR" of
`UHdriVaultManager::ImportHdriFiles` (lines 897 to 925): the list
`FilesToImport` and `ConversionCount` after the loop. `LoadEXR` and
`stbi_write_hdr` are the two library calls behind `ConvertExrToHdr`. -/
def PreprocessImportFiles (LoadEXR : String → FLoadEXRResult)
    (stbi_write_hdr : String → Int → Int → Int → Nat → Int) (Files : List String) :
    List String × Int :=
  Files.foldl (fun (acc : List String × Int) File =>
    let Ext := FString.ToLower (FPaths.GetExtension File)
    if FString.Equals Ext "exr" then
      let HdrFile := FPaths.ChangeExtension File "hdr"
      if (ConvertExrToHdr LoadEXR stbi_write_hdr File HdrFile "").1 then
        (acc.1 ++ [HdrFile], acc.2 + 1)
      else (acc.1 ++ [File], acc.2)
    else (acc.1 ++ [File], acc.2)) ([], 0)

/-! ## Text search (`HdriVaultManager.cpp`, lines 616 to 644) -/

/-- Source function `UHdriVaultManager::SearchMaterials`. -/
def UHdriVaultManager.SearchMaterials (st : UHdriVaultManager) (SearchTerm : String) :
    List Nat :=
  if SearchTerm.data.isEmpty then []
  else
    let LowerSearchTerm := FString.ToLower SearchTerm
    let Results := st.MaterialMap.foldl (fun (Results : List Nat) MaterialPair =>
      match MaterialPair.2 with
      | some MaterialItem =>
        match st.Items[MaterialItem]? with
        | some item =>
          let MaterialName := FString.ToLower item.DisplayName
          let MaterialPath := FString.ToLower item.AssetData.PackagePath
          if FString.Contains MaterialName LowerSearchTerm ||
              FString.Contains MaterialPath LowerSearchTerm then Results ++ [MaterialItem]
          else Results
        | none => Results
      | none => Results) []
    st.SortMaterials Results

/-! ## Tag editor (`SHdriVaultMetadataPanel.cpp`, lines 129 to 150) -/

/-- Engine `FChar::IsWhitespace` on plain text: blank, tab, line feed, vertical
tab, form feed and carriage return. -/
def IsWhitespace (c : Char) : Bool :=
  c = ' ' || c = '\t' || c = '\n' || c.toNat = 11 || c.toNat = 12 || c = '\r'

/-- Engine `FString::TrimStartAndEnd`. -/
def FString.TrimStartAndEnd (s : String) : String :=
  ⟨((s.data.dropWhile IsWhitespace).reverse.dropWhile IsWhitespace).reverse⟩

/-- Engine `TArray<FString>::Remove`: every element that equals the text is
removed. -/
def TArray.Remove (l : List String) (s : String) : List String :=
  l.filter (fun t => !FString.Equals t s)

/-- Source function `SHdriVaultTagEditor::OnAddTag`: the tag list behind `TagsPtr` afterwards
(`none` is the null pointer); `BoxText` is the text of the input box. -/
def SHdriVaultTagEditor.OnAddTag (TagsPtr : Option (List String)) (BoxText : String) :
    Option (List String) :=
  let NewTag := FString.TrimStartAndEnd BoxText
  match TagsPtr with
  | some Tags =>
    if !NewTag.data.isEmpty && !TArray.Contains Tags NewTag then some (Tags ++ [NewTag])
    else some Tags
  | none => none

/-- Source function `SHdriVaultTagEditor::OnRemoveTag`. -/
def SHdriVaultTagEditor.OnRemoveTag (TagsPtr : Option (List String))
    (TagToRemove : Option String) : Option (List String) :=
  match TagToRemove, TagsPtr with
  | some t, some Tags => some (TArray.Remove Tags t)
  | _, _ => TagsPtr

/-! ## Metadata panel (`SHdriVaultMetadataPanel.cpp`, lines 453 to 526, 838 to 899, 931 to 998,
1068 to 1071 and 1157 to 1235)

The panel holds a pointer to the selected item, a copy of its metadata and
the flag for unsaved changes; the tag editor holds a pointer to the tag list
it edits. The item heap belongs to the manager in this model, so the panel
carries the manager, with `HasManager` telling whether its pointer
`HdriVaultManager` is set. Of the widgets the model keeps the text of the
four editable boxes, whose `OnTextChanged` is bound to the handlers
`OnMaterialNameChanged`, `OnAuthorChanged`, `OnCategoryChanged` and
`OnNotesChanged` (lines 642, 679, 691 and 760); all four are empty when the
panel is constructed. The text blocks for size, location and date have no
handler. The refresh that `ImportCustomThumbnail` broadcasts to other widgets
is not part of the model. -/

structure SHdriVaultMetadataPanel where
  Manager : UHdriVaultManager
  HasManager : Bool
  MaterialItem : TSharedPtr
  OriginalMetadata : FHdriVaultMetadata
  bHasUnsavedChanges : Bool
  MaterialNameTextBox : String
  AuthorTextBox : String
  CategoryTextBox : String
  NotesTextBox : String
  TagsPtr : TSharedPtr

/-- Write through an item pointer: `Ptr->field = ...`; nothing happens for the
null pointer. -/
def SHdriVaultMetadataPanel.withItem (p : SHdriVaultMetadataPanel) (Ptr : TSharedPtr)
    (f : FHdriVaultMaterialItem → FHdriVaultMaterialItem) : SHdriVaultMetadataPanel :=
  match Ptr with
  | some i => { p with Manager := { p.Manager with Items := modifyAt p.Manager.Items i f } }
  | none => p

/-- The selected item, read through the pointer `MaterialItem`. -/
def SHdriVaultMetadataPanel.Item (p : SHdriVaultMetadataPanel) : Option FHdriVaultMaterialItem :=
  p.MaterialItem.bind (fun i => p.Manager.Items[i]?)

/-- Source function `SHdriVaultMetadataPanel::MarkAsChanged`. -/
def SHdriVaultMetadataPanel.MarkAsChanged (p : SHdriVaultMetadataPanel) :
    SHdriVaultMetadataPanel :=
  if !p.bHasUnsavedChanges then
    let p1 := { p with bHasUnsavedChanges := true }
    p1.withItem p1.MaterialItem (fun item =>
      { item with Metadata := { item.Metadata with LastModified := p.Manager.Now } })
  else p

/-- Source function `SHdriVaultMetadataPanel::OnMaterialNameChanged`. -/
def SHdriVaultMetadataPanel.OnMaterialNameChanged (p : SHdriVaultMetadataPanel)
    (NewText : String) : SHdriVaultMetadataPanel :=
  match p.MaterialItem with
  | some i =>
    (p.withItem (some i) (fun item =>
      { item with Metadata := { item.Metadata with MaterialName := NewText } })).MarkAsChanged
  | none => p

/-- Source function `SHdriVaultMetadataPanel::OnAuthorChanged`. -/
def SHdriVaultMetadataPanel.OnAuthorChanged (p : SHdriVaultMetadataPanel)
    (NewText : String) : SHdriVaultMetadataPanel :=
  match p.MaterialItem with
  | some i =>
    (p.withItem (some i) (fun item =>
      { item with Metadata := { item.Metadata with Author := NewText } })).MarkAsChanged
  | none => p

/-- Source function `SHdriVaultMetadataPanel::OnCategoryChanged`. -/
def SHdriVaultMetadataPanel.OnCategoryChanged (p : SHdriVaultMetadataPanel)
    (NewText : String) : SHdriVaultMetadataPanel :=
  match p.MaterialItem with
  | some i =>
    (p.withItem (some i) (fun item =>
      { item with Metadata := { item.Metadata with Category := NewText } })).MarkAsChanged
  | none => p

/-- Source function `SHdriVaultMetadataPanel::OnNotesChanged`. -/
def SHdriVaultMetadataPanel.OnNotesChanged (p : SHdriVaultMetadataPanel)
    (NewText : String) : SHdriVaultMetadataPanel :=
  match p.MaterialItem with
  | some i =>
    (p.withItem (some i) (fun item =>
      { item with Metadata := { item.Metadata with Notes := NewText } })).MarkAsChanged
  | none => p

/-- Source function `SHdriVaultMetadataPanel::OnTagsChanged`. -/
def SHdriVaultMetadataPanel.OnTagsChanged (p : SHdriVaultMetadataPanel)
    (NewTags : List String) : SHdriVaultMetadataPanel :=
  match p.MaterialItem with
  | some i =>
    (p.withItem (some i) (fun item =>
      { item with Metadata := { item.Metadata with Tags := NewTags } })).MarkAsChanged
  | none => p

/-- Engine `SEditableTextBox::SetText` on the name box: the box takes the text and, when
that is not the text it held, it calls the handler bound with `OnTextChanged`,
here `OnMaterialNameChanged`, as it does for a change typed by the user. -/
def SHdriVaultMetadataPanel.SetTextMaterialName (p : SHdriVaultMetadataPanel)
    (InText : String) : SHdriVaultMetadataPanel :=
  if p.MaterialNameTextBox = InText then p
  else SHdriVaultMetadataPanel.OnMaterialNameChanged { p with MaterialNameTextBox := InText } InText

/-- Engine `SEditableTextBox::SetText` on the author box, bound to `OnAuthorChanged`. -/
def SHdriVaultMetadataPanel.SetTextAuthor (p : SHdriVaultMetadataPanel)
    (InText : String) : SHdriVaultMetadataPanel :=
  if p.AuthorTextBox = InText then p
  else SHdriVaultMetadataPanel.OnAuthorChanged { p with AuthorTextBox := InText } InText

/-- Engine `SEditableTextBox::SetText` on the category box, bound to `OnCategoryChanged`. -/
def SHdriVaultMetadataPanel.SetTextCategory (p : SHdriVaultMetadataPanel)
    (InText : String) : SHdriVaultMetadataPanel :=
  if p.CategoryTextBox = InText then p
  else SHdriVaultMetadataPanel.OnCategoryChanged { p with CategoryTextBox := InText } InText

/-- Engine `SMultiLineEditableTextBox::SetText` on the notes box, bound to `OnNotesChanged`. -/
def SHdriVaultMetadataPanel.SetTextNotes (p : SHdriVaultMetadataPanel)
    (InText : String) : SHdriVaultMetadataPanel :=
  if p.NotesTextBox = InText then p
  else SHdriVaultMetadataPanel.OnNotesChanged { p with NotesTextBox := InText } InText

/-- Source function `SHdriVaultMetadataPanel::UpdateUI`: the four boxes are set to the name,
author, category and notes of the selected item, each read when its box is
set, and the tag editor gets the pointer to the item's tag list. The text
blocks and the preview hold no state of the model. -/
def SHdriVaultMetadataPanel.UpdateUI (p : SHdriVaultMetadataPanel) : SHdriVaultMetadataPanel :=
  match p.Item with
  | none => p
  | some item =>
    let p1 := p.SetTextMaterialName item.Metadata.MaterialName
    let p2 :=
      match p1.Item with
      | some item1 => p1.SetTextAuthor item1.Metadata.Author
      | none => p1
    let p3 :=
      match p2.Item with
      | some item2 => p2.SetTextCategory item2.Metadata.Category
      | none => p2
    let p4 :=
      match p3.Item with
      | some item3 => p3.SetTextNotes item3.Metadata.Notes
      | none => p3
    { p4 with TagsPtr := p4.MaterialItem }

/-- Source function `SHdriVaultMetadataPanel::IsEnabled`: the boxes take input while an item
is selected. -/
def SHdriVaultMetadataPanel.IsEnabled (p : SHdriVaultMetadataPanel) : Bool :=
  p.MaterialItem.isSome

/-- The tag list behind the pointer of the tag editor. -/
def SHdriVaultMetadataPanel.EditedTags (p : SHdriVaultMetadataPanel) : Option (List String) :=
  (p.TagsPtr.bind (fun t => p.Manager.Items[t]?)).map (fun item => item.Metadata.Tags)

/-- The tag editor's `OnAddTag` (lines 129 to 139) inside the panel: the list behind
`TagsPtr` is changed in place and `NotifyTagsChanged` calls the panel's
`OnTagsChanged` with that list. -/
def SHdriVaultMetadataPanel.AddTag (p : SHdriVaultMetadataPanel) (BoxText : String) :
    SHdriVaultMetadataPanel :=
  let NewTag := FString.TrimStartAndEnd BoxText
  match p.EditedTags with
  | some Tags =>
    if !NewTag.data.isEmpty && !TArray.Contains Tags NewTag then
      (p.withItem p.TagsPtr (fun item =>
        { item with Metadata := { item.Metadata with Tags := Tags ++ [NewTag] } })).OnTagsChanged
        (Tags ++ [NewTag])
    else p
  | none => p

/-- The tag editor's `OnRemoveTag` (lines 141 to 150) inside the panel. -/
def SHdriVaultMetadataPanel.RemoveTag (p : SHdriVaultMetadataPanel)
    (TagToRemove : Option String) : SHdriVaultMetadataPanel :=
  match TagToRemove, p.EditedTags with
  | some t, some Tags =>
    (p.withItem p.TagsPtr (fun item =>
      { item with Metadata := { item.Metadata with Tags := TArray.Remove Tags t } })).OnTagsChanged
      (TArray.Remove Tags t)
  | _, _ => p

/-- Source function `SHdriVaultMetadataPanel::OnChangeThumbnail`. `Imported` is the path name of
the texture that the file dialog and `ImportCustomThumbnail` deliver, `none`
when the dialog is cancelled, the file is missing or the import fails. -/
def SHdriVaultMetadataPanel.OnChangeThumbnail (p : SHdriVaultMetadataPanel)
    (Imported : Option String) : SHdriVaultMetadataPanel :=
  match p.MaterialItem, p.HasManager, Imported with
  | some i, true, some PathName =>
    (p.withItem (some i) (fun item =>
      { item with Metadata := { item.Metadata with CustomThumbnailPath := PathName } })).MarkAsChanged
  | _, _, _ => p

/-- Source function `SHdriVaultMetadataPanel::RenameAsset`: the panel afterwards (the return
value is true exactly when an item is selected and the name is not empty). -/
def SHdriVaultMetadataPanel.RenameAsset (p : SHdriVaultMetadataPanel) (NewName : String) :
    SHdriVaultMetadataPanel :=
  match p.MaterialItem with
  | some i =>
    if NewName.data.isEmpty then p
    else
      (p.withItem (some i) (fun item =>
        { item with Metadata := { item.Metadata with MaterialName := NewName }
                    DisplayName := NewName })).MarkAsChanged
  | none => p

/-- The block of `SaveMetadata` that looks at the name (lines 497 to 518), for the
selected item `i` read as `item`. Both branches after `RenameAsset` write the
new name. -/
def SHdriVaultMetadataPanel.SaveMetadataName (p : SHdriVaultMetadataPanel) (i : Nat)
    (item : FHdriVaultMaterialItem) : SHdriVaultMetadataPanel :=
  let NewName := item.Metadata.MaterialName
  let CurrentAssetName := item.AssetData.AssetName
  if !NewName.data.isEmpty && !FString.Equals NewName CurrentAssetName then
    let p1 :=
      if p.OriginalMetadata.MaterialName.data.isEmpty then
        p.withItem (some i) (fun it =>
          { it with Metadata := { it.Metadata with MaterialName := CurrentAssetName } })
      else p
    (p1.RenameAsset NewName).withItem (some i) (fun it =>
      { it with Metadata := { it.Metadata with MaterialName := NewName } })
  else p

/-- Source function `SHdriVaultMetadataPanel::SaveMetadata`. -/
def SHdriVaultMetadataPanel.SaveMetadata (p : SHdriVaultMetadataPanel) :
    SHdriVaultMetadataPanel :=
  match p.MaterialItem with
  | none => p
  | some i =>
    match p.Manager.Items[i]? with
    | none => p
    | some item =>
      if p.HasManager && p.bHasUnsavedChanges then
        let p1 := p.SaveMetadataName i item
        let p2 := { p1 with Manager := p1.Manager.SaveMaterialMetadata (some i) }
        match p2.Manager.Items[i]? with
        | some saved => { p2 with OriginalMetadata := saved.Metadata, bHasUnsavedChanges := false }
        | none => p2
      else p

/-- Source function `SHdriVaultMetadataPanel::SetMaterialItem`. -/
def SHdriVaultMetadataPanel.SetMaterialItem (p : SHdriVaultMetadataPanel)
    (InMaterialItem : TSharedPtr) : SHdriVaultMetadataPanel :=
  let p1 := if p.bHasUnsavedChanges then p.SaveMetadata else p
  let p2 := { p1 with MaterialItem := InMaterialItem }
  match p2.Item with
  | none => p2.UpdateUI
  | some _ =>
    let p3 :=
      if p2.HasManager then
        { p2 with Manager := p2.Manager.LoadMaterialMetadata InMaterialItem }
      else p2
    match p3.Item with
    | some loaded =>
      SHdriVaultMetadataPanel.UpdateUI
        { p3 with OriginalMetadata := loaded.Metadata, bHasUnsavedChanges := false }
    | none => p3.UpdateUI

/-- Source function `SHdriVaultMetadataPanel::OnRevertClicked`. -/
def SHdriVaultMetadataPanel.OnRevertClicked (p : SHdriVaultMetadataPanel) :
    SHdriVaultMetadataPanel :=
  match p.MaterialItem with
  | some i =>
    SHdriVaultMetadataPanel.UpdateUI
      { (p.withItem (some i) (fun item => { item with Metadata := p.OriginalMetadata })) with
        bHasUnsavedChanges := false }
  | none => p

/-- Source function `SHdriVaultMetadataPanel::HasUnsavedChanges`. -/
def SHdriVaultMetadataPanel.HasUnsavedChanges (p : SHdriVaultMetadataPanel) : Bool :=
  p.bHasUnsavedChanges

/-- An edit that the user makes in the metadata panel: a text typed into one
of the boxes, a tag added or removed in the tag editor, or a custom thumbnail
chosen. -/
inductive FMetadataEdit where
  | MaterialName (NewText : String)
  | Author (NewText : String)
  | Category (NewText : String)
  | Notes (NewText : String)
  | AddTag (BoxText : String)
  | RemoveTag (TagToRemove : Option String)
  | ChangeThumbnail (Imported : Option String)
deriving DecidableEq, Repr

/-- The panel after an edit of the user. A text typed into an enabled box is
the text of the box afterwards, and the box calls its handler with it. -/
def SHdriVaultMetadataPanel.ApplyEdit (p : SHdriVaultMetadataPanel) (e : FMetadataEdit) :
    SHdriVaultMetadataPanel :=
  match e with
  | .MaterialName t =>
    if p.IsEnabled then
      SHdriVaultMetadataPanel.OnMaterialNameChanged { p with MaterialNameTextBox := t } t
    else p
  | .Author t =>
    if p.IsEnabled then SHdriVaultMetadataPanel.OnAuthorChanged { p with AuthorTextBox := t } t
    else p
  | .Category t =>
    if p.IsEnabled then SHdriVaultMetadataPanel.OnCategoryChanged { p with CategoryTextBox := t } t
    else p
  | .Notes t =>
    if p.IsEnabled then SHdriVaultMetadataPanel.OnNotesChanged { p with NotesTextBox := t } t
    else p
  | .AddTag t => p.AddTag t
  | .RemoveTag t => p.RemoveTag t
  | .ChangeThumbnail t => p.OnChangeThumbnail t

/-! ## Notions used in the statements -/

/-- The claim's predicate for C5: every item of `MaterialMap` is an asset of class TextureCube. -/
def UHdriVaultManager.OnlyTextureCubes (st : UHdriVaultManager) : Bool :=
  st.MaterialMap.all (fun p =>
    match p.2 with
    | none => true
    | some i =>
      match st.Items[i]? with
      | some item => FString.Equals item.AssetData.AssetClassPath TextureCubeClassPath
      | none => false)

/-- The claim's predicate for C6: the path is one of the three main folders or
lies below one of them. -/
def InMainFolders (p : String) : Bool :=
  FString.Equals p "/Game" || FString.Equals p "/Engine" || FString.Equals p "/Plugins" ||
  FString.StartsWith p "/Game/" || FString.StartsWith p "/Engine/" ||
  FString.StartsWith p "/Plugins/"

/-- The manager after `CreateFolderNode` has put a new node for `FolderPath`
on the heap and `FolderMap.Add` has registered it (lines 748 to 755). -/
def UHdriVaultManager.RegisterNewFolder (st : UHdriVaultManager) (FolderPath : String) :
    UHdriVaultManager :=
  { (st.CreateFolderNode FolderPath).1 with
    FolderMap := TMap.Add st.FolderMap FolderPath (some st.Folders.length) }

/-- The parts of the manager that the folder operations leave alone. -/
def SameOutsideFolders (a b : UHdriVaultManager) : Prop :=
  a.Items = b.Items ∧ a.MaterialMap = b.MaterialMap ∧ a.RootFolderNode = b.RootFolderNode ∧
  a.Settings = b.Settings

/-- The material map indexes exactly the assets of the list `assets`: every
entry has the object path of one of them as its key and points to an item
that holds the data of one of them with that object path, no key occurs
twice, and every asset of the list has an entry. -/
def IndexedFrom (st : UHdriVaultManager) (assets : List FAssetData) : Prop :=
  (∀ q ∈ st.MaterialMap, (∃ a ∈ assets, q.1 = a.GetObjectPathString) ∧
      ∃ i item, q.2 = some i ∧ st.Items[i]? = some item ∧ item.AssetData ∈ assets ∧
        FString.Equals item.AssetData.GetObjectPathString q.1 = true ∧
        item.DisplayName = item.AssetData.AssetName) ∧
  st.MaterialMap.Pairwise (fun p q => FString.Equals p.1 q.1 = false) ∧
  (∀ a ∈ assets, TMap.Contains st.MaterialMap a.GetObjectPathString = true)

/-- The node is registered in `FolderMap` under some path. -/
def UHdriVaultManager.Registered (st : UHdriVaultManager) (n : Nat) : Prop :=
  ∃ k, (k, some n) ∈ st.FolderMap

/-- The nodes of the current folder structure: the root and the registered nodes. -/
def UHdriVaultManager.Live (st : UHdriVaultManager) (n : Nat) : Prop :=
  st.RootFolderNode = some n ∨ st.Registered n

/-- Nodes that can be reached from the root folder through `Children`. -/
inductive UHdriVaultManager.Reachable (st : UHdriVaultManager) : Nat → Prop where
  | root (r : Nat) : st.RootFolderNode = some r → UHdriVaultManager.Reachable st r
  | child (n c : Nat) (node : FHdriVaultFolderNode) :
      UHdriVaultManager.Reachable st n → st.Folders[n]? = some node → c ∈ node.Children →
      UHdriVaultManager.Reachable st c

/-- The invariant of the folder structure while it is being built. `pend`
lists the folders that `GetOrCreateFolderNode` has registered but not yet
hung under their parent (the recursion for the parent is still running). -/
structure FolderTreeInv (st : UHdriVaultManager) (pend : List Nat) : Prop where
  root_valid : ∃ r, st.RootFolderNode = some r ∧ r < st.Folders.length
  registered_valid : ∀ q ∈ st.FolderMap, ∃ n, q.2 = some n ∧ n < st.Folders.length
  child_ok : ∀ n node c, st.Live n → st.Folders[n]? = some node → c ∈ node.Children →
    st.Registered c ∧ st.RootFolderNode ≠ some c ∧ c ∉ pend ∧
      ∃ cnode, st.Folders[c]? = some cnode ∧ cnode.Parent = some n
  child_unique : ∀ n m nodeN nodeM c, st.Live n → st.Live m →
    st.Folders[n]? = some nodeN → st.Folders[m]? = some nodeM →
    c ∈ nodeN.Children → c ∈ nodeM.Children → n = m
  children_nodup : ∀ n node, st.Live n → st.Folders[n]? = some node → node.Children.Nodup
  reachable : ∀ n, st.Live n → n ∉ pend → st.Reachable n
  pend_ok : ∀ c ∈ pend, st.Registered c ∧ st.RootFolderNode ≠ some c
  pend_leaf : ∀ c ∈ pend, ∀ node, st.Folders[c]? = some node → node.Children = []
  ranked : ∃ level : Nat → Nat, ∀ n node c, st.Live n → st.Folders[n]? = some node →
    c ∈ node.Children → level c = level n + 1

/-- A finite tree of folder pointers: a folder with the trees of its children. -/
inductive FolderTree where
  | node (id : Nat) (kids : List FolderTree)

/-- The folder at the top of the tree. -/
def FolderTree.id : FolderTree → Nat
  | .node i _ => i

/-- The folder of the tree and all its descendants, parents before children. -/
def FolderTree.ids : FolderTree → List Nat
  | .node i kids => i :: idsAll kids
where
  /-- The folders of a list of trees. -/
  idsAll : List FolderTree → List Nat
    | [] => []
    | k :: ks => k.ids ++ idsAll ks

/-- Number of levels of the tree. -/
def FolderTree.depth : FolderTree → Nat
  | .node _ kids => depthAll kids + 1
where
  /-- The largest number of levels in a list of trees. -/
  depthAll : List FolderTree → Nat
    | [] => 0
    | k :: ks => max k.depth (depthAll ks)

/-- The tree describes the folder `t.id` of the heap together with all its
descendants: every folder of the tree has a heap cell and the Children list
of the cell lists exactly the tops of the subtrees, in order. -/
def Unfolds (Folders : List FHdriVaultFolderNode) : FolderTree → Bool
  | .node i kids =>
    (match Folders[i]? with
      | some node => node.Children == kids.map FolderTree.id
      | none => false) && unfoldsAll Folders kids
where
  /-- Every tree of the list describes its folder. -/
  unfoldsAll (Folders : List FHdriVaultFolderNode) : List FolderTree → Bool
    | [] => true
    | k :: ks => Unfolds Folders k && unfoldsAll Folders ks

/-- The Materials lists of the given folders, one after the other. -/
def MaterialsOfFolders (Folders : List FHdriVaultFolderNode) : List Nat → List Nat
  | [] => []
  | d :: ds =>
    (match Folders[d]? with
      | some node => node.Materials
      | none => []) ++ MaterialsOfFolders Folders ds

/-- Representation invariant of a `TMap`: no key occurs twice (keys compare
ignoring case). -/
def TMap.Valid {V : Type} (m : TMap V) : Prop :=
  m.Pairwise (fun p q => FString.Equals p.1 q.1 = false)

/-- The root categories in display order, each with its name and its list of
item pointers. -/
def SHdriVaultCategoriesPanel.View (p : SHdriVaultCategoriesPanel) : List (String × List Nat) :=
  p.RootCategories.filterMap (fun c =>
    (p.Categories[c]?).map (fun cat => (cat.CategoryName, cat.Materials)))

/-- The order of a sort mode, as `SortMaterials` implements it: item `a` may
stand before item `b`. Mode Name: the display name of `b` is not less than
that of `a`; mode DateModified: `b` was not modified later than `a`; mode
Type: the class path of `b` is not less than that of `a`. `SortMaterials` has
no case for mode Size and leaves the order alone. -/
def EHdriVaultSortMode.InOrder (mode : EHdriVaultSortMode) (a b : FHdriVaultMaterialItem) :
    Prop :=
  match mode with
  | .Name => FString.Less b.DisplayName a.DisplayName = false
  | .DateModified => b.Metadata.LastModified.Ticks ≤ a.Metadata.LastModified.Ticks
  | .Type => FString.Less b.AssetData.AssetClassPath a.AssetData.AssetClassPath = false
  | .Size => True

/-- The registered folders with the item pointers that each of them lists. -/
def UHdriVaultManager.FolderListing (st : UHdriVaultManager) : List (String × List Nat) :=
  st.FolderMap.filterMap (fun q =>
    (q.2.bind (fun n => st.Folders[n]?)).map (fun node => (q.1, node.Materials)))

/-- The folder paths of the children of the root folder. -/
def UHdriVaultManager.RootChildren (st : UHdriVaultManager) : List String :=
  match st.RootFolderNode.bind (fun r => st.Folders[r]?) with
  | some root => root.Children.filterMap (fun c => (st.Folders[c]?).map (fun n => n.FolderPath))
  | none => []

/-- The first non-empty piece of a path between slashes, if there is one. -/
def firstComponent (p : String) : Option String :=
  match p.data.dropWhile (fun c => c = '/') with
  | [] => none
  | c :: cs => some ⟨(c :: cs).takeWhile (fun x => x ≠ '/')⟩

/-- The reference definition of the folder classification, in the words of
the specification; `containsEngine` is the test "contains `Engine`". Prefix
and component comparisons ignore letter case. -/
def OrganizePackagePathSpec (containsEngine : String → Bool) (p : String) : String :=
  if FString.StartsWith p "/Game" || FString.StartsWith p "/Engine" then p
  else if (match firstComponent p with
      | some c =>
        ["Engine", "Game", "Script", "Temp", "Memory"].all (fun n => !FString.Equals c n)
      | none => false) then "/Plugins" ++ p
  else if FString.StartsWith p "/Script" || FString.StartsWith p "/Temp" ||
      FString.StartsWith p "/Memory" || containsEngine p then "/Engine" ++ p
  else "/Game" ++ p

/-- Every entry of the material map points to a cell of the item heap, and no
item is stored under two keys. -/
def UHdriVaultManager.ItemsDistinct (st : UHdriVaultManager) : Prop :=
  (∀ q ∈ st.MaterialMap, ∃ i, q.2 = some i ∧ i < st.Items.length) ∧
  st.MaterialMap.Pairwise (fun p q => p.2 ≠ q.2)

/-- The file is an EXR file whose conversion to `.hdr` succeeds. -/
def ConvertsToHdr (LoadEXR : String → FLoadEXRResult)
    (stbi_write_hdr : String → Int → Int → Int → Nat → Int) (File : String) : Bool :=
  FString.Equals (FPaths.GetExtension File) "exr" &&
  (ConvertExrToHdr LoadEXR stbi_write_hdr File (FPaths.ChangeExtension File "hdr") "").1

/-- The text `s` contains the text `term` when letter case is ignored. -/
def ContainsIgnoringCase (s term : String) : Bool :=
  containsSub (term.data.map Char.toLower) (s.data.map Char.toLower)

/-- The metadata of the item behind a pointer, as the panel sees it. -/
def SHdriVaultMetadataPanel.MetadataOf (p : SHdriVaultMetadataPanel) (i : Nat) :
    Option FHdriVaultMetadata :=
  (p.Manager.Items[i]?).map (fun item => item.Metadata)

/-- The panel at a later time: the clock that `FDateTime::Now()` reads shows `Now`. -/
def SHdriVaultMetadataPanel.AtTime (p : SHdriVaultMetadataPanel) (Now : FDateTime) :
    SHdriVaultMetadataPanel :=
  { p with Manager := { p.Manager with Now := Now } }

/-! ## Example data -/

def exAsset : FAssetData :=
  { PackageName := "/Game/HDRI/Studio", PackagePath := "/Game/HDRI", AssetName := "Studio",
    AssetClassPath := "/Script/Engine.TextureCube" }

/-- An item edited at 2024-01-01 00:00:00 and half a second. -/
def exEditedItem : FHdriVaultMaterialItem :=
  { FHdriVaultMaterialItem.ofAssetData exAsset ⟨638396640005000000⟩ with
    Metadata :=
      { MaterialName := "Studio", Location := "/Game/HDRI/Studio", Author := "Ada",
        LastModified := ⟨638396640005000000⟩, Notes := "soft \"key\" light",
        Tags := ["indoor", "studio"], Category := "Interior", CustomThumbnailPath := "" } }

/-- The same item with a whole number of seconds as its modification time. -/
def exWholeSecondItem : FHdriVaultMaterialItem :=
  { exEditedItem with
    Metadata :=
      { MaterialName := "Studio", Location := "/Game/HDRI/Studio", Author := "Ada",
        LastModified := ⟨638396640000000000⟩, Notes := "soft \"key\" light",
        Tags := ["indoor", "studio"], Category := "Interior", CustomThumbnailPath := "" } }

def exManager (items : List FHdriVaultMaterialItem) : UHdriVaultManager :=
  { Items := items, Folders := [], MaterialMap := [], RootFolderNode := none, FolderMap := [],
    Settings := FHdriVaultSettings.default, AssetRegistryModule := some [], MetadataCache := [],
    bIsInitialized := true, Files := [], ProjectDir := "C:/Project/", Now := ⟨638396640100000000⟩ }

/-- The manager of a later editor session: the files written by the save are
on disk, the metadata cache is empty and the asset has a fresh item. -/
def exRestarted (saved : UHdriVaultManager) : UHdriVaultManager :=
  { saved with
    Items := [FHdriVaultMaterialItem.ofAssetData exAsset saved.Now]
    MetadataCache := [] }

def exNightStudio : FAssetData :=
  { PackageName := "/Game/Sky/Night_HDR/Studio", PackagePath := "/Game/Sky/Night_HDR",
    AssetName := "Studio", AssetClassPath := "/Script/Engine.TextureCube" }

def exSkyNightStudio : FAssetData :=
  { PackageName := "/Game/Sky_Night/HDR/Studio", PackagePath := "/Game/Sky_Night/HDR",
    AssetName := "Studio", AssetClassPath := "/Script/Engine.TextureCube" }

def exEntry (texture : Nat) (ticks : Nat) : FThumbnailCacheEntry :=
  { Brush := some (texture, 128), Texture := some texture, ThumbnailSize := 128,
    LastAccessTime := ⟨ticks⟩ }

/-- A thumbnail manager whose limit was lowered to one entry by
`SetMaxCacheSize` while three thumbnails were cached. -/
def exThumbnailManager : FHdriVaultThumbnailManager :=
  { ThumbnailCache :=
      [("/Game/HDRI/Studio.Studio_128", exEntry 1 30),
       ("/Game/HDRI/Dawn.Dawn_128", exEntry 2 10),
       ("/Game/HDRI/Dusk.Dusk_128", exEntry 3 20)]
    DefaultThumbnailSize := 128
    MaxCacheSize := 1
    PendingThumbnails := []
    DefaultMaterialTexture := some 0
    ErrorTexture := some 0
    bIsInitialized := true
    Now := ⟨40⟩ }

def exChair : FAssetData :=
  { PackageName := "/Game/Props/Chair", PackagePath := "/Game/Props", AssetName := "Chair",
    AssetClassPath := "/Script/Engine.StaticMesh" }

def exBlank : UHdriVaultManager :=
  { Items := [], Folders := [], MaterialMap := [], RootFolderNode := none, FolderMap := [],
    Settings := FHdriVaultSettings.default, AssetRegistryModule := none, MetadataCache := [],
    bIsInitialized := false, Files := [], ProjectDir := "C:/Project/", Now := ⟨638396640100000000⟩ }

/-- An initialised manager that has indexed the registry's one cube map. -/
def exIndexed : UHdriVaultManager :=
  (exBlank.Initialize [exAsset, exChair]).RefreshMaterialDatabase

def exPluginSky : FAssetData :=
  { PackageName := "/GameplayAbilities/Sky/Dawn", PackagePath := "/GameplayAbilities/Sky",
    AssetName := "Dawn", AssetClassPath := "/Script/Engine.TextureCube" }

def exTwoCubes : UHdriVaultManager :=
  (exBlank.Initialize [exAsset, exNightStudio, exChair]).RefreshMaterialDatabase

/-- The folder `/Game` of `exTwoCubes` with its descendants `/Game/HDRI`,
`/Game/Sky` and `/Game/Sky/Night_HDR`. -/
def exGameTree : FolderTree :=
  .node 1 [.node 4 [], .node 6 [.node 5 []]]

def exDawn : FAssetData :=
  { PackageName := "/Game/Other/Dawn", PackagePath := "/Game/Other", AssetName := "Dawn",
    AssetClassPath := "/Script/Engine.TextureCube" }



/-- A manager whose root folder setting was changed to `/Game/HDRI` with
`SetSettings` after initialisation, and to which the registry then reported
two new cube maps, one after the other. -/
def exCustomRoot : UHdriVaultManager :=
  ((((exBlank.Initialize []).SetSettings
      { SortMode := EHdriVaultSortMode.Name, RootFolder := "/Game/HDRI" }).OnAssetAdded
      exAsset).OnAssetAdded exDawn)

/-- An initialised thumbnail manager with the default limit of 1000 entries,
an empty cache and a pending request for the indexed cube map. -/
def exPendingManager : FHdriVaultThumbnailManager :=
  { ThumbnailCache := []
    DefaultThumbnailSize := 128
    MaxCacheSize := 1000
    PendingThumbnails := [("/Game/HDRI/Studio.Studio", some 0)]
    DefaultMaterialTexture := some 0
    ErrorTexture := some 1
    bIsInitialized := true
    Now := ⟨40⟩ }

/-- The engine loads the indexed cube map as an object of class TextureCube. -/
def exLoadSynchronous (path : String) : Option UObject :=
  if FString.Equals path "/Game/HDRI/Studio.Studio" then some { Id := 7, Class := UClass.TextureCube }
  else none

/-- An engine that renders every thumbnail it is asked for. -/
def exRender : FThumbnailRender :=
  { ExistingThumbnail := none, CreatePackageSucceeds := true, NewThumbnail := 9,
    ReadPixels := some 16384 }

/-- A decoder that reads `C:/sky.exr` as a 2 by 1 image and fails on every
other file. -/
def exLoadEXR (file : String) : FLoadEXRResult :=
  if file = "C:/sky.exr" then { Ret := 0, Rgba := some 1, Width := 2, Height := 1, Err := none }
  else { Ret := -7, Rgba := none, Width := 0, Height := 0, Err := some "Cannot read file." }

/-- A writer that succeeds. -/
def exWriteHdr (_file : String) (_w _h _comp : Int) (_data : Nat) : Int := 1

/-- A level with a sky light, a sky light that lost its component, a backdrop
and a cube. -/
def exWorld : List AActor :=
  [{ Name := "SkyLight_0", ClassName := "SkyLight", IsSkyLight := true,
     LightComponent := some { SourceType := ESkyLightSourceType.SLS_CapturedScene,
                              Cubemap := none, bCaptureIsDirty := false },
     IsBackdrop := false, CubemapProperty := none },
   { Name := "SkyLight_1", ClassName := "SkyLight", IsSkyLight := true, LightComponent := none,
     IsBackdrop := false, CubemapProperty := none },
   { Name := "HDRIBackdrop_0", ClassName := "HDRIBackdrop_C", IsSkyLight := false,
     LightComponent := none, IsBackdrop := true,
     CubemapProperty := some { IsTextureCubeProperty := true, Value := none } },
   { Name := "Cube_0", ClassName := "StaticMeshActor", IsSkyLight := false,
     LightComponent := none, IsBackdrop := false, CubemapProperty := none }]

def exEmptyPanel : SHdriVaultCategoriesPanel :=
  { Categories := [], RootCategories := [] }

/-- A manager that indexes three cube maps; the user has typed the category
`All` for the first and `Interior` for the second and left the third without
a category. -/
def exCategorized : UHdriVaultManager :=
  (((exBlank.Initialize [exAsset, exNightStudio, exDawn]).RefreshMaterialDatabase).OnCategoryChanged
    (some 0) "All").OnCategoryChanged (some 1) "Interior"

/-- The manager `exCategorized` after the tags `indoor` and `Studio` were given
to the first item and `studio` to the third. -/
def exTagged : UHdriVaultManager :=
  { exCategorized with
    Items := modifyAt (modifyAt exCategorized.Items 0 (fun item =>
        { item with Metadata := { item.Metadata with Tags := ["indoor", "Studio"] } }))
      2 (fun item => { item with Metadata := { item.Metadata with Tags := ["studio"] } }) }

/-- The asset data of the cube map `/Game/HDRI/Studio.Studio` after it was
renamed to `Atelier` and moved to the folder `/Game/Interior`. -/
def exAtelier : FAssetData :=
  { PackageName := "/Game/Interior/Atelier", PackagePath := "/Game/Interior",
    AssetName := "Atelier", AssetClassPath := "/Script/Engine.TextureCube" }

/-- A cache with the thumbnails of `/Game/HDRI/Studio.Studio` in two sizes, of
the plugin asset `/MyPlugin/Game/HDRI/Studio.Studio` and of
`/Game/HDRI/Dawn.Dawn`. -/
def exSharedNameCache : FHdriVaultThumbnailManager :=
  { exPendingManager with
    ThumbnailCache :=
      [("/Game/HDRI/Studio.Studio_128", exEntry 1 30),
       ("/Game/HDRI/Studio.Studio_256", exEntry 2 31),
       ("/MyPlugin/Game/HDRI/Studio.Studio_128", exEntry 3 32),
       ("/Game/HDRI/Dawn.Dawn_128", exEntry 4 33)] }

/-- A manager that indexes two cube maps; the user has typed the category
`Uncategorized` for the first and `Zebra` for the second, so no item has an
empty category. -/
def exReservedName : UHdriVaultManager :=
  (((exBlank.Initialize [exAsset, exNightStudio]).RefreshMaterialDatabase).OnCategoryChanged
    (some 0) "Uncategorized").OnCategoryChanged (some 1) "Zebra"

/-- A panel as constructed, with no item selected and empty boxes, next to the
manager `exTagged` one minute after its items were made. -/
def exPanel : SHdriVaultMetadataPanel :=
  { Manager := { exTagged with Now := { Ticks := exTagged.Now.Ticks + 600000000 } }
    HasManager := true, MaterialItem := none,
    OriginalMetadata := FHdriVaultMetadata.default ⟨0⟩, bHasUnsavedChanges := false,
    MaterialNameTextBox := "", AuthorTextBox := "", CategoryTextBox := "", NotesTextBox := "",
    TagsPtr := none }

/-- The user types the name Dawn and adds the tag sky. -/
def exEdits : List FMetadataEdit :=
  [.MaterialName "Dawn", .AddTag "  sky "]

/-- The panel `exPanel` after the first item is selected, two minutes pass,
the edits `exEdits` are made, one more minute passes and Revert is clicked. -/
def exReverted : SHdriVaultMetadataPanel :=
  ((exEdits.foldl SHdriVaultMetadataPanel.ApplyEdit
    ((exPanel.SetMaterialItem (some 0)).AtTime { Ticks := 638396641900000000 })).AtTime
      { Ticks := 638396642500000000 }).OnRevertClicked

/-! ## Basic facts about strings and maps -/

theorem FString.Equals_iff (a b : String) :
    FString.Equals a b = true ↔ a.data.map Char.toLower = b.data.map Char.toLower := by
  simp [FString.Equals]

theorem FString.Equals_refl (a : String) : FString.Equals a a = true := by
  simp [FString.Equals]

theorem FString.Equals_symm (a b : String) : FString.Equals a b = FString.Equals b a := by
  rw [Bool.eq_iff_iff, FString.Equals_iff, FString.Equals_iff]
  exact eq_comm

theorem FString.Equals_trans {a b c : String} (h1 : FString.Equals a b = true)
    (h2 : FString.Equals b c = true) : FString.Equals a c = true := by
  rw [FString.Equals_iff] at *
  exact h1.trans h2

theorem FString.Equals_congr_left {a b : String} (h : FString.Equals a b = true) (c : String) :
    FString.Equals a c = FString.Equals b c := by
  rw [Bool.eq_iff_iff, FString.Equals_iff, FString.Equals_iff]
  rw [FString.Equals_iff] at h
  rw [h]

theorem FString.Equals_length {a b : String} (h : FString.Equals a b = true) :
    a.data.length = b.data.length := by
  rw [FString.Equals_iff] at h
  have := congrArg List.length h
  simpa using this

theorem TMap.Find_Add_self {V : Type} (m : TMap V) (k : String) (v : V) :
    TMap.Find (TMap.Add m k v) k = some v := by
  induction m with
  | nil => simp [TMap.Add, TMap.Find, FString.Equals_refl]
  | cons p rest ih =>
    by_cases h : FString.Equals p.1 k = true
    · simp [TMap.Add, TMap.Find, h, FString.Equals_refl]
    · simp [TMap.Add, TMap.Find, h, ih]

theorem TMap.Find_Add_of_ne {V : Type} (m : TMap V) (k k' : String) (v : V)
    (hne : FString.Equals k k' = false) : TMap.Find (TMap.Add m k v) k' = TMap.Find m k' := by
  induction m with
  | nil => simp [TMap.Add, TMap.Find, hne]
  | cons p rest ih =>
    by_cases h : FString.Equals p.1 k = true
    · have h' : FString.Equals p.1 k' = false := by
        rw [FString.Equals_congr_left h]; exact hne
      simp [TMap.Add, TMap.Find, h, h', hne]
    · by_cases h2 : FString.Equals p.1 k' = true
      · simp [TMap.Add, TMap.Find, h, h2]
      · simp [TMap.Add, TMap.Find, h, h2, ih]

theorem TMap.Contains_iff_Find {V : Type} (m : TMap V) (k : String) :
    TMap.Contains m k = (TMap.Find m k).isSome := by
  induction m with
  | nil => simp [TMap.Contains, TMap.Find]
  | cons p rest ih =>
    by_cases h : FString.Equals p.1 k = true
    · simp [TMap.Contains, TMap.Find, h]
    · simp only [TMap.Contains] at ih
      simp [TMap.Contains, TMap.Find, h, ih]

theorem TMap.Find_eq_none_of_not_Contains {V : Type} (m : TMap V) (k : String)
    (h : TMap.Contains m k = false) : TMap.Find m k = none := by
  rw [TMap.Contains_iff_Find] at h
  simpa using h

/-! ## Metadata persistence -/

/-- The JSON object of `SaveMaterialMetadata`, field by field. -/
theorem MetadataJsonObject_eq (m : FHdriVaultMetadata) :
    MetadataJsonObject m =
      [("MaterialName", FJsonValue.ValueString m.MaterialName),
       ("Location", FJsonValue.ValueString m.Location),
       ("Author", FJsonValue.ValueString m.Author),
       ("LastModified", FJsonValue.ValueString m.LastModified.ToString),
       ("Notes", FJsonValue.ValueString m.Notes),
       ("Category", FJsonValue.ValueString m.Category),
       ("CustomThumbnailPath", FJsonValue.ValueString m.CustomThumbnailPath),
       ("Tags", FJsonValue.ValueArray (m.Tags.map FJsonValue.ValueString))] := by
  rfl

theorem MetadataFromJson_fields (a b c s d e f : String) (tags : List String)
    (old : FHdriVaultMetadata) :
    MetadataFromJson
      [("MaterialName", FJsonValue.ValueString a),
       ("Location", FJsonValue.ValueString b),
       ("Author", FJsonValue.ValueString c),
       ("LastModified", FJsonValue.ValueString s),
       ("Notes", FJsonValue.ValueString d),
       ("Category", FJsonValue.ValueString e),
       ("CustomThumbnailPath", FJsonValue.ValueString f),
       ("Tags", FJsonValue.ValueArray (tags.map FJsonValue.ValueString))] old =
      { MaterialName := a, Location := b, Author := c,
        LastModified := (FDateTime.Parse s).getD old.LastModified, Notes := d, Tags := tags,
        Category := e, CustomThumbnailPath := f } := by
  have h10 : (tags.map FJsonValue.ValueString).map FJsonValue.AsString = tags := by
    rw [List.map_map]
    exact List.map_id _
  cases hp : FDateTime.Parse s with
  | none =>
    simp only [MetadataFromJson, FJsonObject.GetStringField, FJsonObject.TryGetArrayField,
      FJsonObject.HasStringField, TMap.Find, hp]
    simp [FString.Equals, FJsonValue.AsString, h10, hp]
  | some t =>
    simp only [MetadataFromJson, FJsonObject.GetStringField, FJsonObject.TryGetArrayField,
      FJsonObject.HasStringField, TMap.Find, hp]
    simp [FString.Equals, FJsonValue.AsString, h10, hp]

theorem MetadataFromJson_MetadataJsonObject (m old : FHdriVaultMetadata) :
    MetadataFromJson (MetadataJsonObject m) old =
      { m with LastModified := (FDateTime.Parse m.LastModified.ToString).getD old.LastModified } := by
  rw [MetadataJsonObject_eq]
  exact MetadataFromJson_fields _ _ _ _ _ _ _ _ _

theorem getElem?_modifyAt {α : Type} (l : List α) (i j : Nat) (f : α → α) :
    (modifyAt l i f)[j]? = if i = j then (l[j]?).map f else l[j]? := by
  unfold modifyAt
  cases h : l[i]? with
  | none =>
    by_cases hij : i = j
    · subst hij; simp [h]
    · simp [hij]
  | some a =>
    by_cases hij : i = j
    · subst hij
      have hlt : i < l.length := by
        rcases List.getElem?_eq_some.1 h with ⟨hlt, _⟩
        exact hlt
      simp [h, List.getElem?_set, hlt]
    · simp [hij, List.getElem?_set]

theorem length_modifyAt {α : Type} (l : List α) (i : Nat) (f : α → α) :
    (modifyAt l i f).length = l.length := by
  unfold modifyAt
  cases h : l[i]? <;> simp

/-- C2. For every valid item, the sidecar file written by `SaveMaterialMetadata`
holds a JSON object with exactly the eight fields MaterialName, Location,
Author, LastModified, Notes, Category, CustomThumbnailPath and Tags: the first
seven are strings carrying the metadata values (LastModified as the string
form of the date-time) and Tags is an array with one string per tag, in the
order of the tag list. -/
theorem SaveMaterialMetadata_writes_eight_fields (st : UHdriVaultManager) (i : Nat)
    (item : FHdriVaultMaterialItem) (hitem : st.Items[i]? = some item) :
    TMap.Find (st.SaveMaterialMetadata (some i)).Files (st.GetMetadataFilePath item.AssetData) =
      some [("MaterialName", FJsonValue.ValueString item.Metadata.MaterialName),
            ("Location", FJsonValue.ValueString item.Metadata.Location),
            ("Author", FJsonValue.ValueString item.Metadata.Author),
            ("LastModified", FJsonValue.ValueString item.Metadata.LastModified.ToString),
            ("Notes", FJsonValue.ValueString item.Metadata.Notes),
            ("Category", FJsonValue.ValueString item.Metadata.Category),
            ("CustomThumbnailPath", FJsonValue.ValueString item.Metadata.CustomThumbnailPath),
            ("Tags", FJsonValue.ValueArray (item.Metadata.Tags.map FJsonValue.ValueString))] := by
  simp only [UHdriVaultManager.SaveMaterialMetadata, hitem]
  rw [TMap.Find_Add_self, MetadataJsonObject_eq]

theorem SaveMaterialMetadata_Files (st : UHdriVaultManager) (i : Nat)
    (item : FHdriVaultMaterialItem) (hitem : st.Items[i]? = some item) :
    TMap.Find (st.SaveMaterialMetadata (some i)).Files (st.GetMetadataFilePath item.AssetData) =
      some (MetadataJsonObject item.Metadata) := by
  simp only [UHdriVaultManager.SaveMaterialMetadata, hitem]
  rw [TMap.Find_Add_self]

theorem GetMetadataFilePath_congr (st st2 : UHdriVaultManager) (a : FAssetData)
    (h : st2.ProjectDir = st.ProjectDir) :
    st2.GetMetadataFilePath a = st.GetMetadataFilePath a := by
  simp only [UHdriVaultManager.GetMetadataFilePath, h]

theorem loaded_metadata_fields (fresh : FHdriVaultMaterialItem) (m : FHdriVaultMetadata)
    (X : FDateTime) :
    ({ fresh with Metadata := { m with LastModified := X } } :
        FHdriVaultMaterialItem).Metadata.MaterialName = m.MaterialName ∧
    ({ fresh with Metadata := { m with LastModified := X } } :
        FHdriVaultMaterialItem).Metadata.Location = m.Location ∧
    ({ fresh with Metadata := { m with LastModified := X } } :
        FHdriVaultMaterialItem).Metadata.Author = m.Author ∧
    ({ fresh with Metadata := { m with LastModified := X } } :
        FHdriVaultMaterialItem).Metadata.Notes = m.Notes ∧
    ({ fresh with Metadata := { m with LastModified := X } } :
        FHdriVaultMaterialItem).Metadata.Category = m.Category ∧
    ({ fresh with Metadata := { m with LastModified := X } } :
        FHdriVaultMaterialItem).Metadata.CustomThumbnailPath = m.CustomThumbnailPath ∧
    ({ fresh with Metadata := { m with LastModified := X } } :
        FHdriVaultMaterialItem).Metadata.Tags = m.Tags ∧
    ({ fresh with Metadata := { m with LastModified := X } } :
        FHdriVaultMaterialItem).Metadata.LastModified = X ∧
    (X = m.LastModified →
      ({ fresh with Metadata := { m with LastModified := X } } :
        FHdriVaultMaterialItem).Metadata = m) := by
  refine ⟨rfl, rfl, rfl, rfl, rfl, rfl, rfl, rfl, ?_⟩
  intro h
  subst h
  rfl

/-- C1, as amended. After `SaveMaterialMetadata` has written the sidecar file
of an item, `LoadMaterialMetadata` on a fresh item of the same asset, with no
entry for it in the metadata cache, reads back MaterialName, Location, Author,
Notes, Category, CustomThumbnailPath and Tags (same tags, same order) as they
were saved. LastModified becomes what `FDateTime::Parse` reads from the saved
string form (the fresh item keeps its own value when that fails); it equals
the saved value exactly when the saved value survives that string form, and
then all eight fields agree. -/
theorem Save_then_Load_metadata (st st2 : UHdriVaultManager) (i j : Nat)
    (item fresh : FHdriVaultMaterialItem)
    (hitem : st.Items[i]? = some item)
    (hfresh : st2.Items[j]? = some fresh)
    (hasset : fresh.AssetData = item.AssetData)
    (hfiles : st2.Files = (st.SaveMaterialMetadata (some i)).Files)
    (hdir : st2.ProjectDir = st.ProjectDir)
    (hcache : TMap.Contains st2.MetadataCache item.AssetData.GetObjectPathString = false) :
    ∃ loaded, (st2.LoadMaterialMetadata (some j)).Items[j]? = some loaded ∧
      loaded.Metadata.MaterialName = item.Metadata.MaterialName ∧
      loaded.Metadata.Location = item.Metadata.Location ∧
      loaded.Metadata.Author = item.Metadata.Author ∧
      loaded.Metadata.Notes = item.Metadata.Notes ∧
      loaded.Metadata.Category = item.Metadata.Category ∧
      loaded.Metadata.CustomThumbnailPath = item.Metadata.CustomThumbnailPath ∧
      loaded.Metadata.Tags = item.Metadata.Tags ∧
      loaded.Metadata.LastModified =
        (FDateTime.Parse item.Metadata.LastModified.ToString).getD fresh.Metadata.LastModified ∧
      (FDateTime.Parse item.Metadata.LastModified.ToString = some item.Metadata.LastModified →
        loaded.Metadata = item.Metadata) := by
  have hc : TMap.Find st2.MetadataCache fresh.AssetData.GetObjectPathString = none := by
    rw [hasset]; exact TMap.Find_eq_none_of_not_Contains _ _ hcache
  have hf : TMap.Find st2.Files (st2.GetMetadataFilePath fresh.AssetData) =
      some (MetadataJsonObject item.Metadata) := by
    rw [hfiles, hasset, GetMetadataFilePath_congr st st2 _ hdir]
    exact SaveMaterialMetadata_Files st i item hitem
  have hlt : j < st2.Items.length := (List.getElem?_eq_some.1 hfresh).1
  have hload : (st2.LoadMaterialMetadata (some j)).Items[j]? =
      some { fresh with
        Metadata := (MetadataFromJson (MetadataJsonObject item.Metadata) fresh.Metadata) } := by
    simp only [UHdriVaultManager.LoadMaterialMetadata, hfresh, hc, hf]
    simp [List.getElem?_set, hlt]
  rw [MetadataFromJson_MetadataJsonObject] at hload
  obtain ⟨h1, h2, h3, h4, h5, h6, h7, h8, h9⟩ := loaded_metadata_fields fresh item.Metadata
    ((FDateTime.Parse item.Metadata.LastModified.ToString).getD fresh.Metadata.LastModified)
  refine ⟨_, hload, h1, h2, h3, h4, h5, h6, h7, h8, fun hp => h9 ?_⟩
  rw [hp]
  rfl

theorem Save_then_Load_metadata_witness :
    ∃ loaded, ((exRestarted ((exManager [exWholeSecondItem]).SaveMaterialMetadata (some 0))).LoadMaterialMetadata
        (some 0)).Items[0]? = some loaded ∧ loaded.Metadata = exWholeSecondItem.Metadata := by
  obtain ⟨loaded, h, _, _, _, _, _, _, _, _, hall⟩ :=
    Save_then_Load_metadata (exManager [exWholeSecondItem])
      (exRestarted ((exManager [exWholeSecondItem]).SaveMaterialMetadata (some 0))) 0 0
      exWholeSecondItem (FHdriVaultMaterialItem.ofAssetData exAsset ⟨638396640100000000⟩)
      (by decide) (by decide) (by decide) rfl rfl (by decide)
  exact ⟨loaded, h, hall (by decide)⟩

/-- C1, counterexample. An item saved half a second past 2024-01-01 00:00:00
is read back, by a fresh item with an empty metadata cache, with LastModified
at the full second: the loaded metadata differs from the saved metadata. -/
theorem Save_then_Load_drops_subsecond :
    TMap.Contains (exRestarted ((exManager [exEditedItem]).SaveMaterialMetadata (some 0))).MetadataCache
        exAsset.GetObjectPathString = false ∧
    (((exRestarted ((exManager [exEditedItem]).SaveMaterialMetadata (some 0))).LoadMaterialMetadata
        (some 0)).Items[0]?).map (fun it => it.Metadata.LastModified) =
      some ⟨638396640000000000⟩ ∧
    (((exRestarted ((exManager [exEditedItem]).SaveMaterialMetadata (some 0))).LoadMaterialMetadata
        (some 0)).Items[0]?).map (fun it => it.Metadata) ≠ some exEditedItem.Metadata := by
  decide

theorem SaveMaterialMetadata_writes_eight_fields_witness :
    (exManager [exEditedItem]).Items[0]? = some exEditedItem ∧
    TMap.Find ((exManager [exEditedItem]).SaveMaterialMetadata (some 0)).Files
        "C:/Project/Saved/HdriVault/Metadata/HDRI_Studio_Studio.json" =
      some [("MaterialName", FJsonValue.ValueString "Studio"),
            ("Location", FJsonValue.ValueString "/Game/HDRI/Studio"),
            ("Author", FJsonValue.ValueString "Ada"),
            ("LastModified", FJsonValue.ValueString "2024.01.01-00.00.00"),
            ("Notes", FJsonValue.ValueString "soft \"key\" light"),
            ("Category", FJsonValue.ValueString "Interior"),
            ("CustomThumbnailPath", FJsonValue.ValueString ""),
            ("Tags", FJsonValue.ValueArray
              [FJsonValue.ValueString "indoor", FJsonValue.ValueString "studio"])] :=
  ⟨by decide, SaveMaterialMetadata_writes_eight_fields (exManager [exEditedItem]) 0 exEditedItem
    (by decide)⟩

/-- C3, failing input. The assets `/Game/Sky/Night_HDR/Studio.Studio` and
`/Game/Sky_Night/HDR/Studio.Studio` have different package names, yet
`GetMetadataFilePath` gives both the same sidecar file, whatever the project
directory: replacing `/` by `_` makes the two package names coincide. -/
theorem GetMetadataFilePath_collision (st : UHdriVaultManager) :
    exNightStudio.PackageName ≠ exSkyNightStudio.PackageName ∧
    FString.Equals exNightStudio.GetObjectPathString exSkyNightStudio.GetObjectPathString = false ∧
    st.GetMetadataFilePath exNightStudio = st.GetMetadataFilePath exSkyNightStudio := by
  refine ⟨by decide, by decide, ?_⟩
  have h : FString.ReplaceChar (FString.RemoveFromStart exNightStudio.PackageName "/Game/") '/' '_' =
      FString.ReplaceChar (FString.RemoveFromStart exSkyNightStudio.PackageName "/Game/") '/' '_' := by
    decide
  have hn : exNightStudio.AssetName = exSkyNightStudio.AssetName := by decide
  simp only [UHdriVaultManager.GetMetadataFilePath, h, hn]

/-! ## Thumbnail cache -/

theorem RemoveOldest_eq_foldl_take (cache : TMap FThumbnailCacheEntry)
    (SortedEntries : List (String × FDateTime)) (n : Nat) :
    RemoveOldest cache SortedEntries n =
      (SortedEntries.take n).foldl (fun c e => TMap.Remove c e.1) cache := by
  unfold RemoveOldest
  induction n with
  | zero => simp
  | succ n ih =>
    rw [List.range_succ, List.foldl_append, ih, List.take_succ, List.foldl_append]
    cases h : SortedEntries[n]? <;> simp [h]

theorem foldl_Remove_eq_filter {V : Type} (keys : List (String × FDateTime)) (cache : TMap V) :
    keys.foldl (fun c e => TMap.Remove c e.1) cache =
      cache.filter (fun p => keys.all (fun e => !FString.Equals p.1 e.1)) := by
  induction keys generalizing cache with
  | nil => simp
  | cons e rest ih =>
    rw [List.foldl_cons, ih]
    simp only [TMap.Remove, List.filter_filter, List.all_cons]
    congr 1
    funext p
    rw [Bool.and_comm]

theorem TArray.Sort_perm {α : Type} (lt : α → α → Bool) (l : List α) :
    (TArray.Sort lt l).Perm l :=
  List.perm_insertionSort _ l

theorem length_RemoveOldest_le (cache : TMap FThumbnailCacheEntry)
    (SortedEntries : List (String × FDateTime)) (n : Nat)
    (hperm : SortedEntries.Perm (cache.map (fun e => (e.1, e.2.LastAccessTime))))
    (hn : n ≤ cache.length) :
    (RemoveOldest cache SortedEntries n).length + n ≤ cache.length := by
  rw [RemoveOldest_eq_foldl_take, foldl_Remove_eq_filter]
  set T := SortedEntries.take n with hT
  set g : String × FThumbnailCacheEntry → String × FDateTime :=
    fun e => (e.1, e.2.LastAccessTime) with hg
  have hTlen : T.length = n := by
    rw [hT, List.length_take, hperm.length_eq, List.length_map]
    exact Nat.min_eq_left hn
  have hsub : T.Subperm (cache.map g) :=
    ((List.take_sublist n SortedEntries).subperm).trans hperm.subperm
  have hcount : n ≤ cache.countP (fun p => decide (g p ∈ T)) := by
    have h1 : T.countP (fun x => decide (x ∈ T)) ≤ (cache.map g).countP (fun x => decide (x ∈ T)) :=
      hsub.countP_le _
    have h2 : T.countP (fun x => decide (x ∈ T)) = T.length := by
      rw [List.countP_eq_length]
      intro x hx
      simpa using hx
    rw [h2, hTlen, List.countP_map] at h1
    exact h1
  have hkeep : (cache.filter (fun p => T.all (fun e => !FString.Equals p.1 e.1))).length ≤
      cache.countP (fun p => !decide (g p ∈ T)) := by
    rw [← List.countP_eq_length_filter]
    apply List.countP_mono_left
    intro p _ hp
    simp only [List.all_eq_true, Bool.not_eq_true'] at hp
    simp only [Bool.not_eq_true', decide_eq_false_iff_not]
    intro hmem
    have := hp (g p) hmem
    simp [hg, FString.Equals_refl] at this
  have hsplit := List.length_eq_countP_add_countP (fun p => decide (g p ∈ T)) cache
  have hneg : cache.countP (fun p => !decide (g p ∈ T)) =
      cache.countP (fun a => decide ¬(decide (g a ∈ T)) = true) := by
    congr 1
    funext p
    by_cases h : g p ∈ T <;> simp [h]
  omega

theorem TrimCache_Num_le (tm : FHdriVaultThumbnailManager) (hmax : 0 ≤ tm.MaxCacheSize) :
    ((TMap.Num tm.TrimCache.ThumbnailCache : Nat) : Int) ≤ tm.MaxCacheSize := by
  unfold FHdriVaultThumbnailManager.TrimCache
  by_cases h : ((TMap.Num tm.ThumbnailCache : Nat) : Int) ≤ tm.MaxCacheSize
  · simp only [h, if_true]
  · simp only [h, if_false]
    have hn : ((TMap.Num tm.ThumbnailCache : Nat) : Int) - tm.MaxCacheSize ≤
        (TMap.Num tm.ThumbnailCache : Nat) := by omega
    have hle : (((TMap.Num tm.ThumbnailCache : Nat) : Int) - tm.MaxCacheSize).toNat ≤
        tm.ThumbnailCache.length := by
      unfold TMap.Num at *
      omega
    have hlen := length_RemoveOldest_le tm.ThumbnailCache
      (TArray.Sort (fun A B => decide (A.2.Ticks < B.2.Ticks))
        (tm.ThumbnailCache.map (fun e => (e.1, e.2.LastAccessTime))))
      (((TMap.Num tm.ThumbnailCache : Nat) : Int) - tm.MaxCacheSize).toNat
      (TArray.Sort_perm _ _) hle
    unfold TMap.Num at *
    omega

/-- C10, as amended. With `MaxCacheSize >= 0`, the cache holds at most
`MaxCacheSize` entries after `TrimCache`, and a cache that already holds at
most `MaxCacheSize` entries is left unchanged. The same bound holds after
every `UpdateCacheWithThumbnail` that is given a thumbnail; with a null
thumbnail `UpdateCacheWithThumbnail` returns at once and leaves the cache as
it was. -/
theorem TrimCache_bounds_cache (tm : FHdriVaultThumbnailManager) (hmax : 0 ≤ tm.MaxCacheSize) :
    ((TMap.Num tm.TrimCache.ThumbnailCache : Nat) : Int) ≤ tm.MaxCacheSize ∧
    (((TMap.Num tm.ThumbnailCache : Nat) : Int) ≤ tm.MaxCacheSize → tm.TrimCache = tm) ∧
    (∀ (MaterialPath : String) (Thumbnail : Nat) (ThumbnailSize : Int),
      ((TMap.Num (tm.UpdateCacheWithThumbnail MaterialPath (some Thumbnail)
        ThumbnailSize).ThumbnailCache : Nat) : Int) ≤ tm.MaxCacheSize) ∧
    (∀ (MaterialPath : String) (ThumbnailSize : Int),
      tm.UpdateCacheWithThumbnail MaterialPath none ThumbnailSize = tm) := by
  refine ⟨TrimCache_Num_le tm hmax, ?_, ?_, ?_⟩
  · intro h
    simp only [FHdriVaultThumbnailManager.TrimCache, h, if_true]
  · intro MaterialPath Thumbnail ThumbnailSize
    simp only [FHdriVaultThumbnailManager.UpdateCacheWithThumbnail,
      FHdriVaultThumbnailManager.OnThumbnailGenerated]
    exact TrimCache_Num_le _ hmax
  · intro MaterialPath ThumbnailSize
    rfl

theorem TrimCache_bounds_cache_witness :
    (0 : Int) ≤ exThumbnailManager.MaxCacheSize ∧
    ((TMap.Num exThumbnailManager.TrimCache.ThumbnailCache : Nat) : Int) ≤
      exThumbnailManager.MaxCacheSize :=
  ⟨by decide, (TrimCache_bounds_cache exThumbnailManager (by decide)).1⟩

/-- C10, counterexample. With a limit of one entry and three cached
thumbnails, `UpdateCacheWithThumbnail` with a null thumbnail returns before
`TrimCache` is reached: the cache still holds three entries. -/
theorem UpdateCacheWithThumbnail_null_keeps_oversized_cache :
    (0 : Int) ≤ exThumbnailManager.MaxCacheSize ∧
    TMap.Num (exThumbnailManager.UpdateCacheWithThumbnail "/Game/HDRI/Noon.Noon" none
      128).ThumbnailCache = 3 ∧
    ¬ ((TMap.Num (exThumbnailManager.UpdateCacheWithThumbnail "/Game/HDRI/Noon.Noon" none
      128).ThumbnailCache : Nat) : Int) ≤ exThumbnailManager.MaxCacheSize := by
  decide

/-- C5, failing input. On an initialised manager that indexes one cube map,
the registry reports that the static mesh `/Game/Props/Chair.Chair` was
renamed. `OnAssetAdded` and `OnAssetUpdated` ignore the mesh because of their
class test, `OnAssetRenamed` has no class test and puts it into
`MaterialMap`. -/
theorem OnAssetRenamed_indexes_static_mesh :
    exIndexed.OnlyTextureCubes = true ∧
    (exIndexed.OnAssetAdded exChair).OnlyTextureCubes = true ∧
    (exIndexed.OnAssetUpdated exChair).OnlyTextureCubes = true ∧
    (exIndexed.OnAssetRemoved exChair).OnlyTextureCubes = true ∧
    (exIndexed.OnAssetRenamed exChair "/Game/Props/Stool.Stool").OnlyTextureCubes = false ∧
    (exIndexed.OnAssetRenamed exChair "/Game/Props/Stool.Stool").MaterialMap =
      [("/Game/HDRI/Studio.Studio", some 0), ("/Game/Props/Chair.Chair", some 1)] := by
  decide

/-- C6, failing input. The package path `/GameplayAbilities/Sky` of a plugin
whose name starts with `Game` passes the test for the prefix `/Game` and is
returned unchanged; it is none of `/Game`, `/Engine`, `/Plugins` and lies
below none of them. After a refresh the root folder has a fourth child
`/GameplayAbilities` next to the three main folders. -/
theorem OrganizePackagePath_plugin_named_like_Game :
    OrganizePackagePath "/GameplayAbilities/Sky" = "/GameplayAbilities/Sky" ∧
    InMainFolders (OrganizePackagePath "/GameplayAbilities/Sky") = false ∧
    InMainFolders (OrganizePackagePath "/MyPlugin/Sky") = true ∧
    (((exBlank.Initialize [exPluginSky]).RefreshMaterialDatabase).Folders.map
        (fun n => (n.FolderPath, n.Parent, n.Children, n.Materials))) =
      [("/Game", none, [1, 2, 3, 5], []),
       ("/Game", some 0, [], []),
       ("/Engine", some 0, [], []),
       ("/Plugins", some 0, [], []),
       ("/GameplayAbilities/Sky", some 5, [], [0]),
       ("/GameplayAbilities", some 0, [4], [])] := by
  decide

/-! ## More facts about maps -/

theorem TMap.Add_cons_eq {V : Type} (p : String × V) (rest : TMap V) (k : String) (v : V)
    (h : FString.Equals p.1 k = true) : TMap.Add (p :: rest) k v = (k, v) :: rest := by
  simp [TMap.Add, h]

theorem TMap.Add_cons_ne {V : Type} (p : String × V) (rest : TMap V) (k : String) (v : V)
    (h : FString.Equals p.1 k = false) : TMap.Add (p :: rest) k v = p :: TMap.Add rest k v := by
  simp [TMap.Add, h]

theorem TMap.Find_cons_eq {V : Type} (p : String × V) (rest : TMap V) (k : String)
    (h : FString.Equals p.1 k = true) : TMap.Find (p :: rest) k = some p.2 := by
  simp [TMap.Find, h]

theorem TMap.Find_cons_ne {V : Type} (p : String × V) (rest : TMap V) (k : String)
    (h : FString.Equals p.1 k = false) : TMap.Find (p :: rest) k = TMap.Find rest k := by
  simp [TMap.Find, h]

theorem TMap.Contains_cons {V : Type} (p : String × V) (rest : TMap V) (k : String) :
    TMap.Contains (p :: rest) k = (FString.Equals p.1 k || TMap.Contains rest k) := by
  simp [TMap.Contains]

theorem TMap.Find_some_mem {V : Type} (m : TMap V) (k : String) (v : V)
    (h : TMap.Find m k = some v) : ∃ k', (k', v) ∈ m ∧ FString.Equals k' k = true := by
  induction m with
  | nil => simp [TMap.Find] at h
  | cons p rest ih =>
    cases hp : FString.Equals p.1 k with
    | true =>
      rw [TMap.Find_cons_eq _ _ _ hp, Option.some.injEq] at h
      exact ⟨p.1, by rw [← h]; simp, hp⟩
    | false =>
      rw [TMap.Find_cons_ne _ _ _ hp] at h
      obtain ⟨k', hmem, hk'⟩ := ih h
      exact ⟨k', List.mem_cons_of_mem _ hmem, hk'⟩

theorem TMap.Find_none_iff {V : Type} (m : TMap V) (k : String) :
    TMap.Find m k = none ↔ ∀ p ∈ m, FString.Equals p.1 k = false := by
  induction m with
  | nil => simp [TMap.Find]
  | cons p rest ih =>
    cases hp : FString.Equals p.1 k with
    | true =>
      rw [TMap.Find_cons_eq _ _ _ hp]
      constructor
      · intro h; simp at h
      · intro h
        have := h p (List.mem_cons_self _ _)
        rw [hp] at this; simp at this
    | false =>
      rw [TMap.Find_cons_ne _ _ _ hp, ih]
      constructor
      · intro h q hq
        rcases List.mem_cons.1 hq with hq | hq
        · rw [hq]; exact hp
        · exact h q hq
      · intro h q hq
        exact h q (List.mem_cons_of_mem _ hq)

theorem TMap.mem_Add {V : Type} (m : TMap V) (k : String) (v : V) (q : String × V)
    (h : q ∈ TMap.Add m k v) : q = (k, v) ∨ q ∈ m := by
  induction m with
  | nil => simp [TMap.Add] at h; exact Or.inl h
  | cons p rest ih =>
    cases hp : FString.Equals p.1 k with
    | true =>
      rw [TMap.Add_cons_eq _ _ _ _ hp] at h
      rcases List.mem_cons.1 h with h | h
      · exact Or.inl h
      · exact Or.inr (List.mem_cons_of_mem _ h)
    | false =>
      rw [TMap.Add_cons_ne _ _ _ _ hp] at h
      rcases List.mem_cons.1 h with h | h
      · exact Or.inr (by rw [h]; exact List.mem_cons_self _ _)
      · rcases ih h with h' | h'
        · exact Or.inl h'
        · exact Or.inr (List.mem_cons_of_mem _ h')

theorem TMap.mem_Add_self {V : Type} (m : TMap V) (k : String) (v : V) :
    (k, v) ∈ TMap.Add m k v := by
  induction m with
  | nil => simp [TMap.Add]
  | cons p rest ih =>
    cases hp : FString.Equals p.1 k with
    | true => rw [TMap.Add_cons_eq _ _ _ _ hp]; exact List.mem_cons_self _ _
    | false => rw [TMap.Add_cons_ne _ _ _ _ hp]; exact List.mem_cons_of_mem _ ih

theorem TMap.mem_Add_of_mem {V : Type} (m : TMap V) (k : String) (v : V) (q : String × V)
    (h : q ∈ m) (hne : FString.Equals q.1 k = false) : q ∈ TMap.Add m k v := by
  induction m with
  | nil => simp at h
  | cons p rest ih =>
    cases hp : FString.Equals p.1 k with
    | true =>
      rw [TMap.Add_cons_eq _ _ _ _ hp]
      rcases List.mem_cons.1 h with h | h
      · rw [h, hp] at hne; simp at hne
      · exact List.mem_cons_of_mem _ h
    | false =>
      rw [TMap.Add_cons_ne _ _ _ _ hp]
      rcases List.mem_cons.1 h with h | h
      · rw [h]; exact List.mem_cons_self _ _
      · exact List.mem_cons_of_mem _ (ih h)

theorem TMap.Contains_Add {V : Type} (m : TMap V) (k k' : String) (v : V) :
    TMap.Contains (TMap.Add m k v) k' = (TMap.Contains m k' || FString.Equals k k') := by
  induction m with
  | nil => simp [TMap.Add, TMap.Contains]
  | cons p rest ih =>
    cases hp : FString.Equals p.1 k with
    | true =>
      rw [TMap.Add_cons_eq _ _ _ _ hp, TMap.Contains_cons, TMap.Contains_cons,
        FString.Equals_congr_left hp k']
      cases FString.Equals k k' <;> cases TMap.Contains rest k' <;> rfl
    | false =>
      rw [TMap.Add_cons_ne _ _ _ _ hp, TMap.Contains_cons, TMap.Contains_cons, ih,
        Bool.or_assoc]

theorem TMap.Contains_true_iff {V : Type} (m : TMap V) (k : String) :
    TMap.Contains m k = true ↔ ∃ p ∈ m, FString.Equals p.1 k = true := by
  simp [TMap.Contains]

theorem TMap.Add_pairwise {V : Type} (m : TMap V) (k : String) (v : V)
    (h : m.Pairwise (fun p q => FString.Equals p.1 q.1 = false)) :
    (TMap.Add m k v).Pairwise (fun p q => FString.Equals p.1 q.1 = false) := by
  induction m with
  | nil => simp [TMap.Add]
  | cons p rest ih =>
    rw [List.pairwise_cons] at h
    cases hp : FString.Equals p.1 k with
    | true =>
      rw [TMap.Add_cons_eq _ _ _ _ hp, List.pairwise_cons]
      refine ⟨?_, h.2⟩
      intro q hq
      show FString.Equals k q.1 = false
      rw [← FString.Equals_congr_left hp]
      exact h.1 q hq
    | false =>
      rw [TMap.Add_cons_ne _ _ _ _ hp, List.pairwise_cons]
      refine ⟨?_, ih h.2⟩
      intro q hq
      rcases TMap.mem_Add _ _ _ _ hq with hq | hq
      · rw [hq]; exact hp
      · exact h.1 q hq

theorem TMap.Remove_pairwise {V : Type} (m : TMap V) (k : String)
    (h : m.Pairwise (fun p q => FString.Equals p.1 q.1 = false)) :
    (TMap.Remove m k).Pairwise (fun p q => FString.Equals p.1 q.1 = false) :=
  h.sublist (List.filter_sublist _)

/-- In a map without repeated keys, entries with equal keys are the same entry. -/
theorem TMap.eq_of_Equals {V : Type} (m : TMap V)
    (h : m.Pairwise (fun p q => FString.Equals p.1 q.1 = false)) (p q : String × V)
    (hp : p ∈ m) (hq : q ∈ m) (he : FString.Equals p.1 q.1 = true) : p = q := by
  induction m with
  | nil => simp at hp
  | cons r rest ih =>
    rw [List.pairwise_cons] at h
    rcases List.mem_cons.1 hp with hp | hp <;> rcases List.mem_cons.1 hq with hq | hq
    · rw [hp, hq]
    · have := h.1 q hq
      rw [← hp, he] at this; simp at this
    · have := h.1 p hp
      rw [← hq, FString.Equals_symm, he] at this; simp at this
    · exact ih h.2 hp hq

theorem TMap.Find_of_mem {V : Type} (m : TMap V)
    (h : m.Pairwise (fun p q => FString.Equals p.1 q.1 = false)) (p : String × V)
    (hp : p ∈ m) (k : String) (hk : FString.Equals p.1 k = true) : TMap.Find m k = some p.2 := by
  cases hf : TMap.Find m k with
  | none =>
    rw [TMap.Find_none_iff] at hf
    rw [hf p hp] at hk; simp at hk
  | some v =>
    obtain ⟨k', hmem, hk'⟩ := TMap.Find_some_mem _ _ _ hf
    have : p = (k', v) := by
      apply TMap.eq_of_Equals m h p (k', v) hp hmem
      rw [FString.Equals_symm] at hk'
      exact FString.Equals_trans hk hk'
    rw [this]

/-! ## Folder structure: the recursion of `GetOrCreateFolderNode` -/

theorem RegisterNewFolder_eq (st : UHdriVaultManager) (path : String)
    (he : path.data.isEmpty = false) :
    st.RegisterNewFolder path =
      { st with
        Folders := st.Folders ++
          [FHdriVaultFolderNode.new
            (if (FPaths.GetCleanFilename path).data.isEmpty = true then "Root"
             else FPaths.GetCleanFilename path) path]
        FolderMap := TMap.Add st.FolderMap path (some st.Folders.length) } := by
  simp [UHdriVaultManager.RegisterNewFolder, UHdriVaultManager.CreateFolderNode, he]

/-- Case analysis and induction for `GetOrCreateFolderNodeAux`: a property of
(state, path, result) holds for every finished call when it holds for a path
found in the map, for the empty path, and is carried from the call on the
parent path to the call that hangs the new folder under the returned parent
or under the root. -/
theorem GetOrCreateFolderNodeAux_induction
    (P : UHdriVaultManager → String → UHdriVaultManager × TSharedPtr → Prop)
    (hfound : ∀ st path, TMap.Contains st.FolderMap path = true →
      P st path (st, TMap.FindRef st.FolderMap path))
    (hempty : ∀ st path, TMap.Contains st.FolderMap path = false → path.data.isEmpty = true →
      P st path (st, none))
    (hparent : ∀ st path st3 parent, TMap.Contains st.FolderMap path = false →
      path.data.isEmpty = false →
      (FPaths.GetPath path).data.isEmpty = false →
      FString.Equals (FPaths.GetPath path) path = false →
      P (st.RegisterNewFolder path) (FPaths.GetPath path) (st3, some parent) →
      P st path (st3.AttachChild parent st.Folders.length, some st.Folders.length))
    (hparentNull : ∀ st path st3, TMap.Contains st.FolderMap path = false →
      path.data.isEmpty = false →
      (FPaths.GetPath path).data.isEmpty = false →
      FString.Equals (FPaths.GetPath path) path = false →
      P (st.RegisterNewFolder path) (FPaths.GetPath path) (st3, none) →
      P st path (st3, some st.Folders.length))
    (hroot : ∀ st path root, TMap.Contains st.FolderMap path = false →
      path.data.isEmpty = false →
      ((FPaths.GetPath path).data.isEmpty = true ∨
        FString.Equals (FPaths.GetPath path) path = true) →
      st.RootFolderNode = some root →
      P st path ((st.RegisterNewFolder path).AttachChild root st.Folders.length,
        some st.Folders.length))
    (hnoroot : ∀ st path, TMap.Contains st.FolderMap path = false →
      path.data.isEmpty = false →
      ((FPaths.GetPath path).data.isEmpty = true ∨
        FString.Equals (FPaths.GetPath path) path = true) →
      st.RootFolderNode = none →
      P st path (st.RegisterNewFolder path, some st.Folders.length)) :
    ∀ fuel st path res,
      UHdriVaultManager.GetOrCreateFolderNodeAux fuel st path = some res → P st path res := by
  intro fuel
  induction fuel with
  | zero => intro st path res h; simp [UHdriVaultManager.GetOrCreateFolderNodeAux] at h
  | succ fuel ih =>
    intro st path res h
    unfold UHdriVaultManager.GetOrCreateFolderNodeAux at h
    cases hc : TMap.Contains st.FolderMap path with
    | true =>
      simp only [hc, if_true, Option.some.injEq] at h
      rw [← h]; exact hfound st path hc
    | false =>
      simp only [hc, Bool.false_eq_true, if_false] at h
      cases he : path.data.isEmpty with
      | true =>
        simp only [UHdriVaultManager.CreateFolderNode, he, if_true, Option.some.injEq] at h
        rw [← h]; exact hempty st path hc he
      | false =>
        simp only [UHdriVaultManager.CreateFolderNode, he, Bool.false_eq_true, if_false] at h
        rw [← RegisterNewFolder_eq st path he] at h
        cases hpe : (FPaths.GetPath path).data.isEmpty with
        | true =>
          simp only [hpe, Bool.not_true, Bool.false_and, Bool.false_eq_true, if_false] at h
          cases hr : st.RootFolderNode with
          | none =>
            simp only [hr, Option.some.injEq] at h
            rw [← h]; exact hnoroot st path hc he (Or.inl hpe) hr
          | some root =>
            simp only [hr, Option.some.injEq] at h
            rw [← h]; exact hroot st path root hc he (Or.inl hpe) hr
        | false =>
          cases hpq : FString.Equals (FPaths.GetPath path) path with
          | true =>
            simp only [hpe, hpq, Bool.not_true, Bool.and_false, Bool.false_eq_true, if_false] at h
            cases hr : st.RootFolderNode with
            | none =>
              simp only [hr, Option.some.injEq] at h
              rw [← h]; exact hnoroot st path hc he (Or.inr hpq) hr
            | some root =>
              simp only [hr, Option.some.injEq] at h
              rw [← h]; exact hroot st path root hc he (Or.inr hpq) hr
          | false =>
            simp only [hpe, hpq, Bool.not_false, Bool.and_self, if_true] at h
            cases hrec : UHdriVaultManager.GetOrCreateFolderNodeAux fuel
                (st.RegisterNewFolder path) (FPaths.GetPath path) with
            | none => simp [hrec] at h
            | some r =>
              obtain ⟨st3, pp⟩ := r
              cases pp with
              | none =>
                simp only [hrec, Option.some.injEq] at h
                rw [← h]
                exact hparentNull st path st3 hc he hpe hpq (ih _ _ _ hrec)
              | some parent =>
                simp only [hrec, Option.some.injEq] at h
                rw [← h]
                exact hparent st path st3 parent hc he hpe hpq (ih _ _ _ hrec)

theorem beforeLast_length (p : Char → Bool) (l r : List Char) (h : beforeLast p l = some r) :
    r.length < l.length := by
  induction l generalizing r with
  | nil => simp [beforeLast] at h
  | cons c cs ih =>
    unfold beforeLast at h
    cases hb : beforeLast p cs with
    | some r' =>
      simp only [hb, Option.some.injEq] at h
      rw [← h]
      simp only [List.length_cons]
      exact Nat.succ_lt_succ (ih r' hb)
    | none =>
      simp only [hb] at h
      by_cases hc : p c = true
      · simp only [hc, if_true, Option.some.injEq] at h
        rw [← h]; simp
      · simp [hc] at h

/-- The parent path is strictly shorter than the path whenever it is not empty. -/
theorem GetPath_length (path : String) (h : (FPaths.GetPath path).data.isEmpty = false) :
    (FPaths.GetPath path).data.length < path.data.length := by
  unfold FPaths.GetPath at *
  cases hb : beforeLast IsSlashOrBackslash path.data with
  | none => simp [hb] at h
  | some r => simpa [hb] using beforeLast_length _ _ _ hb

/-- The recursion of `GetOrCreateFolderNode` ends: a depth bound above the
length of the path is never reached. -/
theorem GetOrCreateFolderNodeAux_isSome (fuel : Nat) (st : UHdriVaultManager) (path : String)
    (h : path.data.length < fuel) :
    (UHdriVaultManager.GetOrCreateFolderNodeAux fuel st path).isSome = true := by
  induction fuel generalizing st path with
  | zero => omega
  | succ fuel ih =>
    unfold UHdriVaultManager.GetOrCreateFolderNodeAux
    cases hc : TMap.Contains st.FolderMap path with
    | true => simp
    | false =>
      simp only [Bool.false_eq_true, if_false]
      cases he : path.data.isEmpty with
      | true => simp [UHdriVaultManager.CreateFolderNode, he]
      | false =>
        simp only [UHdriVaultManager.CreateFolderNode, he, Bool.false_eq_true, if_false]
        rw [← RegisterNewFolder_eq st path he]
        cases hpe : (FPaths.GetPath path).data.isEmpty with
        | true =>
          simp only [Bool.not_true, Bool.false_and, Bool.false_eq_true, if_false]
          cases hr : st.RootFolderNode <;> simp
        | false =>
          cases hpq : FString.Equals (FPaths.GetPath path) path with
          | true =>
            simp only [Bool.not_true, Bool.and_false, Bool.false_eq_true, if_false]
            cases hr : st.RootFolderNode <;> simp
          | false =>
            simp only [Bool.not_false, Bool.and_self, if_true]
            have hlen := GetPath_length path hpe
            have := ih (st.RegisterNewFolder path) (FPaths.GetPath path) (by omega)
            cases hrec : UHdriVaultManager.GetOrCreateFolderNodeAux fuel
                (st.RegisterNewFolder path) (FPaths.GetPath path) with
            | none => rw [hrec] at this; simp at this
            | some r =>
              obtain ⟨st3, pp⟩ := r
              cases pp <;> simp

theorem GetOrCreateFolderNode_eq (st : UHdriVaultManager) (path : String) :
    UHdriVaultManager.GetOrCreateFolderNodeAux (path.data.length + 1) st path =
      some (st.GetOrCreateFolderNode path) := by
  have h := GetOrCreateFolderNodeAux_isSome (path.data.length + 1) st path (Nat.lt_succ_self _)
  unfold UHdriVaultManager.GetOrCreateFolderNode
  cases hr : UHdriVaultManager.GetOrCreateFolderNodeAux (path.data.length + 1) st path with
  | none => rw [hr] at h; simp at h
  | some r => simp

/-! ## Parts of the manager that the folder operations leave alone -/

theorem SameOutsideFolders.refl (a : UHdriVaultManager) : SameOutsideFolders a a :=
  ⟨rfl, rfl, rfl, rfl⟩

theorem SameOutsideFolders.trans {a b c : UHdriVaultManager} (h1 : SameOutsideFolders a b)
    (h2 : SameOutsideFolders b c) : SameOutsideFolders a c :=
  ⟨h1.1.trans h2.1, h1.2.1.trans h2.2.1, h1.2.2.1.trans h2.2.2.1, h1.2.2.2.trans h2.2.2.2⟩

theorem withFolder_same (st : UHdriVaultManager) (p : TSharedPtr)
    (f : FHdriVaultFolderNode → FHdriVaultFolderNode) : SameOutsideFolders (st.withFolder p f) st := by
  cases p <;> exact ⟨rfl, rfl, rfl, rfl⟩

theorem AttachChild_same (st : UHdriVaultManager) (a b : Nat) :
    SameOutsideFolders (st.AttachChild a b) st :=
  (withFolder_same _ _ _).trans (withFolder_same _ _ _)

theorem CreateFolderNode_same (st : UHdriVaultManager) (path : String) :
    SameOutsideFolders (st.CreateFolderNode path).1 st := by
  unfold UHdriVaultManager.CreateFolderNode
  split <;> exact ⟨rfl, rfl, rfl, rfl⟩

theorem RegisterNewFolder_same (st : UHdriVaultManager) (path : String) :
    SameOutsideFolders (st.RegisterNewFolder path) st := by
  have h := CreateFolderNode_same st path
  exact ⟨h.1, h.2.1, h.2.2.1, h.2.2.2⟩

theorem GetOrCreateFolderNodeAux_same (fuel : Nat) (st : UHdriVaultManager) (path : String)
    (res : UHdriVaultManager × TSharedPtr)
    (h : UHdriVaultManager.GetOrCreateFolderNodeAux fuel st path = some res) :
    SameOutsideFolders res.1 st := by
  refine GetOrCreateFolderNodeAux_induction (fun st _ res => SameOutsideFolders res.1 st)
    ?_ ?_ ?_ ?_ ?_ ?_ fuel st path res h
  · intro st path _; exact SameOutsideFolders.refl _
  · intro st path _ _; exact SameOutsideFolders.refl _
  · intro st path st3 parent _ _ _ _ ih
    exact (AttachChild_same _ _ _).trans (ih.trans (RegisterNewFolder_same _ _))
  · intro st path st3 _ _ _ _ ih
    exact ih.trans (RegisterNewFolder_same _ _)
  · intro st path root _ _ _ _
    exact (AttachChild_same _ _ _).trans (RegisterNewFolder_same _ _)
  · intro st path _ _ _ _
    exact RegisterNewFolder_same _ _

theorem GetOrCreateFolderNode_same (st : UHdriVaultManager) (path : String) :
    SameOutsideFolders (st.GetOrCreateFolderNode path).1 st :=
  GetOrCreateFolderNodeAux_same _ _ _ _ (GetOrCreateFolderNode_eq st path)

theorem PlaceMaterial_same (st : UHdriVaultManager) (pair : String × TSharedPtr) :
    SameOutsideFolders (st.PlaceMaterial pair) st := by
  unfold UHdriVaultManager.PlaceMaterial
  cases pair.2 with
  | none => exact SameOutsideFolders.refl _
  | some i =>
    cases hi : st.Items[i]? with
    | none => simp only [hi]; exact SameOutsideFolders.refl _
    | some item =>
      simp only [hi]
      have h := GetOrCreateFolderNode_same st (OrganizePackagePath item.AssetData.PackagePath)
      cases hres : st.GetOrCreateFolderNode (OrganizePackagePath item.AssetData.PackagePath) with
      | mk st1 ptr =>
        rw [hres] at h
        cases ptr with
        | none => exact h
        | some n => exact (withFolder_same _ _ _).trans h

theorem foldl_PlaceMaterial_same (l : List (String × TSharedPtr)) (st : UHdriVaultManager) :
    SameOutsideFolders (l.foldl UHdriVaultManager.PlaceMaterial st) st := by
  induction l generalizing st with
  | nil => exact SameOutsideFolders.refl _
  | cons p rest ih => exact (ih _).trans (PlaceMaterial_same st p)

theorem ResetFolderStructure_same (st : UHdriVaultManager) (root : Nat) :
    SameOutsideFolders (st.ResetFolderStructure root) st := by
  unfold UHdriVaultManager.ResetFolderStructure
  simp only [UHdriVaultManager.CreateFolderNode]
  refine ⟨?_, ?_, ?_, ?_⟩ <;> simp [UHdriVaultManager.withFolder]

theorem BuildFolderStructure_same (st : UHdriVaultManager) :
    SameOutsideFolders st.BuildFolderStructure st := by
  unfold UHdriVaultManager.BuildFolderStructure
  cases hr : st.RootFolderNode with
  | none => exact SameOutsideFolders.refl _
  | some root =>
    simp only
    have h1 := foldl_PlaceMaterial_same st.MaterialMap (st.ResetFolderStructure root)
    exact h1.trans (ResetFolderStructure_same st root)

/-! ## Refreshing the material database -/

/-- The function `LoadMaterialMetadata` only writes the metadata of the item it is given
and the metadata cache. -/
theorem LoadMaterialMetadata_frame (st : UHdriVaultManager) (p : TSharedPtr) :
    (st.LoadMaterialMetadata p).MaterialMap = st.MaterialMap ∧
    (st.LoadMaterialMetadata p).Folders = st.Folders ∧
    (st.LoadMaterialMetadata p).FolderMap = st.FolderMap ∧
    (st.LoadMaterialMetadata p).RootFolderNode = st.RootFolderNode ∧
    (st.LoadMaterialMetadata p).Settings = st.Settings ∧
    ∀ i : Nat, ((st.LoadMaterialMetadata p).Items[i]?).map
        (fun (it : FHdriVaultMaterialItem) => (it.AssetData, it.DisplayName)) =
      (st.Items[i]?).map (fun (it : FHdriVaultMaterialItem) => (it.AssetData, it.DisplayName)) := by
  unfold UHdriVaultManager.LoadMaterialMetadata
  cases p with
  | none => simp
  | some j =>
    cases hj : st.Items[j]? with
    | none => simp [hj]
    | some item =>
      have hlt : j < st.Items.length := (List.getElem?_eq_some.1 hj).1
      simp only [hj]
      cases hc : TMap.Find st.MetadataCache item.AssetData.GetObjectPathString with
      | some cached =>
        simp only [true_and]
        intro i
        by_cases hij : j = i
        · subst hij; simp [List.getElem?_set, hlt, hj]
        · simp [List.getElem?_set, hij]
      | none =>
        cases hf : TMap.Find st.Files (st.GetMetadataFilePath item.AssetData) with
        | none => simp
        | some json =>
          simp only [true_and]
          intro i
          by_cases hij : j = i
          · subst hij; simp [List.getElem?_set, hlt, hj]
          · simp [List.getElem?_set, hij]

theorem LoadMaterialMetadata_item (st : UHdriVaultManager) (p : TSharedPtr) (i : Nat)
    (item : FHdriVaultMaterialItem) (h : st.Items[i]? = some item) :
    ∃ item', (st.LoadMaterialMetadata p).Items[i]? = some item' ∧
      item'.AssetData = item.AssetData ∧ item'.DisplayName = item.DisplayName := by
  have hf := (LoadMaterialMetadata_frame st p).2.2.2.2.2 i
  rw [h] at hf
  cases h' : (st.LoadMaterialMetadata p).Items[i]? with
  | none => rw [h'] at hf; simp at hf
  | some item' =>
    rw [h'] at hf
    simp only [Option.map_some', Option.some.injEq, Prod.mk.injEq] at hf
    exact ⟨item', rfl, hf.1, hf.2⟩

theorem IndexedFrom.mono_entry {st : UHdriVaultManager} {assets : List FAssetData}
    (a : FAssetData) (q : String × TSharedPtr) {items : List FHdriVaultMaterialItem}
    (h : (∃ b ∈ assets, q.1 = b.GetObjectPathString) ∧
      ∃ i item, q.2 = some i ∧ st.Items[i]? = some item ∧ item.AssetData ∈ assets ∧
        FString.Equals item.AssetData.GetObjectPathString q.1 = true ∧
        item.DisplayName = item.AssetData.AssetName)
    (hitems : ∀ i item, st.Items[i]? = some item → ¬ (q.2 = some i ∧
        FString.Equals a.GetObjectPathString q.1 = true) →
      ∃ item', items[i]? = some item' ∧ item'.AssetData = item.AssetData ∧
        item'.DisplayName = item.DisplayName)
    (hne : FString.Equals a.GetObjectPathString q.1 = false) :
    (∃ b ∈ assets ++ [a], q.1 = b.GetObjectPathString) ∧
      ∃ i item, q.2 = some i ∧ items[i]? = some item ∧ item.AssetData ∈ assets ++ [a] ∧
        FString.Equals item.AssetData.GetObjectPathString q.1 = true ∧
        item.DisplayName = item.AssetData.AssetName := by
  obtain ⟨⟨b, hb, hqb⟩, i, item, hq, hi, hmem, heq, hdn⟩ := h
  refine ⟨⟨b, List.mem_append_left _ hb, hqb⟩, ?_⟩
  obtain ⟨item', hi', ha', hd'⟩ := hitems i item hi (by rw [hne]; simp)
  exact ⟨i, item', hq, hi', by rw [ha']; exact List.mem_append_left _ hmem,
    by rw [ha']; exact heq, by rw [hd', ha']; exact hdn⟩

/-- One step of the refresh loop keeps the index in line with the assets processed so far. -/
theorem ProcessMaterialAsset_IndexedFrom (st : UHdriVaultManager) (assets : List FAssetData)
    (a : FAssetData) (h : IndexedFrom st assets) :
    IndexedFrom (st.ProcessMaterialAsset a) (assets ++ [a]) := by
  obtain ⟨hent, hpw, hall⟩ := h
  unfold UHdriVaultManager.ProcessMaterialAsset
  cases hfind : TMap.Find st.MaterialMap a.GetObjectPathString with
  | none =>
    have hfr : TMap.FindRef st.MaterialMap a.GetObjectPathString = none := by
      simp [TMap.FindRef, hfind]
    simp only [hfr]
    rw [TMap.Find_none_iff] at hfind
    set st1 : UHdriVaultManager := { st with
      Items := st.Items ++ [FHdriVaultMaterialItem.ofAssetData a st.Now]
      MaterialMap := TMap.Add st.MaterialMap a.GetObjectPathString (some st.Items.length) }
      with hst1
    have hfr := LoadMaterialMetadata_frame st1 (some st.Items.length)
    refine ⟨?_, ?_, ?_⟩
    · intro q hq
      rw [hfr.1] at hq
      rcases TMap.mem_Add _ _ _ _ hq with hq | hq
      · subst hq
        refine ⟨⟨a, by simp, rfl⟩, ?_⟩
        obtain ⟨item', hi', ha', hd'⟩ := LoadMaterialMetadata_item st1 (some st.Items.length)
          st.Items.length (FHdriVaultMaterialItem.ofAssetData a st.Now) (by simp [hst1])
        refine ⟨st.Items.length, item', rfl, hi', ?_, ?_, ?_⟩
        · rw [ha']; simp [FHdriVaultMaterialItem.ofAssetData]
        · rw [ha']; exact FString.Equals_refl _
        · rw [hd', ha']; rfl
      · have hne : FString.Equals a.GetObjectPathString q.1 = false := by
          rw [FString.Equals_symm]; exact hfind q hq
        refine IndexedFrom.mono_entry a q (hent q hq) ?_ hne
        intro i item hi _
        apply LoadMaterialMetadata_item
        have hlt : i < st.Items.length := (List.getElem?_eq_some.1 hi).1
        simp [hst1, List.getElem?_append_left hlt, hi]
    · rw [hfr.1]; exact TMap.Add_pairwise _ _ _ hpw
    · intro b hb
      rw [hfr.1, TMap.Contains_Add]
      rcases List.mem_append.1 hb with hb | hb
      · rw [hall b hb]; rfl
      · simp only [List.mem_singleton] at hb
        rw [hb, FString.Equals_refl, Bool.or_true]
  | some p =>
    obtain ⟨k0, hmem0, hk0⟩ := TMap.Find_some_mem _ _ _ hfind
    obtain ⟨_, i0, item0, hp0, hi0, _, heq0, _⟩ := hent _ hmem0
    simp only at hp0
    subst hp0
    have hfr : TMap.FindRef st.MaterialMap a.GetObjectPathString = some i0 := by
      simp [TMap.FindRef, hfind]
    simp only [hfr]
    set st1 : UHdriVaultManager := { st with
      Items := modifyAt st.Items i0 (fun item =>
        { item with AssetData := a
                    MaterialPtr := a.GetObjectPathString
                    DisplayName := a.AssetName }) } with hst1
    have hfr := LoadMaterialMetadata_frame st1 (some i0)
    refine ⟨?_, ?_, ?_⟩
    · intro q hq
      rw [hfr.1] at hq
      have hq' : q ∈ st.MaterialMap := hq
      by_cases hqk : q = (k0, some i0)
      · subst hqk
        obtain ⟨⟨b, hb, hqb⟩, _⟩ := hent _ hq'
        refine ⟨⟨b, List.mem_append_left _ hb, hqb⟩, ?_⟩
        obtain ⟨item', hi', ha', hd'⟩ := LoadMaterialMetadata_item st1 (some i0) i0
          { item0 with AssetData := a, MaterialPtr := a.GetObjectPathString,
                       DisplayName := a.AssetName }
          (by simp [hst1, getElem?_modifyAt, hi0])
        refine ⟨i0, item', rfl, hi', ?_, ?_, ?_⟩
        · rw [ha']; simp
        · rw [ha', FString.Equals_symm]; exact hk0
        · rw [hd', ha']
      · have hne : FString.Equals a.GetObjectPathString q.1 = false := by
          cases hE : FString.Equals a.GetObjectPathString q.1 with
          | false => rfl
          | true =>
            exfalso; apply hqk
            refine (TMap.eq_of_Equals _ hpw _ _ hmem0 hq' ?_).symm
            exact FString.Equals_trans hk0 hE
        have hptr : q.2 ≠ some i0 := by
          intro hq2
          obtain ⟨_, i, item, hqi, hi, _, heq, _⟩ := hent q hq'
          rw [hq2, Option.some.injEq] at hqi
          subst hqi
          rw [hi0, Option.some.injEq] at hi
          subst hi
          apply hqk
          refine (TMap.eq_of_Equals _ hpw _ _ hmem0 hq' ?_).symm
          rw [FString.Equals_symm] at heq0
          exact FString.Equals_trans heq0 heq
        obtain ⟨⟨b, hb, hqb⟩, i, item, hqi, hi, hmem, heq, hdn⟩ := hent q hq'
        refine ⟨⟨b, List.mem_append_left _ hb, hqb⟩, ?_⟩
        have hii : i0 ≠ i := by
          intro h; apply hptr; rw [hqi, h]
        obtain ⟨item', hi', ha', hd'⟩ := LoadMaterialMetadata_item st1 (some i0) i item
          (by simp [hst1, getElem?_modifyAt, hii, hi])
        exact ⟨i, item', hqi, hi', by rw [ha']; exact List.mem_append_left _ hmem,
          by rw [ha']; exact heq, by rw [hd', ha']; exact hdn⟩
    · rw [hfr.1]; exact hpw
    · intro b hb
      rw [hfr.1]
      rcases List.mem_append.1 hb with hb | hb
      · exact hall b hb
      · simp only [List.mem_singleton] at hb
        rw [hb, TMap.Contains_iff_Find]
        show (TMap.Find st.MaterialMap a.GetObjectPathString).isSome = true
        rw [hfind]; rfl

theorem foldl_ProcessMaterialAsset_IndexedFrom (rest done : List FAssetData)
    (st : UHdriVaultManager) (h : IndexedFrom st done) :
    IndexedFrom (rest.foldl UHdriVaultManager.ProcessMaterialAsset st) (done ++ rest) := by
  induction rest generalizing st done with
  | nil => simpa using h
  | cons a rest ih =>
    have := ih (done ++ [a]) (st.ProcessMaterialAsset a) (ProcessMaterialAsset_IndexedFrom st done a h)
    simpa using this

theorem eq_of_Equals_of_pairwise {α : Type} (f : α → String) (l : List α)
    (h : l.Pairwise (fun a b => FString.Equals (f a) (f b) = false)) (a b : α)
    (ha : a ∈ l) (hb : b ∈ l) (he : FString.Equals (f a) (f b) = true) : a = b := by
  induction l with
  | nil => simp at ha
  | cons r rest ih =>
    rw [List.pairwise_cons] at h
    rcases List.mem_cons.1 ha with ha | ha <;> rcases List.mem_cons.1 hb with hb | hb
    · rw [ha, hb]
    · have := h.1 b hb
      rw [← ha, he] at this; simp at this
    · have := h.1 a ha
      rw [← hb, FString.Equals_symm, he] at this; simp at this
    · exact ih h.2 ha hb

theorem RefreshMaterialDatabase_IndexedFrom (st : UHdriVaultManager) (registry : List FAssetData)
    (hinit : st.bIsInitialized = true) (hreg : st.AssetRegistryModule = some registry) :
    IndexedFrom st.RefreshMaterialDatabase (GetAssetsByClass registry TextureCubeClassPath) := by
  have hassets : st.HdriAssets = GetAssetsByClass registry TextureCubeClassPath := by
    simp [UHdriVaultManager.HdriAssets, hreg]
  have heq : st.RefreshMaterialDatabase =
      ((GetAssetsByClass registry TextureCubeClassPath).foldl
        UHdriVaultManager.ProcessMaterialAsset st.ClearMaterialData).BuildFolderStructure := by
    unfold UHdriVaultManager.RefreshMaterialDatabase
    rw [if_neg (by simp [hinit]), hassets]
  have h0 : IndexedFrom st.ClearMaterialData [] := by
    have hm : st.ClearMaterialData.MaterialMap = [] := by
      unfold UHdriVaultManager.ClearMaterialData
      cases st.RootFolderNode <;> rfl
    refine ⟨?_, ?_, ?_⟩
    · intro q hq; rw [hm] at hq; simp at hq
    · rw [hm]; exact List.Pairwise.nil
    · intro a ha; simp at ha
  have h1 := foldl_ProcessMaterialAsset_IndexedFrom
    (GetAssetsByClass registry TextureCubeClassPath) [] _ h0
  rw [List.nil_append] at h1
  have hsame := BuildFolderStructure_same (List.foldl UHdriVaultManager.ProcessMaterialAsset
    st.ClearMaterialData (GetAssetsByClass registry TextureCubeClassPath))
  rw [heq]
  unfold IndexedFrom
  rw [hsame.1, hsame.2.1]
  exact h1

/-- C4. After `RefreshMaterialDatabase` on an initialised manager, the keys of
`MaterialMap` are exactly the object paths of the TextureCube assets that the
asset registry returns: every key is the object path of such an asset and
every such asset has an entry. Every entry points to an item that holds the
data of a returned asset with that object path and whose DisplayName is the
asset name; when the registry lists no object path twice, the item found
under an asset's object path holds the data of that very asset. -/
theorem RefreshMaterialDatabase_indexes_registry (st : UHdriVaultManager)
    (registry : List FAssetData) (hinit : st.bIsInitialized = true)
    (hreg : st.AssetRegistryModule = some registry) :
    (∀ q ∈ st.RefreshMaterialDatabase.MaterialMap,
      ∃ a ∈ GetAssetsByClass registry TextureCubeClassPath, q.1 = a.GetObjectPathString) ∧
    (∀ a ∈ GetAssetsByClass registry TextureCubeClassPath,
      TMap.Contains st.RefreshMaterialDatabase.MaterialMap a.GetObjectPathString = true) ∧
    (∀ q ∈ st.RefreshMaterialDatabase.MaterialMap,
      ∃ i item, q.2 = some i ∧ st.RefreshMaterialDatabase.Items[i]? = some item ∧
        item.AssetData ∈ GetAssetsByClass registry TextureCubeClassPath ∧
        FString.Equals item.AssetData.GetObjectPathString q.1 = true ∧
        item.DisplayName = item.AssetData.AssetName) ∧
    ((GetAssetsByClass registry TextureCubeClassPath).Pairwise
        (fun a b => FString.Equals a.GetObjectPathString b.GetObjectPathString = false) →
      ∀ a ∈ GetAssetsByClass registry TextureCubeClassPath,
        ∃ i item, TMap.FindRef st.RefreshMaterialDatabase.MaterialMap a.GetObjectPathString =
            some i ∧
          st.RefreshMaterialDatabase.Items[i]? = some item ∧ item.AssetData = a ∧
          item.DisplayName = a.AssetName) := by
  obtain ⟨hent, hpw, hall⟩ := RefreshMaterialDatabase_IndexedFrom st registry hinit hreg
  refine ⟨fun q hq => (hent q hq).1, hall, fun q hq => (hent q hq).2, ?_⟩
  intro hdistinct a ha
  obtain ⟨q, hq, hqa⟩ := (TMap.Contains_true_iff _ _).1 (hall a ha)
  obtain ⟨_, i, item, hqi, hi, hmem, heq, hdn⟩ := hent q hq
  have hfind := TMap.Find_of_mem _ hpw q hq _ hqa
  have hitem : item.AssetData = a :=
    eq_of_Equals_of_pairwise FAssetData.GetObjectPathString _ hdistinct _ _ hmem ha
      (FString.Equals_trans heq hqa)
  refine ⟨i, item, ?_, hi, hitem, by rw [hdn, hitem]⟩
  simp [TMap.FindRef, hfind, hqi]

theorem RefreshMaterialDatabase_indexes_registry_witness :
    exIndexed.bIsInitialized = true ∧ exIndexed.AssetRegistryModule = some [exAsset, exChair] ∧
    (∀ q ∈ exIndexed.RefreshMaterialDatabase.MaterialMap,
      ∃ a ∈ GetAssetsByClass [exAsset, exChair] TextureCubeClassPath,
        q.1 = a.GetObjectPathString) ∧
    (∀ a ∈ GetAssetsByClass [exAsset, exChair] TextureCubeClassPath,
      TMap.Contains exIndexed.RefreshMaterialDatabase.MaterialMap a.GetObjectPathString = true) :=
  ⟨by decide, by decide,
    (RefreshMaterialDatabase_indexes_registry exIndexed [exAsset, exChair] (by decide)
      (by decide)).1,
    (RefreshMaterialDatabase_indexes_registry exIndexed [exAsset, exChair] (by decide)
      (by decide)).2.1⟩

/-! ## The folder tree -/

theorem TMap.mem_Add_iff_of_not_Contains {V : Type} (m : TMap V) (k : String) (v : V)
    (h : TMap.Contains m k = false) (q : String × V) :
    q ∈ TMap.Add m k v ↔ q = (k, v) ∨ q ∈ m := by
  constructor
  · exact TMap.mem_Add m k v q
  · rintro (hq | hq)
    · rw [hq]; exact TMap.mem_Add_self m k v
    · apply TMap.mem_Add_of_mem m k v q hq
      have := TMap.Find_eq_none_of_not_Contains m k h
      rw [TMap.Find_none_iff] at this
      exact this q hq

theorem RegisterNewFolder_Folders (st : UHdriVaultManager) (path : String)
    (he : path.data.isEmpty = false) :
    ∃ node, (st.RegisterNewFolder path).Folders = st.Folders ++ [node] ∧
      node.Children = [] ∧ node.Materials = [] ∧ node.Parent = none ∧ node.FolderPath = path := by
  rw [RegisterNewFolder_eq st path he]
  exact ⟨_, rfl, rfl, rfl, rfl, rfl⟩

theorem RegisterNewFolder_FolderMap (st : UHdriVaultManager) (path : String) :
    (st.RegisterNewFolder path).FolderMap = TMap.Add st.FolderMap path (some st.Folders.length) :=
  rfl

theorem RegisterNewFolder_Root (st : UHdriVaultManager) (path : String) :
    (st.RegisterNewFolder path).RootFolderNode = st.RootFolderNode :=
  (RegisterNewFolder_same st path).2.2.1

theorem withFolder_FolderMap (st : UHdriVaultManager) (p : TSharedPtr)
    (f : FHdriVaultFolderNode → FHdriVaultFolderNode) :
    (st.withFolder p f).FolderMap = st.FolderMap := by
  cases p <;> rfl

theorem AttachChild_FolderMap (st : UHdriVaultManager) (a b : Nat) :
    (st.AttachChild a b).FolderMap = st.FolderMap := rfl

theorem AttachChild_Root (st : UHdriVaultManager) (a b : Nat) :
    (st.AttachChild a b).RootFolderNode = st.RootFolderNode := rfl

theorem AttachChild_Folders (st : UHdriVaultManager) (a b : Nat) :
    (st.AttachChild a b).Folders =
      modifyAt (modifyAt st.Folders b (fun n => { n with Parent := some a })) a
        (fun n => { n with Children := n.Children ++ [b] }) := rfl

/-- The cells of the folder heap after `AttachChild a b`, for `a ≠ b`. -/
theorem AttachChild_getElem? (st : UHdriVaultManager) (a b : Nat) (hab : a ≠ b) (n : Nat) :
    (st.AttachChild a b).Folders[n]? =
      (st.Folders[n]?).map (fun node =>
        if n = a then { node with Children := node.Children ++ [b] }
        else if n = b then { node with Parent := some a }
        else node) := by
  rw [AttachChild_Folders, getElem?_modifyAt, getElem?_modifyAt]
  by_cases hna : a = n
  · subst hna
    have : ¬ b = a := fun h => hab h.symm
    simp [this]
  · have hna' : ¬ n = a := fun h => hna h.symm
    by_cases hnb : b = n
    · subst hnb; simp [hna, hna']
    · have hnb' : ¬ n = b := fun h => hnb h.symm
      simp [hna, hna', hnb, hnb']

theorem Reachable_mono {st st' : UHdriVaultManager}
    (hroot : st'.RootFolderNode = st.RootFolderNode)
    (hcells : ∀ (n : Nat) (node : FHdriVaultFolderNode), st.Folders[n]? = some node →
      ∃ node', st'.Folders[n]? = some node' ∧ ∀ c ∈ node.Children, c ∈ node'.Children)
    (n : Nat) (h : st.Reachable n) : st'.Reachable n := by
  induction h with
  | root r hr => exact UHdriVaultManager.Reachable.root r (hroot.trans hr)
  | child n c node _ hn hc ih =>
    obtain ⟨node', hn', hsub⟩ := hcells n node hn
    exact UHdriVaultManager.Reachable.child n c node' ih hn' (hsub c hc)

/-- Registering a new folder keeps the invariant, with the new folder pending. -/
theorem FolderTreeInv.register {st : UHdriVaultManager} {pend : List Nat}
    (h : FolderTreeInv st pend) (path : String) (he : path.data.isEmpty = false)
    (hc : TMap.Contains st.FolderMap path = false) :
    FolderTreeInv (st.RegisterNewFolder path) (st.Folders.length :: pend) := by
  obtain ⟨new, hF, hnewC, _, _, _⟩ := RegisterNewFolder_Folders st path he
  have hM := RegisterNewFolder_FolderMap st path
  have hR := RegisterNewFolder_Root st path
  have hmem : ∀ q, q ∈ (st.RegisterNewFolder path).FolderMap ↔
      q = (path, some st.Folders.length) ∨ q ∈ st.FolderMap := by
    intro q; rw [hM]; exact TMap.mem_Add_iff_of_not_Contains _ _ _ hc q
  have hold : ∀ n, n < st.Folders.length →
      (st.RegisterNewFolder path).Folders[n]? = st.Folders[n]? := by
    intro n hn; rw [hF, List.getElem?_append_left hn]
  have hnew : (st.RegisterNewFolder path).Folders[st.Folders.length]? = some new := by
    rw [hF]; simp
  have hreg : ∀ n, (st.RegisterNewFolder path).Registered n ↔
      n = st.Folders.length ∨ st.Registered n := by
    intro n
    constructor
    · rintro ⟨k, hk⟩
      rcases (hmem _).1 hk with hk | hk
      · left; simp only [Prod.mk.injEq, Option.some.injEq] at hk; exact hk.2
      · right; exact ⟨k, hk⟩
    · rintro (hn | ⟨k, hk⟩)
      · exact ⟨path, (hmem _).2 (Or.inl (by rw [hn]))⟩
      · exact ⟨k, (hmem _).2 (Or.inr hk)⟩
  have hreglt : ∀ n, st.Registered n → n < st.Folders.length := by
    rintro n ⟨k, hk⟩
    obtain ⟨m, hm, hlt⟩ := h.registered_valid _ hk
    simp only [Option.some.injEq] at hm
    rw [hm]; exact hlt
  obtain ⟨r, hr, hrlt⟩ := h.root_valid
  have hlive : ∀ n, (st.RegisterNewFolder path).Live n ↔ n = st.Folders.length ∨ st.Live n := by
    intro n
    unfold UHdriVaultManager.Live
    rw [hreg, hR]
    tauto
  have hlivelt : ∀ n, st.Live n → n < st.Folders.length := by
    rintro n (hn | hn)
    · rw [hr, Option.some.injEq] at hn; rw [← hn]; exact hrlt
    · exact hreglt n hn
  have hlen : (st.RegisterNewFolder path).Folders.length = st.Folders.length + 1 := by
    rw [hF]; simp
  refine ⟨⟨r, hR.trans hr, by rw [hlen]; omega⟩, ?_, ?_, ?_, ?_, ?_, ?_, ?_, ?_⟩
  · intro q hq
    rcases (hmem q).1 hq with hq | hq
    · exact ⟨st.Folders.length, by rw [hq], by rw [hlen]; omega⟩
    · obtain ⟨n, hn, hlt⟩ := h.registered_valid q hq
      exact ⟨n, hn, by rw [hlen]; omega⟩
  · intro n node c hn hnode hcmem
    rcases (hlive n).1 hn with hn | hn
    · rw [hn, hnew, Option.some.injEq] at hnode
      rw [← hnode, hnewC] at hcmem; simp at hcmem
    · rw [hold n (hlivelt n hn)] at hnode
      obtain ⟨h1, h2, h3, cnode, h4, h5⟩ := h.child_ok n node c hn hnode hcmem
      have hclt := hreglt c h1
      refine ⟨(hreg c).2 (Or.inr h1), by rw [hR]; exact h2, ?_, cnode, by rw [hold c hclt]; exact h4, h5⟩
      simp only [List.mem_cons, not_or]
      exact ⟨by omega, h3⟩
  · intro n m nodeN nodeM c hn hm hnN hmM hcN hcM
    rcases (hlive n).1 hn with hn | hn
    · rw [hn, hnew, Option.some.injEq] at hnN
      rw [← hnN, hnewC] at hcN; simp at hcN
    · rcases (hlive m).1 hm with hm | hm
      · rw [hm, hnew, Option.some.injEq] at hmM
        rw [← hmM, hnewC] at hcM; simp at hcM
      · rw [hold n (hlivelt n hn)] at hnN
        rw [hold m (hlivelt m hm)] at hmM
        exact h.child_unique n m nodeN nodeM c hn hm hnN hmM hcN hcM
  · intro n node hn hnode
    rcases (hlive n).1 hn with hn | hn
    · rw [hn, hnew, Option.some.injEq] at hnode
      rw [← hnode, hnewC]; exact List.nodup_nil
    · rw [hold n (hlivelt n hn)] at hnode
      exact h.children_nodup n node hn hnode
  · intro n hn hnp
    simp only [List.mem_cons, not_or] at hnp
    rcases (hlive n).1 hn with hn | hn
    · exact absurd hn hnp.1
    · refine Reachable_mono hR ?_ n (h.reachable n hn hnp.2)
      intro m node hm
      have hmlt : m < st.Folders.length := (List.getElem?_eq_some.1 hm).1
      exact ⟨node, by rw [hold m hmlt]; exact hm, fun c hc => hc⟩
  · intro c hcp
    rcases List.mem_cons.1 hcp with hcp | hcp
    · refine ⟨(hreg c).2 (Or.inl hcp), ?_⟩
      rw [hR, hr, hcp]
      intro hcr
      simp only [Option.some.injEq] at hcr
      omega
    · obtain ⟨h1, h2⟩ := h.pend_ok c hcp
      exact ⟨(hreg c).2 (Or.inr h1), by rw [hR]; exact h2⟩
  · intro c hcp node hnode
    rcases List.mem_cons.1 hcp with hcp | hcp
    · rw [hcp, hnew, Option.some.injEq] at hnode
      rw [← hnode]; exact hnewC
    · rw [hold c (hreglt c (h.pend_ok c hcp).1)] at hnode
      exact h.pend_leaf c hcp node hnode
  · obtain ⟨level, hlevel⟩ := h.ranked
    refine ⟨level, ?_⟩
    intro n node c hn hnode hcmem
    rcases (hlive n).1 hn with hn | hn
    · rw [hn, hnew, Option.some.injEq] at hnode
      rw [← hnode, hnewC] at hcmem; simp at hcmem
    · rw [hold n (hlivelt n hn)] at hnode
      exact hlevel n node c hn hnode hcmem

theorem AttachChild_cell (st : UHdriVaultManager) (a b : Nat) (hab : a ≠ b) (n : Nat)
    (node' : FHdriVaultFolderNode) (h : (st.AttachChild a b).Folders[n]? = some node') :
    ∃ node, st.Folders[n]? = some node ∧
      node'.Parent = (if n = b then some a else node.Parent) ∧
      node'.Children = (if n = a then node.Children ++ [b] else node.Children) ∧
      node'.Materials = node.Materials ∧ node'.FolderPath = node.FolderPath := by
  rw [AttachChild_getElem? st a b hab n] at h
  cases hn : st.Folders[n]? with
  | none => rw [hn] at h; simp at h
  | some node =>
    rw [hn, Option.map_some', Option.some.injEq] at h
    refine ⟨node, rfl, ?_⟩
    rw [← h]
    by_cases hna : n = a
    · subst hna
      simp [hab]
    · by_cases hnb : n = b
      · subst hnb
        have hab' : ¬ n = a := fun e => hab e.symm
        simp [hab']
      · simp [hna, hnb]

theorem AttachChild_cell_of (st : UHdriVaultManager) (a b : Nat) (hab : a ≠ b) (n : Nat)
    (node : FHdriVaultFolderNode) (h : st.Folders[n]? = some node) :
    ∃ node', (st.AttachChild a b).Folders[n]? = some node' ∧
      node'.Parent = (if n = b then some a else node.Parent) ∧
      node'.Children = (if n = a then node.Children ++ [b] else node.Children) ∧
      node'.Materials = node.Materials ∧ node'.FolderPath = node.FolderPath := by
  have hs : ((st.AttachChild a b).Folders[n]?).isSome = true := by
    rw [AttachChild_getElem? st a b hab n, h]; rfl
  cases hn' : (st.AttachChild a b).Folders[n]? with
  | none => rw [hn'] at hs; simp at hs
  | some node' =>
    obtain ⟨node0, h0, hrest⟩ := AttachChild_cell st a b hab n node' hn'
    rw [h, Option.some.injEq] at h0
    subst h0
    exact ⟨node', rfl, hrest⟩

theorem AttachChild_length (st : UHdriVaultManager) (a b : Nat) :
    (st.AttachChild a b).Folders.length = st.Folders.length := by
  rw [AttachChild_Folders, length_modifyAt, length_modifyAt]

/-- Hanging the pending folder `c0` under a folder of the structure keeps the invariant. -/
theorem FolderTreeInv.attach {st : UHdriVaultManager} {pend : List Nat} {c0 : Nat}
    (h : FolderTreeInv st (c0 :: pend)) (parent : Nat) (hpl : st.Live parent)
    (hpp : parent ∉ c0 :: pend) (hc0 : c0 ∉ pend) :
    FolderTreeInv (st.AttachChild parent c0) pend := by
  have hab : parent ≠ c0 := fun e => hpp (by rw [e]; exact List.mem_cons_self _ _)
  obtain ⟨hc0reg, hc0root⟩ := h.pend_ok c0 (List.mem_cons_self _ _)
  have hreglt : ∀ n, st.Registered n → n < st.Folders.length := by
    rintro n ⟨k, hk⟩
    obtain ⟨m, hm, hlt⟩ := h.registered_valid _ hk
    simp only [Option.some.injEq] at hm
    rw [hm]; exact hlt
  obtain ⟨r, hr, hrlt⟩ := h.root_valid
  have hlivelt : ∀ n, st.Live n → n < st.Folders.length := by
    rintro n (hn | hn)
    · rw [hr, Option.some.injEq] at hn; rw [← hn]; exact hrlt
    · exact hreglt n hn
  have hlive : ∀ n, (st.AttachChild parent c0).Live n ↔ st.Live n := fun n => Iff.rfl
  have hregd : ∀ n, (st.AttachChild parent c0).Registered n ↔ st.Registered n := fun n => Iff.rfl
  have hnochild : ∀ n node, st.Live n → st.Folders[n]? = some node → c0 ∉ node.Children := by
    intro n node hn hnode hc
    exact (h.child_ok n node c0 hn hnode hc).2.2.1 (List.mem_cons_self _ _)
  have hparentR : st.Reachable parent := h.reachable parent hpl hpp
  have hmono : ∀ n, st.Reachable n → (st.AttachChild parent c0).Reachable n := by
    intro n hn
    refine Reachable_mono (AttachChild_Root st parent c0) ?_ n hn
    intro m node hm
    obtain ⟨node', hm', _, hch, _⟩ := AttachChild_cell_of st parent c0 hab m node hm
    refine ⟨node', hm', ?_⟩
    intro c hc
    rw [hch]
    by_cases hmp : m = parent
    · simp [hmp, hc]
    · simp [hmp, hc]
  refine ⟨⟨r, hr, by rw [AttachChild_length]; exact hrlt⟩, ?_, ?_, ?_, ?_, ?_, ?_, ?_, ?_⟩
  · intro q hq
    obtain ⟨n, hn, hlt⟩ := h.registered_valid q hq
    exact ⟨n, hn, by rw [AttachChild_length]; exact hlt⟩
  · intro n node' c hn hnode' hcmem
    obtain ⟨node, hnode, _, hch, _⟩ := AttachChild_cell st parent c0 hab n node' hnode'
    have hcases : c ∈ node.Children ∨ (n = parent ∧ c = c0) := by
      rw [hch] at hcmem
      by_cases hnp : n = parent
      · simp only [hnp, if_true, List.mem_append, List.mem_singleton] at hcmem
        rcases hcmem with hcm | hcm
        · left; rw [hnp] at hnode; exact hcm
        · right; exact ⟨hnp, hcm⟩
      · simp only [hnp, if_false] at hcmem
        left; exact hcmem
    rcases hcases with hold | ⟨hnp, hcc⟩
    · obtain ⟨h1, h2, h3, cnode, h4, h5⟩ := h.child_ok n node c hn hnode hold
      simp only [List.mem_cons, not_or] at h3
      obtain ⟨cnode', h4', hpar, _⟩ := AttachChild_cell_of st parent c0 hab c cnode h4
      refine ⟨h1, h2, h3.2, cnode', h4', ?_⟩
      rw [hpar, if_neg h3.1]; exact h5
    · subst hcc
      have hclt := hreglt c hc0reg
      obtain ⟨cnode, hcn⟩ : ∃ cnode, st.Folders[c]? = some cnode :=
        ⟨st.Folders[c], List.getElem?_eq_getElem hclt⟩
      obtain ⟨cnode', h4', hpar, _⟩ := AttachChild_cell_of st parent c hab c cnode hcn
      refine ⟨hc0reg, hc0root, hc0, cnode', h4', ?_⟩
      rw [hpar, if_pos rfl, hnp]
  · intro n m nodeN' nodeM' c hn hm hnN hmM hcN hcM
    obtain ⟨nodeN, hnodeN, _, hchN, _⟩ := AttachChild_cell st parent c0 hab n nodeN' hnN
    obtain ⟨nodeM, hnodeM, _, hchM, _⟩ := AttachChild_cell st parent c0 hab m nodeM' hmM
    have hN : c ∈ nodeN.Children ∨ (n = parent ∧ c = c0) := by
      rw [hchN] at hcN
      by_cases hnp : n = parent
      · simp only [hnp, if_true, List.mem_append, List.mem_singleton] at hcN
        rcases hcN with hcm | hcm
        · left; exact hcm
        · right; exact ⟨hnp, hcm⟩
      · simp only [hnp, if_false] at hcN
        left; exact hcN
    have hM : c ∈ nodeM.Children ∨ (m = parent ∧ c = c0) := by
      rw [hchM] at hcM
      by_cases hmp : m = parent
      · simp only [hmp, if_true, List.mem_append, List.mem_singleton] at hcM
        rcases hcM with hcm | hcm
        · left; exact hcm
        · right; exact ⟨hmp, hcm⟩
      · simp only [hmp, if_false] at hcM
        left; exact hcM
    rcases hN with hN | ⟨hnp, hcc⟩
    · rcases hM with hM | ⟨hmp, hcc⟩
      · exact h.child_unique n m nodeN nodeM c hn hm hnodeN hnodeM hN hM
      · rw [hcc] at hN; exact absurd hN (hnochild n nodeN hn hnodeN)
    · rcases hM with hM | ⟨hmp, _⟩
      · rw [hcc] at hM; exact absurd hM (hnochild m nodeM hm hnodeM)
      · rw [hnp, hmp]
  · intro n node' hn hnode'
    obtain ⟨node, hnode, _, hch, _⟩ := AttachChild_cell st parent c0 hab n node' hnode'
    rw [hch]
    have hnd := h.children_nodup n node hn hnode
    by_cases hnp : n = parent
    · simp only [hnp, if_true]
      rw [List.nodup_append]
      refine ⟨hnd, List.nodup_singleton _, ?_⟩
      intro x hx hx'
      simp only [List.mem_singleton] at hx'
      rw [hx'] at hx
      exact hnochild n node hn hnode hx
    · simp only [hnp, if_false]; exact hnd
  · intro n hn hnp
    by_cases hnc : n = c0
    · have hplt := hlivelt parent hpl
      obtain ⟨pnode, hpn⟩ : ∃ pnode, st.Folders[parent]? = some pnode :=
        ⟨st.Folders[parent], List.getElem?_eq_getElem hplt⟩
      obtain ⟨pnode', hpn', _, hch, _⟩ := AttachChild_cell_of st parent c0 hab parent pnode hpn
      refine UHdriVaultManager.Reachable.child parent n pnode' (hmono parent hparentR) hpn' ?_
      rw [hch, if_pos rfl, hnc]; simp
    · apply hmono
      apply h.reachable n hn
      simp only [List.mem_cons, not_or]
      exact ⟨hnc, hnp⟩
  · intro c hc
    exact h.pend_ok c (List.mem_cons_of_mem _ hc)
  · intro c hc node' hnode'
    obtain ⟨node, hnode, _, hch, _⟩ := AttachChild_cell st parent c0 hab c node' hnode'
    have hcp : c ≠ parent := fun e => hpp (by rw [← e]; exact List.mem_cons_of_mem _ hc)
    rw [hch, if_neg hcp]
    exact h.pend_leaf c (List.mem_cons_of_mem _ hc) node hnode
  · obtain ⟨level, hlevel⟩ := h.ranked
    refine ⟨fun x => if x = c0 then level parent + 1 else level x, ?_⟩
    intro n node' c hn hnode' hcmem
    obtain ⟨node, hnode, _, hch, _⟩ := AttachChild_cell st parent c0 hab n node' hnode'
    have hcases : c ∈ node.Children ∨ (n = parent ∧ c = c0) := by
      rw [hch] at hcmem
      by_cases hnp : n = parent
      · simp only [hnp, if_true, List.mem_append, List.mem_singleton] at hcmem
        rcases hcmem with hcm | hcm
        · left; exact hcm
        · right; exact ⟨hnp, hcm⟩
      · simp only [hnp, if_false] at hcmem
        left; exact hcmem
    rcases hcases with hold | ⟨hnp, hcc⟩
    · have hcne : c ≠ c0 := by
        intro e
        exact (h.child_ok n node c hn hnode hold).2.2.1 (by rw [e]; exact List.mem_cons_self _ _)
      have hnne : n ≠ c0 := by
        intro e
        rw [e] at hnode
        have := h.pend_leaf c0 (List.mem_cons_self _ _) node hnode
        rw [this] at hold; simp at hold
      simp only [hcne, hnne, if_false]
      exact hlevel n node c hn hnode hold
    · have hpne : ¬ parent = c0 := hab
      simp only [hcc, hnp, if_true, hpne, if_false]

theorem FolderTreeInv.registered_lt {st : UHdriVaultManager} {pend : List Nat}
    (h : FolderTreeInv st pend) (n : Nat) (hn : st.Registered n) : n < st.Folders.length := by
  obtain ⟨k, hk⟩ := hn
  obtain ⟨m, hm, hlt⟩ := h.registered_valid _ hk
  simp only [Option.some.injEq] at hm
  rw [hm]; exact hlt

theorem FolderTreeInv.pend_lt {st : UHdriVaultManager} {pend : List Nat}
    (h : FolderTreeInv st pend) (c : Nat) (hc : c ∈ pend) : c < st.Folders.length :=
  h.registered_lt c (h.pend_ok c hc).1

/-- The function `GetOrCreateFolderNode` keeps the invariant of the folder structure and
returns a folder of the structure that is not pending. The folders pending
from enclosing calls were registered under longer paths. -/
theorem GetOrCreateFolderNodeAux_inv (fuel : Nat) (st : UHdriVaultManager) (path : String)
    (res : UHdriVaultManager × TSharedPtr)
    (hres : UHdriVaultManager.GetOrCreateFolderNodeAux fuel st path = some res) :
    path.data.isEmpty = false → ∀ pend, FolderTreeInv st pend →
      (∀ c ∈ pend, ∀ k, (k, some c) ∈ st.FolderMap → path.data.length < k.data.length) →
      FolderTreeInv res.1 pend ∧ ∃ n, res.2 = some n ∧ res.1.Live n ∧ n ∉ pend := by
  refine GetOrCreateFolderNodeAux_induction
    (fun st path res => path.data.isEmpty = false → ∀ pend, FolderTreeInv st pend →
      (∀ c ∈ pend, ∀ k, (k, some c) ∈ st.FolderMap → path.data.length < k.data.length) →
      FolderTreeInv res.1 pend ∧ ∃ n, res.2 = some n ∧ res.1.Live n ∧ n ∉ pend)
    ?_ ?_ ?_ ?_ ?_ ?_ fuel st path res hres
  · intro st path hc _ pend hinv hlen
    refine ⟨hinv, ?_⟩
    rw [TMap.Contains_iff_Find] at hc
    cases hf : TMap.Find st.FolderMap path with
    | none => rw [hf] at hc; simp at hc
    | some p =>
      obtain ⟨k', hmem, hk'⟩ := TMap.Find_some_mem _ _ _ hf
      obtain ⟨n, hn, _⟩ := hinv.registered_valid _ hmem
      have hp : p = some n := hn
      rw [hp] at hmem hf
      refine ⟨n, by simp [TMap.FindRef, hf], Or.inr ⟨k', hmem⟩, ?_⟩
      intro hnp
      have h1 := hlen n hnp k' hmem
      have h2 := FString.Equals_length hk'
      omega
  · intro st path _ he he'
    rw [he] at he'; simp at he'
  · intro st path st3 parent hc he hpe _ ih _ pend hinv hlen
    have hreg := hinv.register path he hc
    have hlen' : ∀ c ∈ st.Folders.length :: pend, ∀ k,
        (k, some c) ∈ (st.RegisterNewFolder path).FolderMap →
        (FPaths.GetPath path).data.length < k.data.length := by
      intro c hcp k hk
      have hgp := GetPath_length path hpe
      rw [RegisterNewFolder_FolderMap, TMap.mem_Add_iff_of_not_Contains _ _ _ hc] at hk
      rcases hk with hk | hk
      · simp only [Prod.mk.injEq] at hk
        rw [hk.1]; exact hgp
      · rcases List.mem_cons.1 hcp with hcp | hcp
        · have := hinv.registered_lt c ⟨k, hk⟩
          omega
        · have := hlen c hcp k hk
          omega
    obtain ⟨hinv3, n, hn, hlive, hnp⟩ := ih hpe _ hreg hlen'
    simp only [Option.some.injEq] at hn
    subst hn
    have hc0 : st.Folders.length ∉ pend := by
      intro hmem
      have := hinv.pend_lt _ hmem
      omega
    refine ⟨hinv3.attach parent hlive hnp hc0, st.Folders.length, rfl, ?_, hc0⟩
    exact Or.inr (hinv3.pend_ok _ (List.mem_cons_self _ _)).1
  · intro st path st3 hc he hpe _ ih _ pend hinv hlen
    have hreg := hinv.register path he hc
    have hlen' : ∀ c ∈ st.Folders.length :: pend, ∀ k,
        (k, some c) ∈ (st.RegisterNewFolder path).FolderMap →
        (FPaths.GetPath path).data.length < k.data.length := by
      intro c hcp k hk
      have hgp := GetPath_length path hpe
      rw [RegisterNewFolder_FolderMap, TMap.mem_Add_iff_of_not_Contains _ _ _ hc] at hk
      rcases hk with hk | hk
      · simp only [Prod.mk.injEq] at hk
        rw [hk.1]; exact hgp
      · rcases List.mem_cons.1 hcp with hcp | hcp
        · have := hinv.registered_lt c ⟨k, hk⟩
          omega
        · have := hlen c hcp k hk
          omega
    obtain ⟨_, n, hn, _⟩ := ih hpe _ hreg hlen'
    simp at hn
  · intro st path root hc he _ hroot _ pend hinv _
    have hreg := hinv.register path he hc
    obtain ⟨r, hr, hrlt⟩ := hinv.root_valid
    rw [hroot, Option.some.injEq] at hr
    subst hr
    have hc0 : st.Folders.length ∉ pend := by
      intro hmem
      have := hinv.pend_lt _ hmem
      omega
    have hrl : (st.RegisterNewFolder path).Live root :=
      Or.inl ((RegisterNewFolder_Root st path).trans hroot)
    have hrp : root ∉ st.Folders.length :: pend := by
      simp only [List.mem_cons, not_or]
      refine ⟨by omega, ?_⟩
      intro hmem
      exact (hinv.pend_ok root hmem).2 hroot
    refine ⟨hreg.attach root hrl hrp hc0, st.Folders.length, rfl, ?_, hc0⟩
    exact Or.inr (hreg.pend_ok _ (List.mem_cons_self _ _)).1
  · intro st path _ _ _ hroot _ pend hinv _
    obtain ⟨r, hr, _⟩ := hinv.root_valid
    rw [hroot] at hr; simp at hr

theorem GetOrCreateFolderNode_inv (st : UHdriVaultManager) (path : String)
    (he : path.data.isEmpty = false) (hinv : FolderTreeInv st []) :
    FolderTreeInv (st.GetOrCreateFolderNode path).1 [] ∧
      ∃ n, (st.GetOrCreateFolderNode path).2 = some n ∧ (st.GetOrCreateFolderNode path).1.Live n := by
  obtain ⟨h1, n, h2, h3, _⟩ := GetOrCreateFolderNodeAux_inv _ st path _
    (GetOrCreateFolderNode_eq st path) he [] hinv (by simp)
  exact ⟨h1, n, h2, h3⟩

/-- The invariant only reads the root pointer, the folder map and the Parent
and Children of the heap cells. -/
theorem FolderTreeInv.congr {st st' : UHdriVaultManager} {pend : List Nat}
    (h : FolderTreeInv st pend)
    (hroot : st'.RootFolderNode = st.RootFolderNode)
    (hmap : st'.FolderMap = st.FolderMap)
    (hlen : st'.Folders.length = st.Folders.length)
    (hcells : ∀ (n : Nat) (node' : FHdriVaultFolderNode), st'.Folders[n]? = some node' →
      ∃ node, st.Folders[n]? = some node ∧ node'.Parent = node.Parent ∧
        node'.Children = node.Children) :
    FolderTreeInv st' pend := by
  have hcells' : ∀ (n : Nat) (node : FHdriVaultFolderNode), st.Folders[n]? = some node →
      ∃ node', st'.Folders[n]? = some node' ∧ node'.Parent = node.Parent ∧
        node'.Children = node.Children := by
    intro n node hn
    have hlt : n < st'.Folders.length := by
      rw [hlen]; exact (List.getElem?_eq_some.1 hn).1
    obtain ⟨node0, h0, h1, h2⟩ := hcells n _ (List.getElem?_eq_getElem hlt)
    rw [hn, Option.some.injEq] at h0
    subst h0
    exact ⟨_, List.getElem?_eq_getElem hlt, h1, h2⟩
  have hreg : ∀ n, st'.Registered n ↔ st.Registered n := by
    intro n; unfold UHdriVaultManager.Registered; rw [hmap]
  have hlive : ∀ n, st'.Live n ↔ st.Live n := by
    intro n; unfold UHdriVaultManager.Live; rw [hreg, hroot]
  obtain ⟨r, hr, hrlt⟩ := h.root_valid
  refine ⟨⟨r, hroot.trans hr, by rw [hlen]; exact hrlt⟩, ?_, ?_, ?_, ?_, ?_, ?_, ?_, ?_⟩
  · intro q hq
    rw [hmap] at hq
    obtain ⟨n, hn, hlt⟩ := h.registered_valid q hq
    exact ⟨n, hn, by rw [hlen]; exact hlt⟩
  · intro n node' c hn hnode' hc
    obtain ⟨node, hnode, _, hch⟩ := hcells n node' hnode'
    rw [hch] at hc
    obtain ⟨h1, h2, h3, cnode, h4, h5⟩ := h.child_ok n node c ((hlive n).1 hn) hnode hc
    obtain ⟨cnode', h4', hp, _⟩ := hcells' c cnode h4
    exact ⟨(hreg c).2 h1, by rw [hroot]; exact h2, h3, cnode', h4', by rw [hp]; exact h5⟩
  · intro n m nodeN' nodeM' c hn hm hnN hmM hcN hcM
    obtain ⟨nodeN, hnodeN, _, hchN⟩ := hcells n nodeN' hnN
    obtain ⟨nodeM, hnodeM, _, hchM⟩ := hcells m nodeM' hmM
    rw [hchN] at hcN
    rw [hchM] at hcM
    exact h.child_unique n m nodeN nodeM c ((hlive n).1 hn) ((hlive m).1 hm) hnodeN hnodeM hcN hcM
  · intro n node' hn hnode'
    obtain ⟨node, hnode, _, hch⟩ := hcells n node' hnode'
    rw [hch]
    exact h.children_nodup n node ((hlive n).1 hn) hnode
  · intro n hn hnp
    refine Reachable_mono hroot ?_ n (h.reachable n ((hlive n).1 hn) hnp)
    intro m node hm
    obtain ⟨node', hm', _, hch⟩ := hcells' m node hm
    exact ⟨node', hm', fun c hc => by rw [hch]; exact hc⟩
  · intro c hc
    obtain ⟨h1, h2⟩ := h.pend_ok c hc
    exact ⟨(hreg c).2 h1, by rw [hroot]; exact h2⟩
  · intro c hc node' hnode'
    obtain ⟨node, hnode, _, hch⟩ := hcells c node' hnode'
    rw [hch]
    exact h.pend_leaf c hc node hnode
  · obtain ⟨level, hlevel⟩ := h.ranked
    refine ⟨level, ?_⟩
    intro n node' c hn hnode' hc
    obtain ⟨node, hnode, _, hch⟩ := hcells n node' hnode'
    rw [hch] at hc
    exact hlevel n node c ((hlive n).1 hn) hnode hc

theorem withFolder_cell (st : UHdriVaultManager) (p : TSharedPtr)
    (f : FHdriVaultFolderNode → FHdriVaultFolderNode) (n : Nat) (node' : FHdriVaultFolderNode)
    (h : (st.withFolder p f).Folders[n]? = some node') :
    ∃ node, st.Folders[n]? = some node ∧ (node' = node ∨ (p = some n ∧ node' = f node)) := by
  cases p with
  | none => exact ⟨node', h, Or.inl rfl⟩
  | some m =>
    have h' : (modifyAt st.Folders m f)[n]? = some node' := h
    rw [getElem?_modifyAt] at h'
    by_cases hmn : m = n
    · rw [if_pos hmn] at h'
      cases hn : st.Folders[n]? with
      | none => rw [hn] at h'; simp at h'
      | some node =>
        rw [hn, Option.map_some', Option.some.injEq] at h'
        exact ⟨node, rfl, Or.inr ⟨by rw [hmn], h'.symm⟩⟩
    · rw [if_neg hmn] at h'
      exact ⟨node', h', Or.inl rfl⟩

theorem withFolder_length (st : UHdriVaultManager) (p : TSharedPtr)
    (f : FHdriVaultFolderNode → FHdriVaultFolderNode) :
    (st.withFolder p f).Folders.length = st.Folders.length := by
  cases p with
  | none => rfl
  | some m => exact length_modifyAt _ _ _

theorem withFolder_Root (st : UHdriVaultManager) (p : TSharedPtr)
    (f : FHdriVaultFolderNode → FHdriVaultFolderNode) :
    (st.withFolder p f).RootFolderNode = st.RootFolderNode := by
  cases p <;> rfl

/-- Writing fields other than Parent and Children keeps the invariant. -/
theorem FolderTreeInv.withFolder {st : UHdriVaultManager} {pend : List Nat}
    (h : FolderTreeInv st pend) (p : TSharedPtr)
    (f : FHdriVaultFolderNode → FHdriVaultFolderNode)
    (hf : ∀ node, (f node).Parent = node.Parent ∧ (f node).Children = node.Children) :
    FolderTreeInv (st.withFolder p f) pend := by
  refine h.congr (withFolder_Root st p f) (withFolder_FolderMap st p f) (withFolder_length st p f) ?_
  intro n node' hn
  obtain ⟨node, hnode, hor⟩ := withFolder_cell st p f n node' hn
  refine ⟨node, hnode, ?_⟩
  rcases hor with hor | ⟨_, hor⟩
  · rw [hor]; exact ⟨rfl, rfl⟩
  · rw [hor]; exact hf node

theorem isPrefixOf_nonempty (p s : List Char) (hp : p.isEmpty = false)
    (h : p.isPrefixOf s = true) : s.isEmpty = false := by
  cases s with
  | nil =>
    cases p with
    | nil => simp at hp
    | cons a p' => simp [List.isPrefixOf] at h
  | cons c cs => rfl

theorem OrganizePackagePath_nonempty (PackagePath : String) :
    (OrganizePackagePath PackagePath).data.isEmpty = false := by
  unfold OrganizePackagePath
  have hs : ∀ q : String, q.data.isEmpty = false → FString.StartsWith PackagePath q = true →
      PackagePath.data.isEmpty = false := by
    intro q hq h
    unfold FString.StartsWith at h
    simp only [Bool.and_eq_true] at h
    have := isPrefixOf_nonempty _ _ (by cases hd : q.data <;> simp_all) h.2
    cases hd : PackagePath.data <;> simp_all
  split
  · next h => exact hs "/Game" (by decide) h
  · split
    · next h => exact hs "/Engine" (by decide) h
    · simp only []
      split
      · simp [String.data_append]
      · split
        · simp [String.data_append]
        · simp [String.data_append]

theorem PlaceMaterial_inv (st : UHdriVaultManager) (pair : String × TSharedPtr)
    (h : FolderTreeInv st []) : FolderTreeInv (st.PlaceMaterial pair) [] := by
  unfold UHdriVaultManager.PlaceMaterial
  cases pair.2 with
  | none => exact h
  | some i =>
    cases hi : st.Items[i]? with
    | none => simp only [hi]; exact h
    | some item =>
      simp only [hi]
      obtain ⟨h1, n, h2, _⟩ := GetOrCreateFolderNode_inv st
        (OrganizePackagePath item.AssetData.PackagePath) (OrganizePackagePath_nonempty _) h
      cases hres : st.GetOrCreateFolderNode (OrganizePackagePath item.AssetData.PackagePath) with
      | mk st1 ptr =>
        rw [hres] at h1 h2
        simp only at h2
        subst h2
        exact h1.withFolder _ _ (fun node => ⟨rfl, rfl⟩)

theorem foldl_PlaceMaterial_inv (l : List (String × TSharedPtr)) (st : UHdriVaultManager)
    (h : FolderTreeInv st []) : FolderTreeInv (l.foldl UHdriVaultManager.PlaceMaterial st) [] := by
  induction l generalizing st with
  | nil => exact h
  | cons p rest ih => exact ih _ (PlaceMaterial_inv st p h)

theorem ResetFolderStructure_FolderMap (st : UHdriVaultManager) (r : Nat) :
    (st.ResetFolderStructure r).FolderMap =
      TMap.Add (TMap.Add (TMap.Add (TMap.Add [] st.Settings.RootFolder (some r)) "/Game"
        (some st.Folders.length)) "/Engine" (some (st.Folders.length + 1))) "/Plugins"
        (some (st.Folders.length + 2)) := by
  simp [UHdriVaultManager.ResetFolderStructure, UHdriVaultManager.CreateFolderNode,
    UHdriVaultManager.withFolder, length_modifyAt]

theorem ResetFolderStructure_Root (st : UHdriVaultManager) (r : Nat) :
    (st.ResetFolderStructure r).RootFolderNode = st.RootFolderNode :=
  (ResetFolderStructure_same st r).2.2.1

theorem modifyAt_append_left {α : Type} (l m : List α) (i : Nat) (f : α → α)
    (h : i < l.length) : modifyAt (l ++ m) i f = modifyAt l i f ++ m := by
  apply List.ext_getElem?
  intro n
  rw [getElem?_modifyAt]
  by_cases hn : n < l.length
  · rw [List.getElem?_append_left hn,
      List.getElem?_append_left (by rw [length_modifyAt]; exact hn), getElem?_modifyAt]
  · have hin : ¬ i = n := by omega
    rw [if_neg hin, List.getElem?_append_right (by omega),
      List.getElem?_append_right (by rw [length_modifyAt]; omega), length_modifyAt]

theorem modifyAt_append_right {α : Type} (l m : List α) (i : Nat) (f : α → α)
    (h : l.length ≤ i) : modifyAt (l ++ m) i f = l ++ modifyAt m (i - l.length) f := by
  apply List.ext_getElem?
  intro n
  rw [getElem?_modifyAt]
  by_cases hn : n < l.length
  · have hin : ¬ i = n := by omega
    rw [if_neg hin, List.getElem?_append_left hn, List.getElem?_append_left hn]
  · rw [List.getElem?_append_right (by omega), List.getElem?_append_right (by omega),
      getElem?_modifyAt]
    by_cases hin : i = n
    · subst hin; simp
    · have : ¬ i - l.length = n - l.length := by omega
      simp [hin, this]

theorem modifyAt_modifyAt {α : Type} (l : List α) (i : Nat) (f g : α → α) :
    modifyAt (modifyAt l i f) i g = modifyAt l i (fun x => g (f x)) := by
  apply List.ext_getElem?
  intro n
  rw [getElem?_modifyAt, getElem?_modifyAt, getElem?_modifyAt]
  by_cases hin : i = n
  · simp [hin, Function.comp_def]
  · simp [hin]

theorem modifyAt_append_singleton {α : Type} (l : List α) (x : α) (i : Nat) (f : α → α)
    (h : i = l.length) : modifyAt (l ++ [x]) i f = l ++ [f x] := by
  rw [modifyAt_append_right l [x] i f (by omega), h, Nat.sub_self]
  rfl

theorem ResetFolderStructure_Folders (st : UHdriVaultManager) (r : Nat)
    (hr : r < st.Folders.length) :
    ∃ a b c : FHdriVaultFolderNode, 
    (st.ResetFolderStructure r).Folders =
      modifyAt st.Folders r (fun n => { n with Children := [st.Folders.length,
        st.Folders.length + 1, st.Folders.length + 2] }) ++ [a, b, c] ∧
      a.Parent = some r ∧ b.Parent = some r ∧ c.Parent = some r ∧
      a.Children = [] ∧ b.Children = [] ∧ c.Children = [] ∧
      a.Materials = [] ∧ b.Materials = [] ∧ c.Materials = [] ∧
      a.FolderPath = "/Game" ∧ b.FolderPath = "/Engine" ∧ c.FolderPath = "/Plugins" := by
  refine ⟨{ FHdriVaultFolderNode.new "Content" "/Game" with Parent := some r },
    { FHdriVaultFolderNode.new "Engine" "/Engine" with Parent := some r },
    { FHdriVaultFolderNode.new "Plugins" "/Plugins" with Parent := some r }, ?_,
    rfl, rfl, rfl, rfl, rfl, rfl, rfl, rfl, rfl, rfl, rfl, rfl⟩
  simp only [UHdriVaultManager.ResetFolderStructure, UHdriVaultManager.CreateFolderNode,
    UHdriVaultManager.withFolder, length_modifyAt, List.length_append, List.length_singleton,
    Option.toList]
  have e0 : ("/Game" : String).data.isEmpty = false := by decide
  have e1 : ("/Engine" : String).data.isEmpty = false := by decide
  have e2 : ("/Plugins" : String).data.isEmpty = false := by decide
  simp only [e0, e1, e2, Bool.false_eq_true, if_false, length_modifyAt, List.length_append,
    List.length_singleton]
  rw [modifyAt_append_singleton _ _ st.Folders.length _ (by rw [length_modifyAt]),
    modifyAt_append_singleton _ _ (st.Folders.length + 1) _
      (by rw [List.length_append, length_modifyAt]; rfl),
    modifyAt_append_singleton _ _ (st.Folders.length + 1 + 1) _
      (by rw [List.length_append, List.length_append, length_modifyAt]; rfl),
    List.append_assoc, List.append_assoc,
    modifyAt_append_right _ _ st.Folders.length _ (by rw [length_modifyAt]),
    modifyAt_append_right _ _ (st.Folders.length + 1) _ (by rw [length_modifyAt]; omega),
    modifyAt_append_right _ _ (st.Folders.length + 1 + 1) _ (by rw [length_modifyAt]; omega),
    modifyAt_append_left _ _ r _ (by rw [length_modifyAt]; exact hr),
    modifyAt_append_left _ _ r _ (by rw [length_modifyAt, length_modifyAt]; exact hr),
    modifyAt_append_left _ _ r _
      (by rw [length_modifyAt, length_modifyAt, length_modifyAt]; exact hr),
    modifyAt_modifyAt, modifyAt_modifyAt, modifyAt_modifyAt, length_modifyAt]
  have i0 : st.Folders.length - st.Folders.length = 0 := by omega
  have i1 : st.Folders.length + 1 - st.Folders.length = 1 := by omega
  have i2 : st.Folders.length + 1 + 1 - st.Folders.length = 2 := by omega
  rw [i0, i1, i2]
  congr 1

/-- Clearing the structure and creating the three main folders establishes the invariant. -/
theorem ResetFolderStructure_inv (st : UHdriVaultManager) (r : Nat)
    (hroot : st.RootFolderNode = some r) (hr : r < st.Folders.length) :
    FolderTreeInv (st.ResetFolderStructure r) [] := by
  obtain ⟨a, b, c, hF, hpa, hpb, hpc, hca, hcb, hcc, _⟩ := ResetFolderStructure_Folders st r hr
  have hM := ResetFolderStructure_FolderMap st r
  have hR : (st.ResetFolderStructure r).RootFolderNode = some r :=
    (ResetFolderStructure_Root st r).trans hroot
  have hlen : (st.ResetFolderStructure r).Folders.length = st.Folders.length + 3 := by
    rw [hF, List.length_append, length_modifyAt]; rfl
  have hcellR : ∃ node, (st.ResetFolderStructure r).Folders[r]? = some node ∧
      node.Children = [st.Folders.length, st.Folders.length + 1, st.Folders.length + 2] := by
    rw [hF, List.getElem?_append_left (by rw [length_modifyAt]; exact hr), getElem?_modifyAt,
      if_pos rfl, List.getElem?_eq_getElem hr]
    exact ⟨_, rfl, rfl⟩
  have hcellA : (st.ResetFolderStructure r).Folders[st.Folders.length]? = some a := by
    rw [hF, List.getElem?_append_right (by rw [length_modifyAt]), length_modifyAt, Nat.sub_self]
    rfl
  have hcellB : (st.ResetFolderStructure r).Folders[st.Folders.length + 1]? = some b := by
    rw [hF, List.getElem?_append_right (by rw [length_modifyAt]; omega), length_modifyAt,
      Nat.add_sub_cancel_left]
    rfl
  have hcellC : (st.ResetFolderStructure r).Folders[st.Folders.length + 2]? = some c := by
    rw [hF, List.getElem?_append_right (by rw [length_modifyAt]; omega), length_modifyAt,
      Nat.add_sub_cancel_left]
    rfl
  have hmem : ∀ q ∈ (st.ResetFolderStructure r).FolderMap,
      q.2 = some r ∨ q.2 = some st.Folders.length ∨ q.2 = some (st.Folders.length + 1) ∨
        q.2 = some (st.Folders.length + 2) := by
    intro q hq
    rw [hM] at hq
    rcases TMap.mem_Add _ _ _ _ hq with hq | hq
    · rw [hq]; simp
    · rcases TMap.mem_Add _ _ _ _ hq with hq | hq
      · rw [hq]; simp
      · rcases TMap.mem_Add _ _ _ _ hq with hq | hq
        · rw [hq]; simp
        · rcases TMap.mem_Add _ _ _ _ hq with hq | hq
          · rw [hq]; simp
          · simp at hq
  have hregA : (st.ResetFolderStructure r).Registered st.Folders.length := by
    refine ⟨"/Game", ?_⟩
    rw [hM]
    have e1 : FString.Equals "/Game" "/Plugins" = false := by decide
    have e2 : FString.Equals "/Game" "/Engine" = false := by decide
    apply TMap.mem_Add_of_mem _ _ _ _ _ e1
    apply TMap.mem_Add_of_mem _ _ _ _ _ e2
    exact TMap.mem_Add_self _ _ _
  have hregB : (st.ResetFolderStructure r).Registered (st.Folders.length + 1) := by
    refine ⟨"/Engine", ?_⟩
    rw [hM]
    have e1 : FString.Equals "/Engine" "/Plugins" = false := by decide
    apply TMap.mem_Add_of_mem _ _ _ _ _ e1
    exact TMap.mem_Add_self _ _ _
  have hregC : (st.ResetFolderStructure r).Registered (st.Folders.length + 2) := by
    refine ⟨"/Plugins", ?_⟩
    rw [hM]
    exact TMap.mem_Add_self _ _ _
  have hlive : ∀ n, (st.ResetFolderStructure r).Live n →
      n = r ∨ n = st.Folders.length ∨ n = st.Folders.length + 1 ∨ n = st.Folders.length + 2 := by
    rintro n (hn | ⟨k, hk⟩)
    · rw [hR, Option.some.injEq] at hn; exact Or.inl hn.symm
    · have := hmem _ hk
      simpa using this
  obtain ⟨nodeR, hnodeR, hchR⟩ := hcellR
  have hchild : ∀ n node x, (st.ResetFolderStructure r).Live n →
      (st.ResetFolderStructure r).Folders[n]? = some node → x ∈ node.Children →
      n = r ∧ (x = st.Folders.length ∨ x = st.Folders.length + 1 ∨ x = st.Folders.length + 2) := by
    intro n node x hn hnode hx
    rcases hlive n hn with h | h | h | h
    · subst h
      rw [hnodeR, Option.some.injEq] at hnode
      rw [← hnode, hchR] at hx
      exact ⟨rfl, by simpa using hx⟩
    · rw [h, hcellA, Option.some.injEq] at hnode
      rw [← hnode, hca] at hx; simp at hx
    · rw [h, hcellB, Option.some.injEq] at hnode
      rw [← hnode, hcb] at hx; simp at hx
    · rw [h, hcellC, Option.some.injEq] at hnode
      rw [← hnode, hcc] at hx; simp at hx
  have hrootR : (st.ResetFolderStructure r).Reachable r :=
    UHdriVaultManager.Reachable.root r hR
  refine ⟨⟨r, hR, by rw [hlen]; omega⟩, ?_, ?_, ?_, ?_, ?_, ?_, ?_, ?_⟩
  · intro q hq
    rcases hmem q hq with h | h | h | h
    · exact ⟨_, h, by rw [hlen]; omega⟩
    · exact ⟨_, h, by rw [hlen]; omega⟩
    · exact ⟨_, h, by rw [hlen]; omega⟩
    · exact ⟨_, h, by rw [hlen]; omega⟩
  · intro n node x hn hnode hx
    obtain ⟨hnr, hx'⟩ := hchild n node x hn hnode hx
    have hne : (st.ResetFolderStructure r).RootFolderNode ≠ some x := by
      rw [hR]; intro h
      simp only [Option.some.injEq] at h
      omega
    rcases hx' with h | h | h
    · exact ⟨by rw [h]; exact hregA, hne, by simp, a, by rw [h]; exact hcellA, by rw [hpa, hnr]⟩
    · exact ⟨by rw [h]; exact hregB, hne, by simp, b, by rw [h]; exact hcellB, by rw [hpb, hnr]⟩
    · exact ⟨by rw [h]; exact hregC, hne, by simp, c, by rw [h]; exact hcellC, by rw [hpc, hnr]⟩
  · intro n m nodeN nodeM x hn hm hnN hmM hxN hxM
    rw [(hchild n nodeN x hn hnN hxN).1, (hchild m nodeM x hm hmM hxM).1]
  · intro n node hn hnode
    rcases hlive n hn with h | h | h | h
    · subst h
      rw [hnodeR, Option.some.injEq] at hnode
      rw [← hnode, hchR]
      simp
    · rw [h, hcellA, Option.some.injEq] at hnode
      rw [← hnode, hca]; exact List.nodup_nil
    · rw [h, hcellB, Option.some.injEq] at hnode
      rw [← hnode, hcb]; exact List.nodup_nil
    · rw [h, hcellC, Option.some.injEq] at hnode
      rw [← hnode, hcc]; exact List.nodup_nil
  · intro n hn _
    rcases hlive n hn with h | h | h | h
    · rw [h]; exact hrootR
    · exact UHdriVaultManager.Reachable.child r n nodeR hrootR hnodeR (by rw [hchR, h]; simp)
    · exact UHdriVaultManager.Reachable.child r n nodeR hrootR hnodeR (by rw [hchR, h]; simp)
    · exact UHdriVaultManager.Reachable.child r n nodeR hrootR hnodeR (by rw [hchR, h]; simp)
  · intro x hx; simp at hx
  · intro x hx; simp at hx
  · refine ⟨fun x => if x = r then 0 else 1, ?_⟩
    intro n node x hn hnode hx
    obtain ⟨hnr, hx'⟩ := hchild n node x hn hnode hx
    have hxr : ¬ x = r := by omega
    simp only [hnr, hxr, if_true, if_false]

theorem BuildFolderStructure_inv (st : UHdriVaultManager) (r : Nat)
    (hroot : st.RootFolderNode = some r) (hr : r < st.Folders.length) :
    FolderTreeInv st.BuildFolderStructure [] := by
  unfold UHdriVaultManager.BuildFolderStructure
  simp only [hroot]
  exact foldl_PlaceMaterial_inv _ _ (ResetFolderStructure_inv st r hroot hr)

theorem FolderTreeInv.live_of_reachable {st : UHdriVaultManager} {pend : List Nat}
    (h : FolderTreeInv st pend) (n : Nat) (hn : st.Reachable n) : st.Live n := by
  induction hn with
  | root r hr => exact Or.inl hr
  | child n c node _ hnode hc ih => exact Or.inr (h.child_ok n node c ih hnode hc).1

/-- C8. After `BuildFolderStructure` (on a manager with a root folder), the
folders form a tree with back-pointers: for every folder `n` reachable from
the root through Children, each child `c` of `n` has `c.Parent = n`; no node
occurs twice in the children lists (neither twice in one list nor in the
lists of two folders) and the root is nobody's child; and every node
registered in `FolderMap` is reachable from the root. -/
theorem BuildFolderStructure_is_tree (st : UHdriVaultManager) (r : Nat)
    (hroot : st.RootFolderNode = some r) (hr : r < st.Folders.length) :
    (∀ n node c, st.BuildFolderStructure.Reachable n →
      st.BuildFolderStructure.Folders[n]? = some node → c ∈ node.Children →
      ∃ cnode, st.BuildFolderStructure.Folders[c]? = some cnode ∧ cnode.Parent = some n) ∧
    (∀ n node, st.BuildFolderStructure.Reachable n →
      st.BuildFolderStructure.Folders[n]? = some node → node.Children.Nodup) ∧
    (∀ n m nodeN nodeM c, st.BuildFolderStructure.Reachable n →
      st.BuildFolderStructure.Reachable m →
      st.BuildFolderStructure.Folders[n]? = some nodeN →
      st.BuildFolderStructure.Folders[m]? = some nodeM →
      c ∈ nodeN.Children → c ∈ nodeM.Children → n = m) ∧
    (∀ n node, st.BuildFolderStructure.Reachable n →
      st.BuildFolderStructure.Folders[n]? = some node → r ∉ node.Children) ∧
    (∀ k p, (k, p) ∈ st.BuildFolderStructure.FolderMap →
      ∃ n, p = some n ∧ st.BuildFolderStructure.Reachable n) := by
  have hinv := BuildFolderStructure_inv st r hroot hr
  have hR : st.BuildFolderStructure.RootFolderNode = some r :=
    (BuildFolderStructure_same st).2.2.1.trans hroot
  refine ⟨?_, ?_, ?_, ?_, ?_⟩
  · intro n node c hn hnode hc
    exact (hinv.child_ok n node c (hinv.live_of_reachable n hn) hnode hc).2.2.2
  · intro n node hn hnode
    exact hinv.children_nodup n node (hinv.live_of_reachable n hn) hnode
  · intro n m nodeN nodeM c hn hm hnN hmM hcN hcM
    exact hinv.child_unique n m nodeN nodeM c (hinv.live_of_reachable n hn)
      (hinv.live_of_reachable m hm) hnN hmM hcN hcM
  · intro n node hn hnode hc
    exact (hinv.child_ok n node r (hinv.live_of_reachable n hn) hnode hc).2.1 hR
  · intro k p hk
    obtain ⟨n, hn, _⟩ := hinv.registered_valid _ hk
    exact ⟨n, hn, hinv.reachable n (Or.inr ⟨k, by rw [← hn]; exact hk⟩) (by simp)⟩

theorem BuildFolderStructure_is_tree_witness :
    exIndexed.RootFolderNode = some 0 ∧ 0 < exIndexed.Folders.length ∧
    (∀ k p, (k, p) ∈ exIndexed.BuildFolderStructure.FolderMap →
      ∃ n, p = some n ∧ exIndexed.BuildFolderStructure.Reachable n) :=
  ⟨by decide, by decide, (BuildFolderStructure_is_tree exIndexed 0 (by decide) (by decide)).2.2.2.2⟩

/-! ## Materials of a folder and its descendants -/

theorem MaterialsOfFolders_append (Folders : List FHdriVaultFolderNode) (a b : List Nat) :
    MaterialsOfFolders Folders (a ++ b) =
      MaterialsOfFolders Folders a ++ MaterialsOfFolders Folders b := by
  induction a with
  | nil => rfl
  | cons d ds ih => simp [MaterialsOfFolders, ih]

theorem gatherChildren_kids (Folders : List FHdriVaultFolderNode) (fuel : Nat)
    (kids : List FolderTree)
    (h : ∀ k ∈ kids, GatherMaterialsRecursive Folders fuel k.id =
      some (MaterialsOfFolders Folders k.ids)) :
    gatherChildren (GatherMaterialsRecursive Folders fuel) (kids.map FolderTree.id) =
      some (MaterialsOfFolders Folders (FolderTree.ids.idsAll kids)) := by
  induction kids with
  | nil => rfl
  | cons k ks ih =>
    have hk := h k (List.mem_cons_self _ _)
    have hks := ih (fun k' hk' => h k' (List.mem_cons_of_mem _ hk'))
    simp only [List.map_cons, gatherChildren, hk, hks, FolderTree.ids.idsAll,
      MaterialsOfFolders_append]

theorem unfoldsAll_mem (Folders : List FHdriVaultFolderNode) (kids : List FolderTree)
    (h : Unfolds.unfoldsAll Folders kids = true) (k : FolderTree) (hk : k ∈ kids) :
    Unfolds Folders k = true := by
  induction kids with
  | nil => simp at hk
  | cons k0 ks ih =>
    simp only [Unfolds.unfoldsAll, Bool.and_eq_true] at h
    rcases List.mem_cons.1 hk with hk | hk
    · rw [hk]; exact h.1
    · exact ih h.2 hk

theorem depthAll_mem (kids : List FolderTree) (k : FolderTree) (hk : k ∈ kids) :
    k.depth ≤ FolderTree.depth.depthAll kids := by
  induction kids with
  | nil => simp at hk
  | cons k0 ks ih =>
    simp only [FolderTree.depth.depthAll]
    rcases List.mem_cons.1 hk with hk | hk
    · rw [hk]; exact Nat.le_max_left _ _
    · exact Nat.le_trans (ih hk) (Nat.le_max_right _ _)

/-- With a depth bound above the number of levels, the recursive lambda
collects the Materials lists of the folder and of all its descendants. -/
theorem GatherMaterialsRecursive_tree (Folders : List FHdriVaultFolderNode) (fuel : Nat)
    (t : FolderTree) (hu : Unfolds Folders t = true) (hd : t.depth < fuel) :
    GatherMaterialsRecursive Folders fuel t.id = some (MaterialsOfFolders Folders t.ids) := by
  induction fuel generalizing t with
  | zero => omega
  | succ fuel ih =>
    cases t with
    | node i kids =>
      simp only [Unfolds, Bool.and_eq_true] at hu
      simp only [FolderTree.depth] at hd
      cases hcell : Folders[i]? with
      | none => rw [hcell] at hu; simp at hu
      | some node =>
        rw [hcell] at hu
        have hch : node.Children = kids.map FolderTree.id := by simpa using hu.1
        have hkids := gatherChildren_kids Folders fuel kids (fun k hk =>
          ih k (unfoldsAll_mem Folders kids hu.2 k hk)
            (by have := depthAll_mem kids k hk; omega))
        simp only [FolderTree.id, GatherMaterialsRecursive, hcell, hch, hkids, Option.map_some',
          FolderTree.ids, MaterialsOfFolders]

theorem SortMaterials_perm (st : UHdriVaultManager) (l : List Nat) :
    (st.SortMaterials l).Perm l := by
  unfold UHdriVaultManager.SortMaterials
  cases st.Settings.SortMode
  · exact TArray.Sort_perm _ _
  · exact TArray.Sort_perm _ _
  · exact List.Perm.refl _
  · exact TArray.Sort_perm _ _

/-- C7, failing input. With the root folder setting `/Game/HDRI`, the root
node is the node registered under the organised path of the asset
`/Game/HDRI/Studio`. `BuildFolderStructure` clears the root's Children but not
its Materials (`RefreshMaterialDatabase` clears both), so after the second
rebuild the item of that asset is listed twice in the Materials of its folder. -/
theorem BuildFolderStructure_lists_item_twice :
    exCustomRoot.MaterialMap =
      [("/Game/HDRI/Studio.Studio", some 0), ("/Game/Other/Dawn.Dawn", some 1)] ∧
    exCustomRoot.RootFolderNode = some 0 ∧
    TMap.FindRef exCustomRoot.FolderMap (OrganizePackagePath "/Game/HDRI") = some 0 ∧
    (exCustomRoot.Folders[0]?).map (fun n => n.Materials) = some [0, 0] ∧
    (exCustomRoot.BuildFolderStructure.Folders[0]?).map (fun n => n.Materials) =
      some [0, 0, 0] := by
  decide

theorem exists_level_bound (level : Nat → Nat) (N : Nat) : ∃ D, ∀ m, m < N → level m ≤ D := by
  induction N with
  | zero => exact ⟨0, fun m hm => by omega⟩
  | succ N ih =>
    obtain ⟨D, hD⟩ := ih
    refine ⟨max D (level N), ?_⟩
    intro m hm
    by_cases h : m = N
    · rw [h]; exact Nat.le_max_right _ _
    · exact Nat.le_trans (hD m (by omega)) (Nat.le_max_left _ _)

theorem exists_kids (Folders : List FHdriVaultFolderNode) (cs : List Nat)
    (h : ∀ c ∈ cs, ∃ t : FolderTree, t.id = c ∧ Unfolds Folders t = true) :
    ∃ kids : List FolderTree, kids.map FolderTree.id = cs ∧
      Unfolds.unfoldsAll Folders kids = true := by
  induction cs with
  | nil => exact ⟨[], rfl, rfl⟩
  | cons c cs ih =>
    obtain ⟨t, ht, hu⟩ := h c (List.mem_cons_self _ _)
    obtain ⟨kids, hk, hku⟩ := ih (fun c' hc' => h c' (List.mem_cons_of_mem _ hc'))
    refine ⟨t :: kids, by simp [ht, hk], ?_⟩
    simp [Unfolds.unfoldsAll, hu, hku]

/-- In a finished folder structure every folder is the top of a finite tree
that describes it and its descendants. -/
theorem FolderTreeInv.exists_tree {st : UHdriVaultManager} (h : FolderTreeInv st [])
    (n : Nat) (hn : st.Live n) :
    ∃ t : FolderTree, t.id = n ∧ Unfolds st.Folders t = true := by
  obtain ⟨level, hlevel⟩ := h.ranked
  obtain ⟨D, hD⟩ := exists_level_bound level st.Folders.length
  have hlivelt : ∀ m, st.Live m → m < st.Folders.length := by
    rintro m (hm | hm)
    · obtain ⟨r, hr, hrlt⟩ := h.root_valid
      rw [hr, Option.some.injEq] at hm; rw [← hm]; exact hrlt
    · exact h.registered_lt m hm
  have key : ∀ k n, st.Live n → D - level n ≤ k →
      ∃ t : FolderTree, t.id = n ∧ Unfolds st.Folders t = true := by
    intro k
    induction k with
    | zero =>
      intro n hn hk
      have hlt := hlivelt n hn
      have hcell : st.Folders[n]? = some st.Folders[n] := List.getElem?_eq_getElem hlt
      have hno : st.Folders[n].Children = [] := by
        cases hch : st.Folders[n].Children with
        | nil => rfl
        | cons c cs =>
          exfalso
          have hc : c ∈ st.Folders[n].Children := by rw [hch]; exact List.mem_cons_self _ _
          have h1 := hlevel n _ c hn hcell hc
          have h2 := hD c (h.registered_lt c (h.child_ok n _ c hn hcell hc).1)
          have h3 := hD n hlt
          omega
      refine ⟨.node n [], rfl, ?_⟩
      simp [Unfolds, Unfolds.unfoldsAll, hcell, hno]
    | succ k ih =>
      intro n hn hk
      have hlt := hlivelt n hn
      have hcell : st.Folders[n]? = some st.Folders[n] := List.getElem?_eq_getElem hlt
      have hkids : ∀ c ∈ st.Folders[n].Children,
          ∃ t : FolderTree, t.id = c ∧ Unfolds st.Folders t = true := by
        intro c hc
        have h1 := hlevel n _ c hn hcell hc
        have hreg := (h.child_ok n _ c hn hcell hc).1
        have h2 := hD c (h.registered_lt c hreg)
        exact ih c (Or.inr hreg) (by omega)
      obtain ⟨kids, hk1, hk2⟩ := exists_kids st.Folders _ hkids
      refine ⟨.node n kids, rfl, ?_⟩
      simp [Unfolds, hcell, hk1, hk2]
  exact key (D - level n) n hn (Nat.le_refl _)

/-- After `BuildFolderStructure`, every folder registered in `FolderMap` is
the top of a finite tree that describes it and its descendants, so the
recursive lambda of `GetMaterialsInFolder` ends on it. -/
theorem BuildFolderStructure_unfolds (st : UHdriVaultManager) (r : Nat)
    (hroot : st.RootFolderNode = some r) (hr : r < st.Folders.length) (k : String) (n : Nat)
    (hk : (k, some n) ∈ st.BuildFolderStructure.FolderMap) :
    ∃ t : FolderTree, t.id = n ∧ Unfolds st.BuildFolderStructure.Folders t = true :=
  (BuildFolderStructure_inv st r hroot hr).exists_tree n (Or.inr ⟨k, hk⟩)

/-- After `BuildFolderStructure`, `GetMaterialsInFolder` returns, for every
registered path and every large enough depth bound, a permutation of the
Materials of the folder and its descendants. -/
theorem GetMaterialsInFolder_after_build (st : UHdriVaultManager) (r : Nat)
    (hroot : st.RootFolderNode = some r) (hr : r < st.Folders.length) (FolderPath : String)
    (hc : TMap.Contains st.BuildFolderStructure.FolderMap FolderPath = true) :
    ∃ t : FolderTree, TMap.FindRef st.BuildFolderStructure.FolderMap FolderPath = some t.id ∧
      Unfolds st.BuildFolderStructure.Folders t = true ∧
      ∀ fuel, t.depth < fuel →
        ∃ l, st.BuildFolderStructure.GetMaterialsInFolder fuel FolderPath = some l ∧
          l.Perm (MaterialsOfFolders st.BuildFolderStructure.Folders t.ids) := by
  have hinv := BuildFolderStructure_inv st r hroot hr
  rw [TMap.Contains_iff_Find] at hc
  cases hf : TMap.Find st.BuildFolderStructure.FolderMap FolderPath with
  | none => rw [hf] at hc; simp at hc
  | some p =>
    obtain ⟨k', hmem, _⟩ := TMap.Find_some_mem _ _ _ hf
    obtain ⟨n, hn, _⟩ := hinv.registered_valid _ hmem
    have hp : p = some n := hn
    rw [hp] at hmem hf
    obtain ⟨t, ht, hu⟩ := hinv.exists_tree n (Or.inr ⟨k', hmem⟩)
    have hfind : TMap.FindRef st.BuildFolderStructure.FolderMap FolderPath = some t.id := by
      simp [TMap.FindRef, hf, ht]
    refine ⟨t, hfind, hu, ?_⟩
    intro fuel hd
    refine ⟨st.BuildFolderStructure.SortMaterials
      (MaterialsOfFolders st.BuildFolderStructure.Folders t.ids), ?_, SortMaterials_perm _ _⟩
    simp only [UHdriVaultManager.GetMaterialsInFolder, UHdriVaultManager.FindFolder, hfind,
      GatherMaterialsRecursive_tree _ fuel t hu hd, Option.map_some']

/-- C9. For a folder path registered in `FolderMap` whose folder and
descendants form the tree `t`, `GetMaterialsInFolder` returns (for every depth
bound above the number of levels of `t`) a permutation of the concatenation of
the Materials lists of that folder and of all its descendants, each item as
often as it occurs there. For a path not registered in `FolderMap` it returns
the empty list. After `BuildFolderStructure` every registered folder has such
a tree, so there the first part applies to every registered path. -/
theorem GetMaterialsInFolder_collects_subtree (st : UHdriVaultManager) (FolderPath : String) :
    (∀ (t : FolderTree) (fuel : Nat), TMap.FindRef st.FolderMap FolderPath = some t.id →
      Unfolds st.Folders t = true → t.depth < fuel →
      ∃ l, st.GetMaterialsInFolder fuel FolderPath = some l ∧
        l.Perm (MaterialsOfFolders st.Folders t.ids)) ∧
    (TMap.Contains st.FolderMap FolderPath = false →
      ∀ fuel, st.GetMaterialsInFolder fuel FolderPath = some []) ∧
    (∀ r, st.RootFolderNode = some r → r < st.Folders.length →
      TMap.Contains st.BuildFolderStructure.FolderMap FolderPath = true →
      ∃ t : FolderTree,
        TMap.FindRef st.BuildFolderStructure.FolderMap FolderPath = some t.id ∧
        Unfolds st.BuildFolderStructure.Folders t = true ∧
        ∀ fuel, t.depth < fuel →
          ∃ l, st.BuildFolderStructure.GetMaterialsInFolder fuel FolderPath = some l ∧
            l.Perm (MaterialsOfFolders st.BuildFolderStructure.Folders t.ids)) := by
  refine ⟨?_, ?_, ?_⟩
  · intro t fuel hfind hu hd
    refine ⟨st.SortMaterials (MaterialsOfFolders st.Folders t.ids), ?_, SortMaterials_perm _ _⟩
    simp only [UHdriVaultManager.GetMaterialsInFolder, UHdriVaultManager.FindFolder, hfind,
      GatherMaterialsRecursive_tree st.Folders fuel t hu hd, Option.map_some']
  · intro hc fuel
    have : TMap.FindRef st.FolderMap FolderPath = none := by
      simp [TMap.FindRef, TMap.Find_eq_none_of_not_Contains _ _ hc]
    simp only [UHdriVaultManager.GetMaterialsInFolder, UHdriVaultManager.FindFolder, this]
  · intro r hroot hr hc
    exact GetMaterialsInFolder_after_build st r hroot hr FolderPath hc

theorem GetMaterialsInFolder_collects_subtree_witness :
    TMap.FindRef exTwoCubes.FolderMap "/Game" = some exGameTree.id ∧
    Unfolds exTwoCubes.Folders exGameTree = true ∧ exGameTree.depth < 4 ∧
    MaterialsOfFolders exTwoCubes.Folders exGameTree.ids = [0, 1] ∧
    ∃ l, exTwoCubes.GetMaterialsInFolder 4 "/Game" = some l ∧
      l.Perm (MaterialsOfFolders exTwoCubes.Folders exGameTree.ids) :=
  ⟨by decide, by decide, by decide, by decide,
    (GetMaterialsInFolder_collects_subtree exTwoCubes "/Game").1 exGameTree 4 (by decide)
      (by decide) (by decide)⟩

/-! ## Eviction order of the thumbnail cache -/

/-- The order in which `TrimCache` sorts the entries: not later than. -/
theorem sorted_TArray_Sort_by_time (l : List (String × FDateTime)) :
    (TArray.Sort (fun A B => decide (A.2.Ticks < B.2.Ticks)) l).Pairwise
      (fun a b => a.2.Ticks ≤ b.2.Ticks) := by
  have htot : IsTotal (String × FDateTime)
      (fun a b => (fun A B : String × FDateTime => decide (A.2.Ticks < B.2.Ticks)) b a = false) :=
    ⟨fun a b => by
      simp only [decide_eq_false_iff_not, Nat.not_lt]
      exact Nat.le_total _ _⟩
  have htr : IsTrans (String × FDateTime)
      (fun a b => (fun A B : String × FDateTime => decide (A.2.Ticks < B.2.Ticks)) b a = false) :=
    ⟨fun a b c => by
      simp only [decide_eq_false_iff_not, Nat.not_lt]
      exact Nat.le_trans⟩
  have h := @List.sorted_insertionSort _
    (fun a b => (fun A B : String × FDateTime => decide (A.2.Ticks < B.2.Ticks)) b a = false)
    _ htot htr l
  unfold TArray.Sort
  refine List.Pairwise.imp ?_ h
  intro a b hab
  simpa using hab

/-- What `RemoveOldest` keeps, for a map without repeated keys: the entries
whose key and time are not among the first `n` sorted entries. The kept
entries are, up to order, the sorted entries from position `n` on. -/
theorem RemoveOldest_keeps_drop (cache : TMap FThumbnailCacheEntry)
    (S : List (String × FDateTime)) (n : Nat)
    (hvalid : TMap.Valid cache)
    (hperm : S.Perm (cache.map (fun e => (e.1, e.2.LastAccessTime)))) :
    RemoveOldest cache S n =
        cache.filter (fun p => decide ((p.1, p.2.LastAccessTime) ∉ S.take n)) ∧
      ((RemoveOldest cache S n).map (fun e => (e.1, e.2.LastAccessTime))).Perm (S.drop n) := by
  set g : String × FThumbnailCacheEntry → String × FDateTime :=
    fun e => (e.1, e.2.LastAccessTime) with hg
  have hsym : Symmetric (fun p q : String × FDateTime => FString.Equals p.1 q.1 = false) := by
    intro p q h
    rw [FString.Equals_symm]; exact h
  have hE : (cache.map g).Pairwise (fun p q => FString.Equals p.1 q.1 = false) := by
    rw [List.pairwise_map]
    exact hvalid
  have hS : S.Pairwise (fun p q => FString.Equals p.1 q.1 = false) :=
    (hperm.pairwise_iff (fun {a b} h => hsym h)).2 hE
  have hnodup : S.Nodup := by
    refine List.Pairwise.imp ?_ hS
    intro a b hab heq
    rw [heq, FString.Equals_refl] at hab
    exact Bool.noConfusion hab
  have hfilter : RemoveOldest cache S n = cache.filter (fun p => decide (g p ∉ S.take n)) := by
    rw [RemoveOldest_eq_foldl_take, foldl_Remove_eq_filter]
    apply List.filter_congr
    intro p hp
    have hpS : g p ∈ S := hperm.symm.subset (List.mem_map_of_mem g hp)
    by_cases hmem : g p ∈ S.take n
    · have h1 : (S.take n).all (fun e => !FString.Equals p.1 e.1) = false := by
        rw [List.all_eq_false]
        exact ⟨g p, hmem, by simp [hg, FString.Equals_refl]⟩
      rw [h1]
      simp [hmem]
    · have h1 : (S.take n).all (fun e => !FString.Equals p.1 e.1) = true := by
        rw [List.all_eq_true]
        intro e he
        have heS : e ∈ S := List.mem_of_mem_take he
        have hne : g p ≠ e := fun h => hmem (h ▸ he)
        have := hS.forall hsym hpS heS hne
        simpa [hg] using this
      rw [h1]
      simp [hmem]
  refine ⟨hfilter, ?_⟩
  rw [hfilter]
  have hmap : (cache.filter (fun p => decide (g p ∉ S.take n))).map g =
      (cache.map g).filter (fun e => decide (e ∉ S.take n)) := by
    rw [List.filter_map]
    rfl
  rw [hmap]
  refine (hperm.symm.filter _).trans ?_
  have hsplit : S = S.take n ++ S.drop n := (List.take_append_drop n S).symm
  have hdisj : ∀ e ∈ S.drop n, e ∉ S.take n := by
    intro e hd ht
    have hnd : (S.take n ++ S.drop n).Nodup := by rw [← hsplit]; exact hnodup
    exact (List.nodup_append.1 hnd).2.2 ht hd
  have hsplit2 : S.filter (fun e => decide (e ∉ S.take n)) =
      (S.take n ++ S.drop n).filter (fun e => decide (e ∉ S.take n)) := by
    rw [List.take_append_drop]
  rw [hsplit2, List.filter_append]
  have h1 : (S.take n).filter (fun e => decide (e ∉ S.take n)) = [] := by
    rw [List.filter_eq_nil_iff]
    intro e he
    simp [he]
  have h2 : (S.drop n).filter (fun e => decide (e ∉ S.take n)) = S.drop n := by
    rw [List.filter_eq_self]
    intro e he
    simpa using hdisj e he
  rw [h1, h2, List.nil_append]

/-- What `TrimCache` does to a cache over its limit: it keeps `MaxCacheSize`
entries of the old cache, and nothing it removes is newer than anything it
keeps. -/
theorem TrimCache_removed_le_kept (tm : FHdriVaultThumbnailManager)
    (hvalid : TMap.Valid tm.ThumbnailCache) (hmax : 0 ≤ tm.MaxCacheSize)
    (hn : tm.MaxCacheSize < ((TMap.Num tm.ThumbnailCache : Nat) : Int)) :
    ((TMap.Num tm.TrimCache.ThumbnailCache : Nat) : Int) = tm.MaxCacheSize ∧
    ((TMap.Num tm.ThumbnailCache : Nat) : Int) -
        ((TMap.Num tm.TrimCache.ThumbnailCache : Nat) : Int) =
      ((TMap.Num tm.ThumbnailCache : Nat) : Int) - tm.MaxCacheSize ∧
    tm.TrimCache.ThumbnailCache.Sublist tm.ThumbnailCache ∧
    (∀ removed ∈ tm.ThumbnailCache, removed ∉ tm.TrimCache.ThumbnailCache →
      ∀ kept ∈ tm.TrimCache.ThumbnailCache,
        removed.2.LastAccessTime.Ticks ≤ kept.2.LastAccessTime.Ticks) := by
  have hnot : ¬ ((TMap.Num tm.ThumbnailCache : Nat) : Int) ≤ tm.MaxCacheSize := by omega
  set S := TArray.Sort (fun A B : String × FDateTime => decide (A.2.Ticks < B.2.Ticks))
    (tm.ThumbnailCache.map (fun e => (e.1, e.2.LastAccessTime))) with hSdef
  set k := (((TMap.Num tm.ThumbnailCache : Nat) : Int) - tm.MaxCacheSize).toNat with hk
  have hres : tm.TrimCache.ThumbnailCache = RemoveOldest tm.ThumbnailCache S k := by
    simp only [FHdriVaultThumbnailManager.TrimCache, hnot, if_false]
  have hperm : S.Perm (tm.ThumbnailCache.map (fun e => (e.1, e.2.LastAccessTime))) :=
    TArray.Sort_perm _ _
  obtain ⟨hfilter, hdrop⟩ := RemoveOldest_keeps_drop tm.ThumbnailCache S k hvalid hperm
  have hsorted := sorted_TArray_Sort_by_time
    (tm.ThumbnailCache.map (fun e => (e.1, e.2.LastAccessTime)))
  rw [← hSdef] at hsorted
  have hlenS : S.length = tm.ThumbnailCache.length := by
    rw [hperm.length_eq, List.length_map]
  have hlen : (RemoveOldest tm.ThumbnailCache S k).length = S.length - k := by
    have := hdrop.length_eq
    rw [List.length_map, List.length_drop] at this
    exact this
  have hnum : ((TMap.Num tm.TrimCache.ThumbnailCache : Nat) : Int) = tm.MaxCacheSize := by
    rw [hres]
    unfold TMap.Num at *
    rw [hlen, hlenS]
    omega
  refine ⟨hnum, by rw [hnum], ?_, ?_⟩
  · rw [hres, hfilter]
    exact List.filter_sublist _
  · intro removed hrem hnotin kept hkept
    rw [hres] at hnotin hkept
    have hremT : (removed.1, removed.2.LastAccessTime) ∈ S.take k := by
      by_contra hc
      apply hnotin
      rw [hfilter, List.mem_filter]
      exact ⟨hrem, by simpa using hc⟩
    have hkeptD : (kept.1, kept.2.LastAccessTime) ∈ S.drop k :=
      hdrop.subset (List.mem_map_of_mem (fun e : String × FThumbnailCacheEntry =>
        (e.1, e.2.LastAccessTime)) hkept)
    have hsplit : S = S.take k ++ S.drop k := (List.take_append_drop k S).symm
    rw [hsplit, List.pairwise_append] at hsorted
    exact hsorted.2.2 _ hremT _ hkeptD

/-- C11. Oldest-first eviction. When the cache (a map: no key twice) holds
`n` entries with `n > m = MaxCacheSize >= 0`, `TrimCache` keeps exactly `m` of
them, so it removes exactly `n - m`; the kept entries are entries of the old
cache in their old order, and every removed entry has a LastAccessTime less
than or equal to the LastAccessTime of every entry that remains. -/
theorem TrimCache_evicts_oldest (tm : FHdriVaultThumbnailManager)
    (hvalid : TMap.Valid tm.ThumbnailCache) (hmax : 0 ≤ tm.MaxCacheSize)
    (hn : tm.MaxCacheSize < ((TMap.Num tm.ThumbnailCache : Nat) : Int)) :
    ((TMap.Num tm.TrimCache.ThumbnailCache : Nat) : Int) = tm.MaxCacheSize ∧
    ((TMap.Num tm.ThumbnailCache : Nat) : Int) -
        ((TMap.Num tm.TrimCache.ThumbnailCache : Nat) : Int) =
      ((TMap.Num tm.ThumbnailCache : Nat) : Int) - tm.MaxCacheSize ∧
    tm.TrimCache.ThumbnailCache.Sublist tm.ThumbnailCache ∧
    (∀ removed ∈ tm.ThumbnailCache, removed ∉ tm.TrimCache.ThumbnailCache →
      ∀ kept ∈ tm.TrimCache.ThumbnailCache,
        removed.2.LastAccessTime.Ticks ≤ kept.2.LastAccessTime.Ticks) :=
  TrimCache_removed_le_kept tm hvalid hmax hn

theorem TrimCache_evicts_oldest_witness :
    TMap.Valid exThumbnailManager.ThumbnailCache ∧
    exThumbnailManager.TrimCache.ThumbnailCache = [("/Game/HDRI/Studio.Studio_128", exEntry 1 30)] ∧
    ((TMap.Num exThumbnailManager.TrimCache.ThumbnailCache : Nat) : Int) =
      exThumbnailManager.MaxCacheSize :=
  ⟨by unfold TMap.Valid; decide, by decide,
    (TrimCache_evicts_oldest exThumbnailManager (by unfold TMap.Valid; decide) (by decide)
      (by decide)).1⟩

/-! ## Cache keys -/

theorem digitChar_isDigit : ∀ k, k < 10 →
    (Nat.digitChar k).isDigit = true ∧ (Nat.digitChar k).toNat - 48 = k := by
  decide

/-- Reading back the digits that `Nat.toDigitsCore` puts in front of `ds`. -/
theorem atoiDigits_toDigitsCore (fuel : Nat) : ∀ (n : Nat) (ds : List Char), n < fuel →
    ∃ L, ∀ acc, atoiDigits acc (Nat.toDigitsCore 10 fuel n ds) =
      atoiDigits (acc * 10 ^ L + n) ds := by
  induction fuel with
  | zero => intro n ds h; omega
  | succ fuel ih =>
    intro n ds hn
    have hd := digitChar_isDigit (n % 10) (Nat.mod_lt _ (by decide))
    by_cases h0 : n / 10 = 0
    · refine ⟨1, fun acc => ?_⟩
      have hlt : n < 10 := by omega
      simp only [Nat.toDigitsCore, h0, if_true, atoiDigits, hd.1, hd.2]
      congr 1
      omega
    · obtain ⟨L, hL⟩ := ih (n / 10) (Nat.digitChar (n % 10) :: ds) (by omega)
      refine ⟨L + 1, fun acc => ?_⟩
      simp only [Nat.toDigitsCore, h0, if_false]
      rw [hL]
      simp only [atoiDigits, hd.1, hd.2, if_true]
      congr 1
      rw [pow_succ]
      have := Nat.div_add_mod n 10
      nlinarith [Nat.div_add_mod n 10]

theorem toDigits_inj (n m : Nat) (h : Nat.toDigits 10 n = Nat.toDigits 10 m) : n = m := by
  obtain ⟨L, hL⟩ := atoiDigits_toDigitsCore (n + 1) n [] (by omega)
  obtain ⟨M, hM⟩ := atoiDigits_toDigitsCore (m + 1) m [] (by omega)
  have h1 := hL 0
  have h2 := hM 0
  unfold Nat.toDigits at h
  rw [h] at h1
  rw [h1] at h2
  simpa [atoiDigits] using h2

theorem toDigitsCore_isDigit (fuel : Nat) : ∀ (n : Nat) (ds : List Char),
    ∀ c ∈ Nat.toDigitsCore 10 fuel n ds, c.isDigit = true ∨ c ∈ ds := by
  induction fuel with
  | zero => intro n ds c hc; exact Or.inr hc
  | succ fuel ih =>
    intro n ds c hc
    have hd := digitChar_isDigit (n % 10) (Nat.mod_lt _ (by decide))
    by_cases h0 : n / 10 = 0
    · simp only [Nat.toDigitsCore, h0, if_true, List.mem_cons] at hc
      rcases hc with rfl | hc
      · exact Or.inl hd.1
      · exact Or.inr hc
    · simp only [Nat.toDigitsCore, h0, if_false] at hc
      rcases ih _ _ c hc with h | h
      · exact Or.inl h
      · rcases List.mem_cons.1 h with rfl | h
        · exact Or.inl hd.1
        · exact Or.inr h

theorem toDigits_isDigit (n : Nat) : ∀ c ∈ Nat.toDigits 10 n, c.isDigit = true := by
  intro c hc
  rcases toDigitsCore_isDigit (n + 1) n [] c hc with h | h
  · exact h
  · cases h

/-- A digit is neither the separator of the cache key nor a letter. -/
theorem isDigit_facts (c : Char) (h : c.isDigit = true) :
    c ≠ '_' ∧ c ≠ '-' ∧ c.toLower = c := by
  have hr : 48 ≤ c.val.toNat ∧ c.val.toNat ≤ 57 := by
    simp only [Char.isDigit, Bool.and_eq_true, decide_eq_true_eq, UInt32.le_def,
      Fin.le_def] at h
    exact h
  refine ⟨?_, ?_, ?_⟩
  · rintro rfl
    revert hr; decide
  · rintro rfl
    revert hr; decide
  · unfold Char.toLower
    have hh : ¬ (c.toNat ≥ 65 ∧ c.toNat ≤ 90) := by
      have : c.toNat = c.val.toNat := rfl
      omega
    rw [if_neg hh]

theorem Int32ToString_chars (n : Int) :
    ∀ c ∈ (Int32ToString n).data, c ≠ '_' ∧ c.toLower = c := by
  intro c hc
  cases n with
  | ofNat k =>
    have := isDigit_facts c (toDigits_isDigit k c hc)
    exact ⟨this.1, this.2.2⟩
  | negSucc k =>
    simp only [Int32ToString, List.mem_cons] at hc
    rcases hc with rfl | hc
    · decide
    · have := isDigit_facts c (toDigits_isDigit (k + 1) c hc)
      exact ⟨this.1, this.2.2⟩

theorem Int32ToString_inj (s t : Int) (h : Int32ToString s = Int32ToString t) : s = t := by
  cases s with
  | ofNat a =>
    cases t with
    | ofNat b =>
      replace h := congrArg String.data h
      simp only [Int32ToString] at h
      rw [toDigits_inj a b h]
    | negSucc b =>
      replace h := congrArg String.data h
      simp only [Int32ToString] at h
      have hmem : '-' ∈ Nat.toDigits 10 a := by rw [h]; exact List.mem_cons_self _ _
      exact absurd rfl (isDigit_facts _ (toDigits_isDigit a _ hmem)).2.1
  | negSucc a =>
    cases t with
    | ofNat b =>
      replace h := congrArg String.data h
      simp only [Int32ToString] at h
      have hmem : '-' ∈ Nat.toDigits 10 b := by rw [← h]; exact List.mem_cons_self _ _
      exact absurd rfl (isDigit_facts _ (toDigits_isDigit b _ hmem)).2.1
    | negSucc b =>
      replace h := congrArg String.data h
      simp only [Int32ToString, List.cons.injEq, true_and] at h
      have := toDigits_inj (a + 1) (b + 1) h
      have hab : a = b := by omega
      rw [hab]

/-- The last separator of a text splits it in one way only. -/
theorem append_sep_inj (sep : Char) : ∀ (A B X Y : List Char), sep ∉ X → sep ∉ Y →
    A ++ sep :: X = B ++ sep :: Y → A = B ∧ X = Y := by
  intro A
  induction A with
  | nil =>
    intro B X Y hX hY h
    cases B with
    | nil => simpa using h
    | cons b B =>
      simp only [List.nil_append, List.cons_append, List.cons.injEq] at h
      exact absurd (h.2 ▸ List.mem_append_right B (List.mem_cons_self sep Y)) hX
  | cons a A ih =>
    intro B X Y hX hY h
    cases B with
    | nil =>
      simp only [List.nil_append, List.cons_append, List.cons.injEq] at h
      exact absurd (h.2 ▸ List.mem_append_right A (List.mem_cons_self sep X)) hY
    | cons b B =>
      simp only [List.cons_append, List.cons.injEq] at h
      obtain ⟨h1, h2⟩ := ih B X Y hX hY h.2
      exact ⟨by rw [h.1, h1], h2⟩

theorem GetCacheKey_data (P : String) (s : Int) :
    (GetCacheKey P s).data = P.data ++ '_' :: (Int32ToString s).data := by
  simp [GetCacheKey, String.data_append]

/-- C12. The cache key identifies the pair of material path and thumbnail
size: equal keys come from equal paths and equal sizes. The cache compares
its keys ignoring letter case, as it compares paths; two keys that are equal
in that sense come from paths that are equal in that sense and from equal
sizes, so thumbnails of different materials or sizes never share a slot. -/
theorem GetCacheKey_injective (P Q : String) (s t : Int) :
    (GetCacheKey P s = GetCacheKey Q t → P = Q ∧ s = t) ∧
    (FString.Equals (GetCacheKey P s) (GetCacheKey Q t) = true →
      FString.Equals P Q = true ∧ s = t) := by
  have hs : '_' ∉ (Int32ToString s).data := fun h => (Int32ToString_chars s _ h).1 rfl
  have ht : '_' ∉ (Int32ToString t).data := fun h => (Int32ToString_chars t _ h).1 rfl
  have hlow : ∀ n : Int, (Int32ToString n).data.map Char.toLower = (Int32ToString n).data := by
    intro n
    conv_rhs => rw [← List.map_id (Int32ToString n).data]
    apply List.map_congr_left
    intro c hc
    exact (Int32ToString_chars n c hc).2
  constructor
  · intro h
    have hd := congrArg String.data h
    rw [GetCacheKey_data, GetCacheKey_data] at hd
    obtain ⟨h1, h2⟩ := append_sep_inj '_' _ _ _ _ hs ht hd
    exact ⟨String.ext h1, Int32ToString_inj s t (String.ext h2)⟩
  · intro h
    rw [FString.Equals_iff] at h
    rw [GetCacheKey_data, GetCacheKey_data, List.map_append, List.map_append, List.map_cons,
      List.map_cons, hlow, hlow] at h
    have hu : Char.toLower '_' = '_' := by decide
    rw [hu] at h
    obtain ⟨h1, h2⟩ := append_sep_inj '_' _ _ _ _ hs ht h
    exact ⟨(FString.Equals_iff P Q).2 h1, Int32ToString_inj s t (String.ext h2)⟩

theorem GetCacheKey_injective_witness :
    GetCacheKey "/Game/HDRI/Studio.Studio" 128 = "/Game/HDRI/Studio.Studio_128" ∧
    FString.Equals (GetCacheKey "/Game/HDRI/Studio.Studio" 128)
      (GetCacheKey "/game/hdri/studio.studio" 128) = true ∧
    (FString.Equals "/Game/HDRI/Studio.Studio" "/game/hdri/studio.studio" = true ∧
      (128 : Int) = 128) :=
  ⟨by decide, by decide,
    (GetCacheKey_injective "/Game/HDRI/Studio.Studio" "/game/hdri/studio.studio" 128 128).2
      (by decide)⟩

/-! ## Thumbnail generation -/

theorem TMap.Contains_Remove {V : Type} (m : TMap V) (k : String) :
    TMap.Contains (TMap.Remove m k) k = false := by
  unfold TMap.Contains TMap.Remove
  rw [List.any_eq_false]
  intro p hp
  have := (List.mem_filter.1 hp).2
  simpa using this

theorem TMap.length_Add_le {V : Type} (m : TMap V) (k : String) (v : V) :
    (TMap.Add m k v).length ≤ m.length + 1 := by
  induction m with
  | nil => simp [TMap.Add]
  | cons p rest ih =>
    cases hp : FString.Equals p.1 k
    · rw [TMap.Add_cons_ne p rest k v hp]
      simp only [List.length_cons]
      omega
    · rw [TMap.Add_cons_eq p rest k v hp]
      simp

theorem TrimCache_Valid (tm : FHdriVaultThumbnailManager) (h : TMap.Valid tm.ThumbnailCache) :
    TMap.Valid tm.TrimCache.ThumbnailCache := by
  unfold FHdriVaultThumbnailManager.TrimCache
  by_cases hle : ((TMap.Num tm.ThumbnailCache : Nat) : Int) ≤ tm.MaxCacheSize
  · simp only [hle, if_true]
    exact h
  · simp only [hle, if_false]
    rw [RemoveOldest_eq_foldl_take, foldl_Remove_eq_filter]
    exact List.Pairwise.sublist (List.filter_sublist _) h

/-- After an insertion followed by `TrimCache`, the inserted entry is still in
the cache when the limit is at least one and either the cache does not exceed
the limit or every other entry is strictly older. -/
theorem TrimCache_keeps_new_entry (tm : FHdriVaultThumbnailManager) (key : String)
    (entry : FThumbnailCacheEntry)
    (hvalid : TMap.Valid tm.ThumbnailCache) (hmax : 1 ≤ tm.MaxCacheSize)
    (hroom : ((TMap.Num (TMap.Add tm.ThumbnailCache key entry) : Nat) : Int) ≤ tm.MaxCacheSize ∨
      ∀ p ∈ tm.ThumbnailCache, FString.Equals p.1 key = false →
        p.2.LastAccessTime.Ticks < entry.LastAccessTime.Ticks) :
    (key, entry) ∈ (FHdriVaultThumbnailManager.TrimCache
      { tm with ThumbnailCache := TMap.Add tm.ThumbnailCache key entry }).ThumbnailCache := by
  set tm1 : FHdriVaultThumbnailManager :=
    { tm with ThumbnailCache := TMap.Add tm.ThumbnailCache key entry } with htm1
  have hmem : (key, entry) ∈ tm1.ThumbnailCache := TMap.mem_Add_self _ _ _
  by_cases hle : ((TMap.Num tm1.ThumbnailCache : Nat) : Int) ≤ tm1.MaxCacheSize
  · have : tm1.TrimCache = tm1 := by
      simp only [FHdriVaultThumbnailManager.TrimCache, hle, if_true]
    rw [this]
    exact hmem
  · have hvalid1 : TMap.Valid tm1.ThumbnailCache := TMap.Add_pairwise _ _ _ hvalid
    have hold : ∀ p ∈ tm.ThumbnailCache, FString.Equals p.1 key = false →
        p.2.LastAccessTime.Ticks < entry.LastAccessTime.Ticks := by
      rcases hroom with h | h
      · exact absurd h hle
      · exact h
    obtain ⟨hnum, _, hsub, hord⟩ := TrimCache_removed_le_kept tm1 hvalid1
      (by show (0 : Int) ≤ tm.MaxCacheSize; omega) (by omega)
    by_contra hnot
    have hpos : 0 < tm1.TrimCache.ThumbnailCache.length := by
      have h1 : (1 : Int) ≤ tm1.MaxCacheSize := hmax
      unfold TMap.Num at hnum
      omega
    obtain ⟨kept, hkept⟩ := List.exists_mem_of_length_pos hpos
    have hkept1 : kept ∈ tm1.ThumbnailCache := hsub.subset hkept
    have hne : kept ≠ (key, entry) := fun h => hnot (h ▸ hkept)
    have hsym : Symmetric (fun p q : String × FThumbnailCacheEntry =>
        FString.Equals p.1 q.1 = false) := by
      intro p q h
      rw [FString.Equals_symm]; exact h
    have hkey : FString.Equals kept.1 key = false := hvalid1.forall hsym hkept1 hmem hne
    have hkept0 : kept ∈ tm.ThumbnailCache := by
      rcases TMap.mem_Add _ _ _ _ hkept1 with h | h
      · exact absurd h hne
      · exact h
    have h1 := hold kept hkept0 hkey
    have h2 := hord (key, entry) hmem hnot kept hkept
    simp only at h2
    omega

/-- C13, as amended. Once the game-thread step of `LoadThumbnailAsync` has
run, the path of the item is no longer in `PendingThumbnails`. The cache gets
an entry under `GetCacheKey(path, s)` when `GenerateMaterialThumbnail` returns
a thumbnail: then, with `MaxCacheSize >= 1`, the cache contains that entry,
provided the cache does not exceed the limit after the insertion or every
entry under another key is strictly older than the clock. For a loaded asset
that is not a material (a TextureCube, the indexed type) an initialised
manager generates no thumbnail and the cache is left as it was. -/
theorem LoadThumbnailCompletion_updates_cache (tm : FHdriVaultThumbnailManager)
    (WeakAsset : Option UObject) (ThumbnailSize : Int) (MaterialPath : String)
    (engine : FThumbnailRender) :
    TMap.Contains (tm.LoadThumbnailCompletion WeakAsset ThumbnailSize MaterialPath
      engine).PendingThumbnails MaterialPath = false ∧
    (∀ (asset : UObject) (Thumbnail : Nat), WeakAsset = some asset →
      tm.GenerateMaterialThumbnail (some asset) ThumbnailSize false engine = some Thumbnail →
      TMap.Valid tm.ThumbnailCache → 1 ≤ tm.MaxCacheSize →
      (((TMap.Num tm.ThumbnailCache : Nat) : Int) < tm.MaxCacheSize ∨
        ∀ p ∈ tm.ThumbnailCache,
          FString.Equals p.1 (GetCacheKey MaterialPath ThumbnailSize) = false →
          p.2.LastAccessTime.Ticks < tm.Now.Ticks) →
      TMap.Find (tm.LoadThumbnailCompletion WeakAsset ThumbnailSize MaterialPath
          engine).ThumbnailCache (GetCacheKey MaterialPath ThumbnailSize) =
        some { Brush := some (Thumbnail, ThumbnailSize), Texture := some Thumbnail,
               ThumbnailSize := ThumbnailSize, LastAccessTime := tm.Now }) ∧
    (∀ asset : UObject, WeakAsset = some asset → asset.IsMaterialInterface = false →
      tm.bIsInitialized = true →
      (tm.LoadThumbnailCompletion WeakAsset ThumbnailSize MaterialPath engine).ThumbnailCache =
        tm.ThumbnailCache) := by
  refine ⟨?_, ?_, ?_⟩
  · simp only [FHdriVaultThumbnailManager.LoadThumbnailCompletion]
    exact TMap.Contains_Remove _ _
  · intro asset Thumbnail hw hgen hvalid hmax hroom
    subst hw
    obtain ⟨entry, hentry⟩ : ∃ e : FThumbnailCacheEntry,
        e = { Brush := some (Thumbnail, ThumbnailSize), Texture := some Thumbnail,
              ThumbnailSize := ThumbnailSize, LastAccessTime := tm.Now } := ⟨_, rfl⟩
    obtain ⟨key, hkey⟩ : ∃ k, k = GetCacheKey MaterialPath ThumbnailSize := ⟨_, rfl⟩
    have hstep : (tm.LoadThumbnailCompletion (some asset) ThumbnailSize MaterialPath
        engine).ThumbnailCache =
        (FHdriVaultThumbnailManager.TrimCache
          { tm with ThumbnailCache := TMap.Add tm.ThumbnailCache key entry }).ThumbnailCache := by
      simp only [FHdriVaultThumbnailManager.LoadThumbnailCompletion, hgen,
        FHdriVaultThumbnailManager.UpdateCacheWithThumbnail,
        FHdriVaultThumbnailManager.OnThumbnailGenerated, CreateBrushFromTexture, Option.map,
        hentry, hkey]
    rw [hstep, ← hentry, ← hkey]
    rw [← hkey] at hroom
    have hnow : entry.LastAccessTime = tm.Now := by rw [hentry]
    have hroom2 : ((TMap.Num (TMap.Add tm.ThumbnailCache key entry) : Nat) : Int) ≤
          tm.MaxCacheSize ∨
        ∀ p ∈ tm.ThumbnailCache, FString.Equals p.1 key = false →
          p.2.LastAccessTime.Ticks < entry.LastAccessTime.Ticks := by
      rcases hroom with h | h
      · left
        have := TMap.length_Add_le tm.ThumbnailCache key entry
        unfold TMap.Num at *
        omega
      · rw [hnow]
        exact Or.inr h
    have hmem := TrimCache_keeps_new_entry tm key entry hvalid hmax hroom2
    have hvalid2 : TMap.Valid (FHdriVaultThumbnailManager.TrimCache
        { tm with ThumbnailCache := TMap.Add tm.ThumbnailCache key entry }).ThumbnailCache :=
      TrimCache_Valid _ (TMap.Add_pairwise _ _ _ hvalid)
    exact TMap.Find_of_mem _ hvalid2 _ hmem _ (FString.Equals_refl _)
  · intro asset hw hmat hinit
    subst hw
    simp [FHdriVaultThumbnailManager.LoadThumbnailCompletion,
      FHdriVaultThumbnailManager.GenerateMaterialThumbnail, hmat, hinit]

theorem LoadThumbnailCompletion_updates_cache_witness :
    TMap.Contains (exPendingManager.LoadThumbnailCompletion
      (some { Id := 8, Class := UClass.Material }) 128 "/Game/M/Gold.Gold"
      exRender).PendingThumbnails "/Game/M/Gold.Gold" = false ∧
    TMap.Find (exPendingManager.LoadThumbnailCompletion
      (some { Id := 8, Class := UClass.Material }) 128 "/Game/M/Gold.Gold"
      exRender).ThumbnailCache (GetCacheKey "/Game/M/Gold.Gold" 128) =
        some { Brush := some (9, 128), Texture := some 9, ThumbnailSize := 128,
               LastAccessTime := exPendingManager.Now } :=
  ⟨(LoadThumbnailCompletion_updates_cache exPendingManager
      (some { Id := 8, Class := UClass.Material }) 128 "/Game/M/Gold.Gold" exRender).1,
   (LoadThumbnailCompletion_updates_cache exPendingManager
      (some { Id := 8, Class := UClass.Material }) 128 "/Game/M/Gold.Gold" exRender).2.1
      { Id := 8, Class := UClass.Material } 9 rfl (by decide)
      (by unfold TMap.Valid; decide) (by decide) (Or.inl (by decide))⟩

/-- C13, counterexample. The indexed cube map `/Game/HDRI/Studio.Studio` loads
successfully, the thumbnail manager is initialised and its limit is 1000, yet
after `LoadThumbnailAsync` has run to the end of its game-thread step the
cache has no entry under the key of the item: a TextureCube is not a
material, so `GenerateMaterialThumbnail` returns null. The path is no longer
pending. -/
theorem LoadThumbnailAsync_caches_nothing_for_cube_map :
    exLoadSynchronous exAsset.GetObjectPathString = some { Id := 7, Class := UClass.TextureCube } ∧
    exPendingManager.bIsInitialized = true ∧ (1 : Int) ≤ exPendingManager.MaxCacheSize ∧
    exPendingManager.GenerateMaterialThumbnail (some { Id := 7, Class := UClass.TextureCube })
      128 false exRender = none ∧
    TMap.Contains (exPendingManager.LoadThumbnailAsync
      (some (FHdriVaultMaterialItem.ofAssetData exAsset ⟨40⟩)) 128 exLoadSynchronous
      exRender).ThumbnailCache (GetCacheKey exAsset.GetObjectPathString 128) = false ∧
    TMap.Contains (exPendingManager.LoadThumbnailAsync
      (some (FHdriVaultMaterialItem.ofAssetData exAsset ⟨40⟩)) 128 exLoadSynchronous
      exRender).PendingThumbnails exAsset.GetObjectPathString = false := by
  decide

/-! ## EXR to HDR conversion -/

theorem append_ne_empty (a b : String) (h : a ≠ "") : a ++ b ≠ "" := by
  intro hab
  apply h
  have := congrArg String.data hab
  rw [String.data_append] at this
  have h2 : a.data = [] := (List.append_eq_nil.1 this).1
  exact String.ext h2

/-- C14. `ConvertExrToHdr` returns true exactly when the EXR decode reports
success with a non-null pixel buffer and the HDR write of that buffer reports
success. Whenever it returns false, `OutError` holds a non-empty message, and
when it returns true `OutError` is as the caller passed it. -/
theorem ConvertExrToHdr_result (LoadEXR : String → FLoadEXRResult)
    (stbi_write_hdr : String → Int → Int → Int → Nat → Int)
    (InputFile OutputFile OutError : String) :
    ((ConvertExrToHdr LoadEXR stbi_write_hdr InputFile OutputFile OutError).1 = true ↔
      (LoadEXR InputFile).Ret = TINYEXR_SUCCESS ∧
      ∃ Rgba, (LoadEXR InputFile).Rgba = some Rgba ∧
        stbi_write_hdr OutputFile (LoadEXR InputFile).Width (LoadEXR InputFile).Height 4 Rgba
          ≠ 0) ∧
    ((ConvertExrToHdr LoadEXR stbi_write_hdr InputFile OutputFile OutError).1 = false →
      (ConvertExrToHdr LoadEXR stbi_write_hdr InputFile OutputFile OutError).2 ≠ "") ∧
    ((ConvertExrToHdr LoadEXR stbi_write_hdr InputFile OutputFile OutError).1 = true →
      (ConvertExrToHdr LoadEXR stbi_write_hdr InputFile OutputFile OutError).2 = OutError) := by
  unfold ConvertExrToHdr
  by_cases hret : (LoadEXR InputFile).Ret = TINYEXR_SUCCESS
  · cases hbuf : (LoadEXR InputFile).Rgba with
    | none =>
      simp only [hret, hbuf, ne_eq, not_true_eq_false, if_false]
      refine ⟨by simp, fun _ => by decide, by simp⟩
    | some Rgba =>
      by_cases hw : stbi_write_hdr OutputFile (LoadEXR InputFile).Width
          (LoadEXR InputFile).Height 4 Rgba = 0
      · simp only [hret, hbuf, hw, ne_eq, not_true_eq_false, if_false, if_true]
        refine ⟨by simp [hw], fun _ => by decide, by simp⟩
      · simp only [hret, hbuf, hw, ne_eq, not_true_eq_false, if_false]
        refine ⟨by simp [hw], by simp, by simp⟩
  · cases herr : (LoadEXR InputFile).Err with
    | none =>
      simp only [hret, herr, ne_eq, not_false_eq_true, if_true]
      refine ⟨by simp, fun _ => by decide, by simp⟩
    | some Err =>
      simp only [hret, herr, ne_eq, not_false_eq_true, if_true]
      refine ⟨by simp, fun _ => append_ne_empty _ _ (by decide), by simp⟩

theorem ConvertExrToHdr_result_witness :
    ConvertExrToHdr exLoadEXR exWriteHdr "C:/sky.exr" "C:/sky.hdr" "old" = (true, "old") ∧
    ConvertExrToHdr exLoadEXR exWriteHdr "C:/none.exr" "C:/sky.hdr" "old" =
      (false, "TinyEXR Error: Cannot read file.") ∧
    (ConvertExrToHdr exLoadEXR exWriteHdr "C:/none.exr" "C:/sky.hdr" "old").2 ≠ "" :=
  ⟨by decide, by decide,
    (ConvertExrToHdr_result exLoadEXR exWriteHdr "C:/none.exr" "C:/sky.hdr" "old").2.1
      (by decide)⟩

/-! ## Applying an HDRI to the level -/

theorem ApplyToBackdrop_SkyLight (b : Bool) (t : UObject) (a : AActor) :
    (ApplyToBackdrop b t a).IsSkyLight = a.IsSkyLight ∧
    (ApplyToBackdrop b t a).LightComponent = a.LightComponent := by
  unfold ApplyToBackdrop SetCubemapProperty
  cases b <;> cases hp : a.CubemapProperty <;> simp <;> split_ifs <;> simp

/-- C15. When the asset of the item loads as a TextureCube, after
`ApplyMaterialToSelection` every SkyLight actor of the editor world that has a
light component has `SourceType = SLS_SpecifiedCubemap` and `Cubemap` equal
to that texture (the world keeps its actors, position by position). When the
asset does not load as a TextureCube, no actor is modified. -/
theorem ApplyMaterialToSelection_sets_skylights (st : UHdriVaultManager) (i : Nat)
    (item : FHdriVaultMaterialItem) (LoadSynchronous : String → Option UObject)
    (BackdropClassLoads : Bool) (Actors : List AActor)
    (hitem : st.Items[i]? = some item) :
    (∀ HdriTexture, LoadSynchronous item.MaterialPtr = some HdriTexture →
      HdriTexture.IsTextureCube = true →
      ∃ After, st.ApplyMaterialToSelection (some i) LoadSynchronous BackdropClassLoads
          (some Actors) = some After ∧ After.length = Actors.length ∧
        ∀ (k : Nat) (SkyLight : AActor) (Component : USkyLightComponent),
          Actors[k]? = some SkyLight → SkyLight.IsSkyLight = true →
          SkyLight.LightComponent = some Component →
          ∃ SkyLightAfter ComponentAfter, After[k]? = some SkyLightAfter ∧
            SkyLightAfter.IsSkyLight = true ∧
            SkyLightAfter.LightComponent = some ComponentAfter ∧
            ComponentAfter.SourceType = ESkyLightSourceType.SLS_SpecifiedCubemap ∧
            ComponentAfter.Cubemap = some HdriTexture) ∧
    ((LoadSynchronous item.MaterialPtr).filter UObject.IsTextureCube = none →
      ∀ World, st.ApplyMaterialToSelection (some i) LoadSynchronous BackdropClassLoads World =
        World) := by
  constructor
  · intro HdriTexture hload hcube
    have hf : (LoadSynchronous item.MaterialPtr).filter UObject.IsTextureCube =
        some HdriTexture := by
      rw [hload]
      simp [Option.filter, hcube]
    have hrun : st.ApplyMaterialToSelection (some i) LoadSynchronous BackdropClassLoads
        (some Actors) = some ((Actors.map (ApplyToSkyLight HdriTexture)).map
          (ApplyToBackdrop BackdropClassLoads HdriTexture)) := by
      simp only [UHdriVaultManager.ApplyMaterialToSelection, Option.bind, hitem, hf,
        Option.map]
    refine ⟨_, hrun, by simp, ?_⟩
    intro k SkyLight Component hk hsky hcomp
    refine ⟨ApplyToBackdrop BackdropClassLoads HdriTexture (ApplyToSkyLight HdriTexture SkyLight),
      { Component with SourceType := ESkyLightSourceType.SLS_SpecifiedCubemap
                       Cubemap := some HdriTexture
                       bCaptureIsDirty := true }, ?_, ?_, ?_, rfl, rfl⟩
    · simp [List.getElem?_map, hk]
    · rw [(ApplyToBackdrop_SkyLight _ _ _).1]
      simp [ApplyToSkyLight, hsky, hcomp]
    · rw [(ApplyToBackdrop_SkyLight _ _ _).2]
      simp [ApplyToSkyLight, hsky, hcomp]
  · intro hnone World
    simp only [UHdriVaultManager.ApplyMaterialToSelection, Option.bind, hitem, hnone]

theorem ApplyMaterialToSelection_sets_skylights_witness :
    (exManager [exEditedItem]).Items[0]? = some exEditedItem ∧
    (exManager [exEditedItem]).ApplyMaterialToSelection (some 0) exLoadSynchronous true
        (some exWorld) =
      some [{ Name := "SkyLight_0", ClassName := "SkyLight", IsSkyLight := true,
              LightComponent := some { SourceType := ESkyLightSourceType.SLS_SpecifiedCubemap,
                                       Cubemap := some { Id := 7, Class := UClass.TextureCube },
                                       bCaptureIsDirty := true },
              IsBackdrop := false, CubemapProperty := none },
            { Name := "SkyLight_1", ClassName := "SkyLight", IsSkyLight := true,
              LightComponent := none, IsBackdrop := false, CubemapProperty := none },
            { Name := "HDRIBackdrop_0", ClassName := "HDRIBackdrop_C", IsSkyLight := false,
              LightComponent := none, IsBackdrop := true,
              CubemapProperty := some { IsTextureCubeProperty := true,
                                        Value := some { Id := 7, Class := UClass.TextureCube } } },
            { Name := "Cube_0", ClassName := "StaticMeshActor", IsSkyLight := false,
              LightComponent := none, IsBackdrop := false, CubemapProperty := none }] ∧
    (∃ After, (exManager [exEditedItem]).ApplyMaterialToSelection (some 0) exLoadSynchronous
        true (some exWorld) = some After ∧ After.length = exWorld.length) :=
  ⟨by decide, by decide,
    ((ApplyMaterialToSelection_sets_skylights (exManager [exEditedItem]) 0 exEditedItem
      exLoadSynchronous true exWorld (by decide)).1 { Id := 7, Class := UClass.TextureCube }
      (by decide) (by decide)).imp (fun _ h => ⟨h.1, h.2.1⟩)⟩

/-! ## Category view -/

/-- C16, failing input. Three valid items are indexed; the user has given the
first the category `All`. `GetOrCreateCategory` finds the built-in category
`All` under that name, so the item is listed twice in `All` and in no other
category; the other two items are listed once in `All` and once in their own
category. -/
theorem BuildCategoryStructure_lists_item_twice_in_All :
    exCategorized.MaterialMap =
      [("/Game/HDRI/Studio.Studio", some 0), ("/Game/Sky/Night_HDR/Studio.Studio", some 1),
       ("/Game/Other/Dawn.Dawn", some 2)] ∧
    exCategorized.Items.map (fun item => item.Metadata.Category) = ["All", "Interior", ""] ∧
    (exEmptyPanel.BuildCategoryStructure (some exCategorized)).View =
      [("All", [0, 0, 1, 2]), ("Interior", [1]), ("Uncategorized", [2])] := by
  decide

/-! ## Tag filter -/

theorem orderedInsert_congr {α : Type} (r s : α → α → Prop) [DecidableRel r] [DecidableRel s]
    (a : α) : ∀ l : List α, (∀ b ∈ l, r a b ↔ s a b) →
    List.orderedInsert r a l = List.orderedInsert s a l := by
  intro l
  induction l with
  | nil => intro _; rfl
  | cons b l ih =>
    intro h
    have hb := h b (List.mem_cons_self _ _)
    have hl := ih (fun c hc => h c (List.mem_cons_of_mem _ hc))
    by_cases hr : r a b
    · have hs : s a b := hb.1 hr
      simp [List.orderedInsert, hr, hs]
    · have hs : ¬ s a b := fun hs => hr (hb.2 hs)
      simp [List.orderedInsert, hr, hs, hl]

theorem insertionSort_congr {α : Type} (r s : α → α → Prop) [DecidableRel r] [DecidableRel s] :
    ∀ l : List α, (∀ a ∈ l, ∀ b ∈ l, r a b ↔ s a b) →
    List.insertionSort r l = List.insertionSort s l := by
  intro l
  induction l with
  | nil => intro _; rfl
  | cons a l ih =>
    intro h
    have hl := ih (fun b hb c hc => h b (List.mem_cons_of_mem _ hb) c (List.mem_cons_of_mem _ hc))
    simp only [List.insertionSort]
    rw [hl]
    apply orderedInsert_congr
    intro b hb
    have hbl : b ∈ l := (List.perm_insertionSort s l).subset hb
    exact h a (List.mem_cons_self _ _) b (List.mem_cons_of_mem _ hbl)

/-- The outcome of `TArray::Sort` is ordered when the order compares keys of a
linear order on the elements of the array. -/
theorem TArray.Sort_sorted_of_key {α κ : Type} [LinearOrder κ] (key : α → κ)
    (lt : α → α → Bool) (l : List α)
    (h : ∀ A ∈ l, ∀ B ∈ l, (lt A B = true ↔ key A < key B)) :
    (TArray.Sort lt l).Pairwise (fun A B => key A ≤ key B) := by
  unfold TArray.Sort
  have hcongr : List.insertionSort (fun a b => lt b a = false) l =
      List.insertionSort (fun a b => key a ≤ key b) l := by
    apply insertionSort_congr
    intro a ha b hb
    have := h b hb a ha
    constructor
    · intro hf
      by_contra hc
      rw [not_le] at hc
      rw [this.2 hc] at hf
      exact Bool.noConfusion hf
    · intro hle
      cases hlt : lt b a
      · rfl
      · exact absurd (this.1 hlt) (not_lt.2 hle)
  rw [hcongr]
  have htot : IsTotal α (fun a b => key a ≤ key b) := ⟨fun a b => le_total _ _⟩
  have htr : IsTrans α (fun a b => key a ≤ key b) := ⟨fun a b c => le_trans⟩
  exact List.sorted_insertionSort (fun a b => key a ≤ key b) l

theorem FString.Less_iff (a b : String) :
    FString.Less a b = true ↔ a.data.map Char.toLower < b.data.map Char.toLower := by
  simp [FString.Less]

/-- The loop of `FilterMaterialsByTag` collects the pointers of the map whose
item carries the tag, in map order. -/
theorem FilterMaterialsByTag_loop (st : UHdriVaultManager) (Tag : String) :
    ∀ (l : TMap TSharedPtr) (acc : List Nat),
    l.foldl (fun (Results : List Nat) MaterialPair =>
      match MaterialPair.2 with
      | some MaterialItem =>
        match st.Items[MaterialItem]? with
        | some item =>
          if TArray.Contains item.Metadata.Tags Tag then Results ++ [MaterialItem] else Results
        | none => Results
      | none => Results) acc =
    acc ++ (l.filterMap Prod.snd).filter (fun i =>
      match st.Items[i]? with
      | some item => TArray.Contains item.Metadata.Tags Tag
      | none => false) := by
  intro l
  induction l with
  | nil => intro acc; simp
  | cons q l ih =>
    intro acc
    rw [List.foldl_cons, ih]
    cases hq : q.2 with
    | none => simp [hq]
    | some i =>
      cases hi : st.Items[i]? with
      | none => simp [hq, hi]
      | some item =>
        cases ht : TArray.Contains item.Metadata.Tags Tag <;> simp [hq, hi, ht]

/-- The outcome of `SortMaterials` is in the order of the sort mode when every
pointer of the list has a heap cell. -/
theorem SortMaterials_sorted (st : UHdriVaultManager) (l : List Nat)
    (hvalid : ∀ A ∈ l, ∃ a, st.Items[A]? = some a) :
    (st.SortMaterials l).Pairwise (fun A B => ∀ a b, st.Items[A]? = some a →
      st.Items[B]? = some b → st.Settings.SortMode.InOrder a b) := by
  unfold UHdriVaultManager.SortMaterials
  cases hmode : st.Settings.SortMode
  · simp only
    have h := TArray.Sort_sorted_of_key
      (fun A => ((st.Items[A]?).map (fun a => a.DisplayName.data.map Char.toLower)).getD [])
      (fun A B =>
        match st.Items[A]?, st.Items[B]? with
        | some a, some b => FString.Less a.DisplayName b.DisplayName
        | _, _ => false) l (by
        intro A hA B hB
        obtain ⟨a, ha⟩ := hvalid A hA
        obtain ⟨b, hb⟩ := hvalid B hB
        simp only [ha, hb, Option.map, Option.getD]
        exact FString.Less_iff _ _)
    refine List.Pairwise.imp ?_ h
    intro A B hAB a b ha hb
    simp only [ha, hb, Option.map, Option.getD] at hAB
    simp only [EHdriVaultSortMode.InOrder]
    cases hlt : FString.Less b.DisplayName a.DisplayName
    · rfl
    · exact absurd ((FString.Less_iff _ _).1 hlt) (not_lt.2 hAB)
  · simp only
    have h := TArray.Sort_sorted_of_key
      (fun A => OrderDual.toDual
        (((st.Items[A]?).map (fun a => a.Metadata.LastModified.Ticks)).getD 0))
      (fun A B =>
        match st.Items[A]?, st.Items[B]? with
        | some a, some b => decide (a.Metadata.LastModified.Ticks > b.Metadata.LastModified.Ticks)
        | _, _ => false) l (by
        intro A hA B hB
        obtain ⟨a, ha⟩ := hvalid A hA
        obtain ⟨b, hb⟩ := hvalid B hB
        simp only [ha, hb, Option.map, Option.getD, decide_eq_true_eq]
        exact Iff.rfl)
    refine List.Pairwise.imp ?_ h
    intro A B hAB a b ha hb
    simp only [ha, hb, Option.map, Option.getD] at hAB
    exact hAB
  · simp only
    exact List.pairwise_of_forall (fun _ _ _ _ _ _ => trivial)
  · simp only
    have h := TArray.Sort_sorted_of_key
      (fun A => ((st.Items[A]?).map
        (fun a => a.AssetData.AssetClassPath.data.map Char.toLower)).getD [])
      (fun A B =>
        match st.Items[A]?, st.Items[B]? with
        | some a, some b => FString.Less a.AssetData.AssetClassPath b.AssetData.AssetClassPath
        | _, _ => false) l (by
        intro A hA B hB
        obtain ⟨a, ha⟩ := hvalid A hA
        obtain ⟨b, hb⟩ := hvalid B hB
        simp only [ha, hb, Option.map, Option.getD]
        exact FString.Less_iff _ _)
    refine List.Pairwise.imp ?_ h
    intro A B hAB a b ha hb
    simp only [ha, hb, Option.map, Option.getD] at hAB
    simp only [EHdriVaultSortMode.InOrder]
    cases hlt : FString.Less b.AssetData.AssetClassPath a.AssetData.AssetClassPath
    · rfl
    · exact absurd ((FString.Less_iff _ _).1 hlt) (not_lt.2 hAB)

/-- C17. Tag view. `FilterMaterialsByTag(tag)` returns exactly the valid items
of `MaterialMap` whose tag list contains the tag (texts compare ignoring
case, as everywhere in the engine); each of them exactly once, given that no
item is stored under two keys of the map; and arranged according to the
current sort mode: by display name, newest first, or by class path, and in
mode Size, for which `SortMaterials` has no case, in the order of the map. -/
theorem FilterMaterialsByTag_returns_tagged (st : UHdriVaultManager) (Tag : String) :
    (∀ i, i ∈ st.FilterMaterialsByTag Tag ↔
      ∃ key item, (key, some i) ∈ st.MaterialMap ∧ st.Items[i]? = some item ∧
        ∃ t ∈ item.Metadata.Tags, FString.Equals t Tag = true) ∧
    (st.MaterialMap.Pairwise (fun p q => p.2 ≠ q.2) → (st.FilterMaterialsByTag Tag).Nodup) ∧
    (st.FilterMaterialsByTag Tag).Pairwise (fun A B => ∀ a b, st.Items[A]? = some a →
      st.Items[B]? = some b → st.Settings.SortMode.InOrder a b) ∧
    (st.Settings.SortMode = EHdriVaultSortMode.Size →
      (st.FilterMaterialsByTag Tag).Sublist (st.MaterialMap.filterMap Prod.snd)) := by
  have hloop := FilterMaterialsByTag_loop st Tag st.MaterialMap []
  rw [List.nil_append] at hloop
  have hdef : st.FilterMaterialsByTag Tag = st.SortMaterials
      ((st.MaterialMap.filterMap Prod.snd).filter (fun i =>
        match st.Items[i]? with
        | some item => TArray.Contains item.Metadata.Tags Tag
        | none => false)) := by
    unfold UHdriVaultManager.FilterMaterialsByTag
    simp only
    rw [hloop]
  have hperm := SortMaterials_perm st
      ((st.MaterialMap.filterMap Prod.snd).filter (fun i =>
        match st.Items[i]? with
        | some item => TArray.Contains item.Metadata.Tags Tag
        | none => false))
  rw [← hdef] at hperm
  have hmem : ∀ i, i ∈ (st.MaterialMap.filterMap Prod.snd).filter (fun i =>
        match st.Items[i]? with
        | some item => TArray.Contains item.Metadata.Tags Tag
        | none => false) ↔
      ∃ key item, (key, some i) ∈ st.MaterialMap ∧ st.Items[i]? = some item ∧
        ∃ t ∈ item.Metadata.Tags, FString.Equals t Tag = true := by
    intro i
    rw [List.mem_filter, List.mem_filterMap]
    constructor
    · rintro ⟨⟨q, hq, hqi⟩, hcond⟩
      cases hi : st.Items[i]? with
      | none => simp [hi] at hcond
      | some item =>
        simp only [hi, TArray.Contains, List.any_eq_true] at hcond
        obtain ⟨t, ht, hte⟩ := hcond
        refine ⟨q.1, item, ?_, rfl, t, ht, hte⟩
        have : q = (q.1, some i) := by rw [← hqi]
        rw [← this]
        exact hq
    · rintro ⟨key, item, hq, hi, t, ht, hte⟩
      refine ⟨⟨(key, some i), hq, rfl⟩, ?_⟩
      simp only [hi, TArray.Contains, List.any_eq_true]
      exact ⟨t, ht, hte⟩
  refine ⟨?_, ?_, ?_, ?_⟩
  · intro i
    rw [hperm.mem_iff]
    exact hmem i
  · intro hdistinct
    rw [hperm.nodup_iff]
    apply List.Nodup.filter
    unfold List.Nodup
    rw [List.pairwise_filterMap]
    refine List.Pairwise.imp ?_ hdistinct
    intro p q hpq b hb c hc hbc
    apply hpq
    rw [Option.mem_def] at hb hc
    rw [hb, hc, hbc]
  · rw [hdef]
    apply SortMaterials_sorted
    intro A hA
    obtain ⟨_, item, _, hi, _⟩ := (hmem A).1 hA
    exact ⟨item, hi⟩
  · intro hmode
    rw [hdef]
    unfold UHdriVaultManager.SortMaterials
    rw [hmode]
    exact List.filter_sublist _

theorem FilterMaterialsByTag_returns_tagged_witness :
    exTagged.FilterMaterialsByTag "studio" = [2, 0] ∧
    exTagged.MaterialMap.Pairwise (fun p q => p.2 ≠ q.2) ∧
    (exTagged.FilterMaterialsByTag "studio").Nodup :=
  ⟨by decide, by decide,
    (FilterMaterialsByTag_returns_tagged exTagged "studio").2.1 (by decide)⟩

/-! ## The rename callback -/

/-- C18, failing input. The manager indexes the cube map
`/Game/HDRI/Studio.Studio`; the registry reports that it was renamed to
`/Game/Interior/Atelier.Atelier`. `OnAssetRenamed` does not use the old object
path: it removes the entry of the new path (there is none) and adds an item
for the new path. Afterwards the new path has an item, but the old path still
has its item too, and after the rebuild the folder `/Game/HDRI` still lists
that item, whose asset data carry the old path. -/
theorem OnAssetRenamed_keeps_old_path :
    exIndexed.GetMaterialByPath "/Game/HDRI/Studio.Studio" = some 0 ∧
    FString.Equals exAtelier.GetObjectPathString "/Game/HDRI/Studio.Studio" = false ∧
    (exIndexed.OnAssetRenamed exAtelier "/Game/HDRI/Studio.Studio").GetMaterialByPath
      "/Game/Interior/Atelier.Atelier" = some 1 ∧
    (exIndexed.OnAssetRenamed exAtelier "/Game/HDRI/Studio.Studio").GetMaterialByPath
      "/Game/HDRI/Studio.Studio" = some 0 ∧
    (exIndexed.OnAssetRenamed exAtelier "/Game/HDRI/Studio.Studio").Items.map
      (fun item => item.AssetData.GetObjectPathString) =
        ["/Game/HDRI/Studio.Studio", "/Game/Interior/Atelier.Atelier"] ∧
    (exIndexed.OnAssetRenamed exAtelier "/Game/HDRI/Studio.Studio").FolderListing =
      [("/Game", []), ("/Engine", []), ("/Plugins", []), ("/Game/HDRI", [0]),
       ("/Game/Interior", [1])] := by
  decide

/-! ## Initialisation -/

/-- C20, failing input. A new manager (as its constructor leaves it) is
initialised while the asset registry holds the cube map
`/Game/HDRI/Studio.Studio`. `Initialize` calls `RefreshMaterialDatabase` before
it sets `bIsInitialized`, and `RefreshMaterialDatabase` returns at once while
that flag is false: after `Initialize` the material map is empty and the root
folder has no children. Only a later refresh indexes the cube map and creates
the three main folders. -/
theorem Initialize_loads_nothing :
    exBlank.bIsInitialized = false ∧
    GetAssetsByClass [exAsset, exChair] TextureCubeClassPath = [exAsset] ∧
    (exBlank.Initialize [exAsset, exChair]).bIsInitialized = true ∧
    (exBlank.Initialize [exAsset, exChair]).MaterialMap = [] ∧
    (exBlank.Initialize [exAsset, exChair]).GetMaterialByPath exAsset.GetObjectPathString = none ∧
    (exBlank.Initialize [exAsset, exChair]).RootFolderNode = some 0 ∧
    (exBlank.Initialize [exAsset, exChair]).RootChildren = [] ∧
    ((exBlank.Initialize [exAsset, exChair]).RefreshMaterialDatabase).MaterialMap =
      [("/Game/HDRI/Studio.Studio", some 0)] ∧
    ((exBlank.Initialize [exAsset, exChair]).RefreshMaterialDatabase).RootChildren =
      ["/Game", "/Engine", "/Plugins"] := by
  decide

/-! ## The folder classification against its reference definition -/

theorem splitAt_ne_nil (sep : Char) (l : List Char) : splitAt sep l ≠ [] := by
  cases l with
  | nil => simp [splitAt]
  | cons c cs =>
    unfold splitAt
    cases h : splitAt sep cs with
    | nil => simp
    | cons w ws => by_cases hc : c = sep <;> simp [hc]

theorem splitAt_head (sep : Char) (l : List Char) :
    (splitAt sep l).head? = some (l.takeWhile (fun x => x ≠ sep)) := by
  induction l with
  | nil => simp [splitAt]
  | cons c cs ih =>
    unfold splitAt
    cases h : splitAt sep cs with
    | nil => exact absurd h (splitAt_ne_nil sep cs)
    | cons w ws =>
      rw [h] at ih
      simp only [List.head?_cons, Option.some.injEq] at ih
      by_cases hc : c = sep
      · simp [hc]
      · simp [hc, ih]

/-- The first element that `ParseIntoArray` delivers is the first non-empty
piece of the text. -/
theorem ParseIntoArray_head (p : String) :
    (FString.ParseIntoArray p '/').head? = firstComponent p := by
  unfold FString.ParseIntoArray firstComponent
  generalize p.data = l
  induction l with
  | nil => simp [splitAt]
  | cons c cs ih =>
    have hhead := splitAt_head '/' cs
    unfold splitAt
    cases h : splitAt '/' cs with
    | nil => exact absurd h (splitAt_ne_nil '/' cs)
    | cons w ws =>
      rw [h] at ih hhead
      simp only [List.head?_cons, Option.some.injEq] at hhead
      by_cases hc : c = '/'
      · subst hc
        simp only [if_true]
        rw [List.filter_cons_of_neg (by simp)]
        rw [ih]
        simp [List.dropWhile]
      · simp only [hc, if_false]
        rw [List.filter_cons_of_pos (by simp)]
        simp [List.dropWhile, List.takeWhile, hc, hhead]

theorem match_head_eq {α : Type} (l : List α) (f : α → Bool) :
    (match l with
      | [] => false
      | x :: _ => f x) =
    (match l.head? with
      | some x => f x
      | none => false) := by
  cases l <;> rfl

/-- With every comparison ignoring case, the code and the reference
definition agree on every text. -/
theorem OrganizePackagePath_eq_Spec (p : String) :
    OrganizePackagePath p = OrganizePackagePathSpec (fun q => FString.Contains q "Engine") p := by
  have hhead := ParseIntoArray_head p
  unfold OrganizePackagePath OrganizePackagePathSpec
  cases h1 : FString.StartsWith p "/Game"
  · cases h2 : FString.StartsWith p "/Engine"
    · cases hpa : FString.ParseIntoArray p '/' with
      | nil =>
        rw [hpa] at hhead
        rw [← hhead]
        simp
      | cons x xs =>
        rw [hpa] at hhead
        rw [← hhead]
        simp [Bool.and_assoc]
    · simp
  · simp

/-- A path that starts with one slash starts with the slash and its first
component. -/
theorem StartsWith_of_firstComponent (p : String) (c : Char) (cs : List Char)
    (hp : p.data = '/' :: c :: cs) (n : String)
    (h : FString.Equals ⟨(c :: cs).takeWhile (fun x => x ≠ '/')⟩ n = true) :
    FString.StartsWith p ⟨'/' :: n.data⟩ = true := by
  rw [FString.Equals_iff] at h
  simp only at h
  unfold FString.StartsWith
  have hsplit : c :: cs = (c :: cs).takeWhile (fun x => x ≠ '/') ++
      (c :: cs).dropWhile (fun x => x ≠ '/') := (List.takeWhile_append_dropWhile _ _).symm
  have hlow : Char.toLower '/' = '/' := by decide
  obtain ⟨w, d, hwd, hw⟩ : ∃ w d, c :: cs = w ++ d ∧
      w.map Char.toLower = n.data.map Char.toLower := ⟨_, _, hsplit, h⟩
  rw [hp, hwd]
  simp [hlow, hw, List.isPrefixOf_iff_prefix]

/-- On a path that starts with exactly one slash the test "contains `Engine`"
is never decisive: the path is classified before the test is reached, or
its only character is the slash. -/
theorem OrganizePackagePathSpec_wellformed (f g : String → Bool) (p : String)
    (rest : List Char) (hp : p.data = '/' :: rest) (hrest : rest.head? ≠ some '/')
    (hroot : f ⟨['/']⟩ = g ⟨['/']⟩) :
    OrganizePackagePathSpec f p = OrganizePackagePathSpec g p := by
  cases rest with
  | nil =>
    have : p = ⟨['/']⟩ := String.ext hp
    subst this
    unfold OrganizePackagePathSpec
    rw [hroot]
  | cons c cs =>
    have hc : c ≠ '/' := by
      intro h
      apply hrest
      simp [h]
    have hfirst : firstComponent p = some ⟨(c :: cs).takeWhile (fun x => x ≠ '/')⟩ := by
      unfold firstComponent
      rw [hp]
      simp [List.dropWhile, hc]
    unfold OrganizePackagePathSpec
    rw [hfirst]
    cases h1 : FString.StartsWith p "/Game"
    · cases h2 : FString.StartsWith p "/Engine"
      · by_cases hpl : (["Engine", "Game", "Script", "Temp", "Memory"].all
            (fun n => !FString.Equals ⟨(c :: cs).takeWhile (fun x => x ≠ '/')⟩ n)) = true
        · simp only [hpl, Bool.or_self, Bool.false_eq_true, if_false, if_true]
        · have hsome : ∃ n ∈ ["Engine", "Game", "Script", "Temp", "Memory"],
              FString.Equals ⟨(c :: cs).takeWhile (fun x => x ≠ '/')⟩ n = true := by
            rw [List.all_eq_true] at hpl
            push_neg at hpl
            obtain ⟨n, hn, hne⟩ := hpl
            exact ⟨n, hn, by simpa using hne⟩
          obtain ⟨n, hn, hne⟩ := hsome
          have hsw := StartsWith_of_firstComponent p c cs hp n hne
          simp only [List.mem_cons, List.mem_singleton, List.not_mem_nil, or_false] at hn
          rcases hn with rfl | rfl | rfl | rfl | rfl
          · have : FString.StartsWith p "/Engine" = true := hsw
            rw [h2] at this
            exact Bool.noConfusion this
          · have : FString.StartsWith p "/Game" = true := hsw
            rw [h1] at this
            exact Bool.noConfusion this
          · have : FString.StartsWith p "/Script" = true := hsw
            simp only [hpl, this, Bool.or_self, Bool.false_eq_true, if_false, Bool.or_true,
              Bool.true_or, if_true]
          · have : FString.StartsWith p "/Temp" = true := hsw
            simp only [hpl, this, Bool.or_self, Bool.false_eq_true, if_false, Bool.or_true,
              Bool.true_or, if_true]
          · have : FString.StartsWith p "/Memory" = true := hsw
            simp only [hpl, this, Bool.or_self, Bool.false_eq_true, if_false, Bool.or_true,
              Bool.true_or, if_true]
      · simp
    · simp

/-- C19. `OrganizePackagePath` equals the reference definition for every
package path `p`: the path itself when it starts with `/Game` or `/Engine`;
otherwise `/Plugins` followed by `p` when the first non-empty component is
none of Engine, Game, Script, Temp, Memory; otherwise `/Engine` followed by
`p` when `p` starts with `/Script`, `/Temp` or `/Memory` or contains `Engine`;
otherwise `/Game` followed by `p`. All comparisons ignore letter case, the
test for `Engine` included, as the engine's string functions do by default.
On a path that starts with one slash, as package paths do, the outcome is the
same when that last test is read as an exact match. -/
theorem OrganizePackagePath_refines_reference (p : String) :
    OrganizePackagePath p = OrganizePackagePathSpec (fun q => FString.Contains q "Engine") p ∧
    (∀ rest : List Char, p.data = '/' :: rest → rest.head? ≠ some '/' →
      OrganizePackagePath p =
        OrganizePackagePathSpec (fun q => containsSub "Engine".data q.data) p) := by
  refine ⟨OrganizePackagePath_eq_Spec p, ?_⟩
  intro rest hp hrest
  rw [OrganizePackagePath_eq_Spec]
  exact OrganizePackagePathSpec_wellformed _ _ p rest hp hrest (by decide)

theorem OrganizePackagePath_refines_reference_witness :
    OrganizePackagePath "/MyPlugin/Sky" = "/Plugins/MyPlugin/Sky" ∧
    OrganizePackagePath "/Script/Sky" = "/Engine/Script/Sky" ∧
    OrganizePackagePath "/" = "/Game/" ∧
    OrganizePackagePath "/Script/Sky" =
      OrganizePackagePathSpec (fun q => containsSub "Engine".data q.data) "/Script/Sky" :=
  ⟨by decide, by decide, by decide,
    (OrganizePackagePath_refines_reference "/Script/Sky").2 "Script/Sky".data rfl (by decide)⟩

/-- Remark. On a text with a doubled leading slash, which is no package path,
the classification reaches the test for `Engine`, and there the letter case
matters: the code compares ignoring case and files `//engine/Sky` under
`/Engine`, while an exact match would file it under `/Game`. -/
theorem OrganizePackagePath_doubled_slash :
    OrganizePackagePath "//engine/Sky" = "/Engine//engine/Sky" ∧
    OrganizePackagePathSpec (fun q => FString.Contains q "Engine") "//engine/Sky" =
      "/Engine//engine/Sky" ∧
    OrganizePackagePathSpec (fun q => containsSub "Engine".data q.data) "//engine/Sky" =
      "/Game//engine/Sky" := by
  decide

/-! ## Every item is stored under one key -/

theorem LoadMaterialMetadata_length (st : UHdriVaultManager) (p : TSharedPtr) :
    (st.LoadMaterialMetadata p).Items.length = st.Items.length := by
  unfold UHdriVaultManager.LoadMaterialMetadata
  cases p with
  | none => rfl
  | some j =>
    cases hj : st.Items[j]? with
    | none => simp [hj]
    | some item =>
      simp only [hj]
      cases hc : TMap.Find st.MetadataCache item.AssetData.GetObjectPathString with
      | some cached => simp
      | none =>
        cases hf : TMap.Find st.Files (st.GetMetadataFilePath item.AssetData) with
        | none => simp
        | some json => simp

theorem TMap.Add_values_pairwise {V : Type} (m : TMap V) (k : String) (v : V)
    (h : m.Pairwise (fun p q => p.2 ≠ q.2)) (hv : ∀ q ∈ m, q.2 ≠ v) :
    (TMap.Add m k v).Pairwise (fun p q => p.2 ≠ q.2) := by
  induction m with
  | nil => simp [TMap.Add]
  | cons p rest ih =>
    rw [List.pairwise_cons] at h
    cases hp : FString.Equals p.1 k
    · rw [TMap.Add_cons_ne p rest k v hp, List.pairwise_cons]
      refine ⟨?_, ih h.2 (fun q hq => hv q (List.mem_cons_of_mem _ hq))⟩
      intro q hq
      rcases TMap.mem_Add _ _ _ _ hq with rfl | hq
      · exact hv p (List.mem_cons_self _ _)
      · exact h.1 q hq
    · rw [TMap.Add_cons_eq p rest k v hp, List.pairwise_cons]
      refine ⟨?_, h.2⟩
      intro q hq
      exact fun heq => hv q (List.mem_cons_of_mem _ hq) heq.symm

theorem ProcessMaterialAsset_ItemsDistinct (st : UHdriVaultManager) (a : FAssetData)
    (h : st.ItemsDistinct) : (st.ProcessMaterialAsset a).ItemsDistinct := by
  unfold UHdriVaultManager.ProcessMaterialAsset
  simp only
  cases hf : TMap.FindRef st.MaterialMap a.GetObjectPathString with
  | none =>
    simp only
    unfold UHdriVaultManager.ItemsDistinct
    rw [(LoadMaterialMetadata_frame _ _).1, LoadMaterialMetadata_length]
    simp only [List.length_append, List.length_singleton]
    constructor
    · intro q hq
      rcases TMap.mem_Add _ _ _ _ hq with rfl | hq
      · exact ⟨st.Items.length, rfl, by omega⟩
      · obtain ⟨i, hi, hlt⟩ := h.1 q hq
        exact ⟨i, hi, by omega⟩
    · apply TMap.Add_values_pairwise _ _ _ h.2
      intro q hq heq
      obtain ⟨i, hi, hlt⟩ := h.1 q hq
      rw [hi] at heq
      have : i = st.Items.length := Option.some.inj heq
      omega
  | some j =>
    simp only
    unfold UHdriVaultManager.ItemsDistinct
    rw [(LoadMaterialMetadata_frame _ _).1, LoadMaterialMetadata_length]
    simp only [length_modifyAt]
    exact h

theorem foldl_ProcessMaterialAsset_ItemsDistinct (assets : List FAssetData) :
    ∀ st : UHdriVaultManager, st.ItemsDistinct →
      (assets.foldl UHdriVaultManager.ProcessMaterialAsset st).ItemsDistinct := by
  induction assets with
  | nil => intro st h; exact h
  | cons a rest ih =>
    intro st h
    exact ih _ (ProcessMaterialAsset_ItemsDistinct st a h)

theorem RemoveMaterialAsset_ItemsDistinct (st : UHdriVaultManager) (a : FAssetData)
    (h : st.ItemsDistinct) : (st.RemoveMaterialAsset a).ItemsDistinct := by
  unfold UHdriVaultManager.RemoveMaterialAsset UHdriVaultManager.ItemsDistinct TMap.Remove
  simp only
  exact ⟨fun q hq => h.1 q (List.mem_of_mem_filter hq),
    List.Pairwise.sublist (List.filter_sublist _) h.2⟩

theorem BuildFolderStructure_ItemsDistinct (st : UHdriVaultManager) (h : st.ItemsDistinct) :
    st.BuildFolderStructure.ItemsDistinct := by
  obtain ⟨hi, hm, _, _⟩ := BuildFolderStructure_same st
  unfold UHdriVaultManager.ItemsDistinct
  rw [hi, hm]
  exact h

/-- No operation of the manager stores an item under two keys: the property
holds after every refresh and is kept by the four registry callbacks. -/
theorem ItemsDistinct_kept (st : UHdriVaultManager) (a : FAssetData) (old : String) :
    (st.bIsInitialized = true → st.RefreshMaterialDatabase.ItemsDistinct) ∧
    (st.ItemsDistinct → (st.OnAssetAdded a).ItemsDistinct ∧ (st.OnAssetRemoved a).ItemsDistinct ∧
      (st.OnAssetRenamed a old).ItemsDistinct ∧ (st.OnAssetUpdated a).ItemsDistinct) := by
  constructor
  · intro hinit
    unfold UHdriVaultManager.RefreshMaterialDatabase
    simp only [hinit, Bool.not_true, Bool.false_eq_true, if_false]
    apply BuildFolderStructure_ItemsDistinct
    apply foldl_ProcessMaterialAsset_ItemsDistinct
    unfold UHdriVaultManager.ItemsDistinct UHdriVaultManager.ClearMaterialData
      UHdriVaultManager.withFolder
    cases st.RootFolderNode <;> simp
  · intro h
    refine ⟨?_, ?_, ?_, ?_⟩
    · unfold UHdriVaultManager.OnAssetAdded
      split_ifs
      · exact BuildFolderStructure_ItemsDistinct _ (ProcessMaterialAsset_ItemsDistinct _ _ h)
      · exact h
    · exact BuildFolderStructure_ItemsDistinct _ (RemoveMaterialAsset_ItemsDistinct _ _ h)
    · exact BuildFolderStructure_ItemsDistinct _
        (ProcessMaterialAsset_ItemsDistinct _ _ (RemoveMaterialAsset_ItemsDistinct _ _ h))
    · unfold UHdriVaultManager.OnAssetUpdated
      split_ifs
      · exact ProcessMaterialAsset_ItemsDistinct _ _ h
      · exact h

/-! ## Cache lookups and cache clearing -/

/-- C21, failing input. The cache holds thumbnails of `/Game/HDRI/Studio.Studio`
in the sizes 128 and 256, of the plugin asset
`/MyPlugin/Game/HDRI/Studio.Studio` and of `/Game/HDRI/Dawn.Dawn`.
`ClearThumbnailForMaterial("/Game/HDRI/Studio.Studio")` removes every entry
whose key contains that text: the two entries of the path, and also the entry
of the plugin asset, which is another material path. -/
theorem ClearThumbnailForMaterial_removes_other_material :
    FString.Equals "/MyPlugin/Game/HDRI/Studio.Studio" "/Game/HDRI/Studio.Studio" = false ∧
    TMap.Find exSharedNameCache.ThumbnailCache
      (GetCacheKey "/MyPlugin/Game/HDRI/Studio.Studio" 128) = some (exEntry 3 32) ∧
    (exSharedNameCache.ClearThumbnailForMaterial "/Game/HDRI/Studio.Studio").ThumbnailCache =
      [("/Game/HDRI/Dawn.Dawn_128", exEntry 4 33)] ∧
    TMap.Find (exSharedNameCache.ClearThumbnailForMaterial
      "/Game/HDRI/Studio.Studio").ThumbnailCache
      (GetCacheKey "/MyPlugin/Game/HDRI/Studio.Studio" 128) = none := by
  decide

/-! ## Cache hits of `GetMaterialThumbnail` -/

theorem TMap.Modify_keys {V : Type} (m : TMap V) (k : String) (f : V → V) :
    (TMap.Modify m k f).map Prod.fst = m.map Prod.fst := by
  induction m with
  | nil => rfl
  | cons p rest ih =>
    by_cases h : FString.Equals p.1 k = true
    · simp [TMap.Modify, h]
    · simp [TMap.Modify, h, ih]

theorem TMap.Find_Modify_self {V : Type} (m : TMap V) (k : String) (f : V → V) :
    TMap.Find (TMap.Modify m k f) k = (TMap.Find m k).map f := by
  induction m with
  | nil => rfl
  | cons p rest ih =>
    by_cases h : FString.Equals p.1 k = true
    · simp [TMap.Modify, TMap.Find, h]
    · simp [TMap.Modify, TMap.Find, h, ih]

theorem TMap.Find_Modify_of_ne {V : Type} (m : TMap V) (k k' : String) (f : V → V)
    (hne : FString.Equals k k' = false) :
    TMap.Find (TMap.Modify m k f) k' = TMap.Find m k' := by
  induction m with
  | nil => rfl
  | cons p rest ih =>
    by_cases h : FString.Equals p.1 k = true
    · have h' : FString.Equals p.1 k' = false := by
        rw [FString.Equals_congr_left h]; exact hne
      simp [TMap.Modify, TMap.Find, h, h']
    · by_cases h2 : FString.Equals p.1 k' = true
      · simp [TMap.Modify, TMap.Find, h, h2]
      · simp [TMap.Modify, TMap.Find, h, h2, ih]

/-- C22. When an initialised manager finds an entry for the object path of the
item and the size in the cache, `GetMaterialThumbnail` returns the brush of
that entry and starts no thumbnail request; nothing but the cache changes in
the manager; the cache keeps its keys, in their order (no entry is added or
removed); the entry found is the same except that its LastAccessTime is the
current time; and the entry under every other key is as it was. -/
theorem GetMaterialThumbnail_cache_hit (tm : FHdriVaultThumbnailManager)
    (Items : List FHdriVaultMaterialItem) (i : Nat) (item : FHdriVaultMaterialItem)
    (ThumbnailSize : Int) (Entry : FThumbnailCacheEntry)
    (hinit : tm.bIsInitialized = true) (hitem : Items[i]? = some item)
    (hfind : TMap.Find tm.ThumbnailCache
      (GetCacheKey item.AssetData.GetObjectPathString ThumbnailSize) = some Entry) :
    (tm.GetMaterialThumbnail Items (some i) ThumbnailSize).2.1 = Entry.Brush ∧
    (tm.GetMaterialThumbnail Items (some i) ThumbnailSize).2.2 = none ∧
    (tm.GetMaterialThumbnail Items (some i) ThumbnailSize).1 =
      { tm with ThumbnailCache :=
          (tm.GetMaterialThumbnail Items (some i) ThumbnailSize).1.ThumbnailCache } ∧
    (tm.GetMaterialThumbnail Items (some i) ThumbnailSize).1.ThumbnailCache.map Prod.fst =
      tm.ThumbnailCache.map Prod.fst ∧
    TMap.Find (tm.GetMaterialThumbnail Items (some i) ThumbnailSize).1.ThumbnailCache
        (GetCacheKey item.AssetData.GetObjectPathString ThumbnailSize) =
      some { Entry with LastAccessTime := tm.Now } ∧
    (∀ k, FString.Equals (GetCacheKey item.AssetData.GetObjectPathString ThumbnailSize) k =
        false →
      TMap.Find (tm.GetMaterialThumbnail Items (some i) ThumbnailSize).1.ThumbnailCache k =
        TMap.Find tm.ThumbnailCache k) := by
  obtain ⟨Touched, hT⟩ : ∃ c, c = TMap.Modify tm.ThumbnailCache
      (GetCacheKey item.AssetData.GetObjectPathString ThumbnailSize)
      (fun e => { e with LastAccessTime := tm.Now }) := ⟨_, rfl⟩
  have hrun : tm.GetMaterialThumbnail Items (some i) ThumbnailSize =
      ({ tm with ThumbnailCache := Touched }, Entry.Brush, none) := by
    simp only [FHdriVaultThumbnailManager.GetMaterialThumbnail, Option.bind, hitem, hinit,
      hfind, Bool.not_true, Bool.false_eq_true, if_false, hT]
  rw [hrun]
  refine ⟨rfl, rfl, rfl, ?_, ?_, ?_⟩
  · simp only [hT]
    exact TMap.Modify_keys _ _ _
  · simp only [hT]
    rw [TMap.Find_Modify_self, hfind]
    rfl
  · intro k hk
    simp only [hT]
    exact TMap.Find_Modify_of_ne _ _ _ _ hk

theorem GetMaterialThumbnail_cache_hit_witness :
    exSharedNameCache.bIsInitialized = true ∧
    [exEditedItem][0]? = some exEditedItem ∧
    TMap.Find exSharedNameCache.ThumbnailCache
      (GetCacheKey exEditedItem.AssetData.GetObjectPathString 256) = some (exEntry 2 31) ∧
    (exSharedNameCache.GetMaterialThumbnail [exEditedItem] (some 0) 256).1.ThumbnailCache =
      [("/Game/HDRI/Studio.Studio_128", exEntry 1 30),
       ("/Game/HDRI/Studio.Studio_256", exEntry 2 40),
       ("/MyPlugin/Game/HDRI/Studio.Studio_128", exEntry 3 32),
       ("/Game/HDRI/Dawn.Dawn_128", exEntry 4 33)] ∧
    (exSharedNameCache.GetMaterialThumbnail [exEditedItem] (some 0) 256).2.1 =
      (exEntry 2 31).Brush :=
  ⟨by decide, by decide, by decide, by decide,
    (GetMaterialThumbnail_cache_hit exSharedNameCache [exEditedItem] 0 exEditedItem 256
      (exEntry 2 31) (by decide) (by decide) (by decide)).1⟩

/-! ## Array reads of `TrimCache` -/

theorem Int32Wrap_of_range (x : Int) (h1 : -2147483648 ≤ x) (h2 : x < 2147483648) :
    Int32Wrap x = x := by
  unfold Int32Wrap
  omega

theorem RemoveOldestChecked_eq (cache : TMap FThumbnailCacheEntry)
    (S : List (String × FDateTime)) (n : Nat) (h : n ≤ S.length) :
    RemoveOldestChecked cache S n = some (RemoveOldest cache S n) := by
  unfold RemoveOldestChecked RemoveOldest
  induction n with
  | zero => rfl
  | succ n ih =>
    rw [List.range_succ, List.foldl_append, List.foldl_append, ih (by omega)]
    have hn : n < S.length := by omega
    simp [List.getElem?_eq_getElem hn]

/-- With a limit that is not negative, every read of `SortedEntries` in
`TrimCache` is in range, and the checked function does what `TrimCache` does. -/
theorem TrimCacheChecked_of_nonneg (tm : FHdriVaultThumbnailManager)
    (hmax : 0 ≤ tm.MaxCacheSize) (hnum : (TMap.Num tm.ThumbnailCache : Int) < 2147483648)
    (hmax2 : tm.MaxCacheSize < 2147483648) :
    (∀ i ∈ tm.TrimCacheReads, i < TMap.Num tm.ThumbnailCache) ∧
    tm.TrimCacheChecked = some tm.TrimCache := by
  unfold FHdriVaultThumbnailManager.TrimCacheReads FHdriVaultThumbnailManager.TrimCacheChecked
    FHdriVaultThumbnailManager.TrimCache
  by_cases hle : (TMap.Num tm.ThumbnailCache : Int) ≤ tm.MaxCacheSize
  · simp only [hle, if_true]
    exact ⟨fun i hi => absurd hi (List.not_mem_nil i), trivial⟩
  · simp only [hle, if_false]
    have hw : Int32Wrap ((TMap.Num tm.ThumbnailCache : Int) - tm.MaxCacheSize) =
        (TMap.Num tm.ThumbnailCache : Int) - tm.MaxCacheSize :=
      Int32Wrap_of_range _ (by omega) (by omega)
    rw [hw]
    constructor
    · intro i hi
      rw [List.mem_range] at hi
      omega
    · rw [RemoveOldestChecked_eq]
      · rfl
      · rw [(TArray.Sort_perm _ _).length_eq, List.length_map]
        unfold TMap.Num
        omega

/-- C23, failing input. `SetMaxCacheSize` stores any `int32`, a negative one
included. With three cached thumbnails and the limit set to -1, `TrimCache`
computes `EntriesToRemove = 4` and reads `SortedEntries`, which has three
elements, with the indices 0, 1, 2 and 3: the last read is out of range. For
limits that are not negative every read is in range. -/
theorem TrimCache_reads_out_of_range :
    (exThumbnailManager.SetMaxCacheSize (-1)).MaxCacheSize = -1 ∧
    TMap.Num (exThumbnailManager.SetMaxCacheSize (-1)).ThumbnailCache = 3 ∧
    (exThumbnailManager.SetMaxCacheSize (-1)).TrimCacheReads = [0, 1, 2, 3] ∧
    (exThumbnailManager.SetMaxCacheSize (-1)).TrimCacheChecked.isNone = true ∧
    (exThumbnailManager.SetMaxCacheSize 0).TrimCacheReads = [0, 1, 2] ∧
    ((exThumbnailManager.SetMaxCacheSize 0).TrimCacheChecked.map
      (fun tm => tm.ThumbnailCache)) = some [] := by
  decide

/-! ## Order of the categories -/

/-- C24, failing input. Two valid items are indexed, with the categories
`Uncategorized` and `Zebra` typed by the user; no item has an empty category.
After `BuildCategoryStructure` the root categories are `All`, `Zebra`,
`Uncategorized`: a category `Uncategorized` is present although no item has an
empty category, and it stands after `Zebra`, so the categories other than
`All` are not in ascending order of their names either. The sort order treats
every category of that name as the built-in one. -/
theorem BuildCategoryStructure_user_category_Uncategorized :
    exReservedName.MaterialMap =
      [("/Game/HDRI/Studio.Studio", some 0), ("/Game/Sky/Night_HDR/Studio.Studio", some 1)] ∧
    exReservedName.Items.map (fun item => item.Metadata.Category) =
      ["Uncategorized", "Zebra"] ∧
    (exEmptyPanel.BuildCategoryStructure (some exReservedName)).View =
      [("All", [0, 1]), ("Zebra", [1]), ("Uncategorized", [0])] ∧
    FString.Less "Uncategorized" "Zebra" = true := by
  decide

/-! ## Import of HDRI files -/

theorem Char.ofNat_add_32 : ∀ n, n < 91 → 65 ≤ n → (Char.ofNat (n + 32)).toNat = n + 32 := by
  decide

theorem Char.toLower_toLower (c : Char) : c.toLower.toLower = c.toLower := by
  by_cases h : c.toNat ≥ 65 ∧ c.toNat ≤ 90
  · have h1 : c.toLower = Char.ofNat (c.toNat + 32) := by
      unfold Char.toLower
      rw [if_pos h]
    have h2 := Char.ofNat_add_32 c.toNat (by omega) h.1
    rw [h1]
    unfold Char.toLower
    rw [if_neg (by rw [h2]; omega)]
  · have h1 : c.toLower = c := by
      unfold Char.toLower
      rw [if_neg h]
    rw [h1, h1]

theorem FString.Equals_ToLower (a b : String) :
    FString.Equals (FString.ToLower a) b = FString.Equals a b := by
  rw [Bool.eq_iff_iff, FString.Equals_iff, FString.Equals_iff]
  simp only [FString.ToLower, List.map_map]
  have : (Char.toLower ∘ Char.toLower) = Char.toLower := by
    funext c
    exact Char.toLower_toLower c
  rw [this]

theorem afterLast_append (p : Char → Bool) (X : List Char) (c : Char) (ext : List Char)
    (hc : p c = true) (hext : ∀ x ∈ ext, p x = false) :
    afterLast p (X ++ c :: ext) = some ext := by
  have hnone : afterLast p ext = none := by
    induction ext with
    | nil => rfl
    | cons x xs ih =>
      simp only [afterLast]
      rw [ih (fun y hy => hext y (List.mem_cons_of_mem _ hy))]
      simp [hext x (List.mem_cons_self _ _)]
  induction X with
  | nil => simp [afterLast, hnone, hc]
  | cons x xs ih => simp [afterLast, ih]

theorem beforeLast_append (p : Char → Bool) (X : List Char) (c : Char) (ext : List Char)
    (hc : p c = true) (hext : ∀ x ∈ ext, p x = false) :
    beforeLast p (X ++ c :: ext) = some X := by
  have hnone : beforeLast p ext = none := by
    induction ext with
    | nil => rfl
    | cons x xs ih =>
      simp only [beforeLast]
      rw [ih (fun y hy => hext y (List.mem_cons_of_mem _ hy))]
      simp [hext x (List.mem_cons_self _ _)]
  induction X with
  | nil => simp [beforeLast, hnone, hc]
  | cons x xs ih => simp [beforeLast, ih]

/-- The loop of the pre-processing step, for any files already collected. -/
theorem PreprocessImportFiles_loop (LoadEXR : String → FLoadEXRResult)
    (stbi_write_hdr : String → Int → Int → Int → Nat → Int) :
    ∀ (Files : List String) (acc : List String × Int),
    Files.foldl (fun (acc : List String × Int) File =>
      let Ext := FString.ToLower (FPaths.GetExtension File)
      if FString.Equals Ext "exr" then
        let HdrFile := FPaths.ChangeExtension File "hdr"
        if (ConvertExrToHdr LoadEXR stbi_write_hdr File HdrFile "").1 then
          (acc.1 ++ [HdrFile], acc.2 + 1)
        else (acc.1 ++ [File], acc.2)
      else (acc.1 ++ [File], acc.2)) acc =
    (acc.1 ++ Files.map (fun File =>
        if ConvertsToHdr LoadEXR stbi_write_hdr File then FPaths.ChangeExtension File "hdr"
        else File),
      acc.2 + ((Files.filter (ConvertsToHdr LoadEXR stbi_write_hdr)).length : Int)) := by
  intro Files
  induction Files with
  | nil => intro acc; simp
  | cons File rest ih =>
    intro acc
    rw [List.foldl_cons, ih]
    simp only [FString.Equals_ToLower]
    cases hext : FString.Equals (FPaths.GetExtension File) "exr"
    · simp [ConvertsToHdr, hext]
    · cases hconv : (ConvertExrToHdr LoadEXR stbi_write_hdr File
          (FPaths.ChangeExtension File "hdr") "").1
      · simp [ConvertsToHdr, hext, hconv]
      · simp [ConvertsToHdr, hext, hconv]
        omega

/-- On a path of the form `stem.ext`, where `ext` holds no dot and no slash,
`GetExtension` gives `ext` and `ChangeExtension` gives `stem.hdr`. -/
theorem FPaths.extension_of_stem (File : String) (stem ext : List Char)
    (hfile : File.data = stem ++ '.' :: ext)
    (hext : ∀ x ∈ ext, x ≠ '.' ∧ IsSlashOrBackslash x = false) :
    FPaths.GetExtension File = ⟨ext⟩ ∧
    FPaths.ChangeExtension File "hdr" = ⟨stem ++ ".hdr".data⟩ := by
  have hdot : ∀ x ∈ ext, (fun c : Char => decide (c = '.')) x = false := by
    intro x hx
    simpa using (hext x hx).1
  constructor
  · unfold FPaths.GetExtension FPaths.GetCleanFilename
    simp only
    rw [hfile]
    have hrev : (stem ++ '.' :: ext).reverse = (ext.reverse ++ ['.']) ++ stem.reverse := by
      simp
    rw [hrev]
    have hL : ∀ x ∈ ext.reverse ++ ['.'], IsSlashOrBackslash x = false := by
      intro x hx
      rcases List.mem_append.1 hx with h | h
      · exact (hext x (List.mem_reverse.1 h)).2
      · rw [List.mem_singleton] at h
        subst h
        decide
    have hdrop : ((ext.reverse ++ ['.']) ++ stem.reverse).dropWhile IsSlashOrBackslash =
        (ext.reverse ++ ['.']) ++ stem.reverse := by
      cases hcase : ext.reverse ++ ['.'] with
      | nil => simp at hcase
      | cons y ys =>
        have hy : IsSlashOrBackslash y = false := hL y (by rw [hcase]; exact List.mem_cons_self _ _)
        simp [List.dropWhile, hy]
    rw [hdrop]
    have htake : ((ext.reverse ++ ['.']) ++ stem.reverse).takeWhile
        (fun c => !IsSlashOrBackslash c) =
        (ext.reverse ++ ['.']) ++ stem.reverse.takeWhile (fun c => !IsSlashOrBackslash c) := by
      apply List.takeWhile_append_of_pos
      intro x hx
      simp [hL x hx]
    rw [htake]
    have hfin : ((ext.reverse ++ ['.']) ++
          stem.reverse.takeWhile (fun c => !IsSlashOrBackslash c)).reverse =
        (stem.reverse.takeWhile (fun c => !IsSlashOrBackslash c)).reverse ++ '.' :: ext := by
      simp
    rw [hfin, afterLast_append _ _ _ _ (by simp) hdot]
  · unfold FPaths.ChangeExtension
    rw [hfile, beforeLast_append _ _ _ _ (by simp) hdot,
      afterLast_append _ _ _ _ (by simp) hdot]
    have hany : ext.any IsSlashOrBackslash = false := by
      rw [List.any_eq_false]
      intro x hx
      simp [(hext x hx).2]
    simp only [hany, Bool.false_eq_true, if_false]
    rfl

/-- C25. The pre-processing of `ImportHdriFiles` keeps every file: the list
handed to the importer has the length and order of the input, where a file
with extension `exr` (ignoring case) whose conversion succeeds is replaced by
the path that `ChangeExtension` gives for `hdr`, and every other file, a
failed EXR conversion included, is passed through unchanged; ConversionCount
is the number of files converted. On a path `stem.ext`, the extension is
`ext` and the replacement is `stem.hdr`. -/
theorem PreprocessImportFiles_keeps_files (LoadEXR : String → FLoadEXRResult)
    (stbi_write_hdr : String → Int → Int → Int → Nat → Int) (Files : List String) :
    (PreprocessImportFiles LoadEXR stbi_write_hdr Files).1.length = Files.length ∧
    (∀ (k : Nat) (File : String), Files[k]? = some File →
      (PreprocessImportFiles LoadEXR stbi_write_hdr Files).1[k]? =
        some (if FString.Equals (FPaths.GetExtension File) "exr" = true ∧
              (ConvertExrToHdr LoadEXR stbi_write_hdr File (FPaths.ChangeExtension File "hdr")
                "").1 = true
          then FPaths.ChangeExtension File "hdr" else File)) ∧
    (PreprocessImportFiles LoadEXR stbi_write_hdr Files).2 =
      ((Files.filter (fun File => FString.Equals (FPaths.GetExtension File) "exr" &&
        (ConvertExrToHdr LoadEXR stbi_write_hdr File (FPaths.ChangeExtension File "hdr")
          "").1)).length : Int) ∧
    (∀ (File : String) (stem ext : List Char), File.data = stem ++ '.' :: ext →
      (∀ x ∈ ext, x ≠ '.' ∧ IsSlashOrBackslash x = false) →
      FPaths.GetExtension File = ⟨ext⟩ ∧
      FPaths.ChangeExtension File "hdr" = ⟨stem ++ ".hdr".data⟩) := by
  have hloop := PreprocessImportFiles_loop LoadEXR stbi_write_hdr Files ([], 0)
  have hrun : PreprocessImportFiles LoadEXR stbi_write_hdr Files =
      (Files.map (fun File =>
        if ConvertsToHdr LoadEXR stbi_write_hdr File then FPaths.ChangeExtension File "hdr"
        else File),
      ((Files.filter (ConvertsToHdr LoadEXR stbi_write_hdr)).length : Int)) := by
    unfold PreprocessImportFiles
    rw [hloop]
    simp
  rw [hrun]
  refine ⟨by simp, ?_, ?_, fun File stem ext h1 h2 => FPaths.extension_of_stem File stem ext h1 h2⟩
  · intro k File hk
    simp only [List.getElem?_map, hk, Option.map_some', ConvertsToHdr, Bool.and_eq_true]
  · rfl

theorem PreprocessImportFiles_keeps_files_witness :
    PreprocessImportFiles exLoadEXR exWriteHdr ["C:/a.png", "C:/sky.EXR", "C:/sky.exr"] =
      (["C:/a.png", "C:/sky.EXR", "C:/sky.hdr"], 1) ∧
    ["C:/a.png", "C:/sky.EXR", "C:/sky.exr"][2]? = some "C:/sky.exr" ∧
    (PreprocessImportFiles exLoadEXR exWriteHdr ["C:/a.png", "C:/sky.EXR", "C:/sky.exr"]).1[2]? =
      some (if FString.Equals (FPaths.GetExtension "C:/sky.exr") "exr" = true ∧
              (ConvertExrToHdr exLoadEXR exWriteHdr "C:/sky.exr"
                (FPaths.ChangeExtension "C:/sky.exr" "hdr") "").1 = true
          then FPaths.ChangeExtension "C:/sky.exr" "hdr" else "C:/sky.exr") :=
  ⟨by decide, by decide,
    (PreprocessImportFiles_keeps_files exLoadEXR exWriteHdr
      ["C:/a.png", "C:/sky.EXR", "C:/sky.exr"]).2.1 2 "C:/sky.exr" (by decide)⟩

/-! ## Sorting of materials -/

/-- C26. For every list of valid items, `SortMaterials` yields a permutation
of its input. In mode Name the result is ascending by DisplayName (no item
stands before one with a smaller name; names compare ignoring case, as
`FString::operator<` does), in mode DateModified it is descending by
`Metadata.LastModified`, in mode Type it is ascending by asset class path, and
in mode Size the list is returned unchanged. -/
theorem SortMaterials_orders (st : UHdriVaultManager) (Materials : List Nat)
    (hvalid : ∀ A ∈ Materials, ∃ a, st.Items[A]? = some a) :
    (st.SortMaterials Materials).Perm Materials ∧
    (st.Settings.SortMode = EHdriVaultSortMode.Name →
      (st.SortMaterials Materials).Pairwise (fun A B => ∀ a b, st.Items[A]? = some a →
        st.Items[B]? = some b → FString.Less b.DisplayName a.DisplayName = false)) ∧
    (st.Settings.SortMode = EHdriVaultSortMode.DateModified →
      (st.SortMaterials Materials).Pairwise (fun A B => ∀ a b, st.Items[A]? = some a →
        st.Items[B]? = some b →
        b.Metadata.LastModified.Ticks ≤ a.Metadata.LastModified.Ticks)) ∧
    (st.Settings.SortMode = EHdriVaultSortMode.Type →
      (st.SortMaterials Materials).Pairwise (fun A B => ∀ a b, st.Items[A]? = some a →
        st.Items[B]? = some b →
        FString.Less b.AssetData.AssetClassPath a.AssetData.AssetClassPath = false)) ∧
    (st.Settings.SortMode = EHdriVaultSortMode.Size → st.SortMaterials Materials = Materials) := by
  have hsorted := SortMaterials_sorted st Materials hvalid
  refine ⟨SortMaterials_perm st Materials, ?_, ?_, ?_, ?_⟩
  · intro hmode
    rw [hmode] at hsorted
    exact hsorted
  · intro hmode
    rw [hmode] at hsorted
    exact hsorted
  · intro hmode
    rw [hmode] at hsorted
    exact hsorted
  · intro hmode
    unfold UHdriVaultManager.SortMaterials
    rw [hmode]

theorem SortMaterials_orders_witness :
    (∀ A ∈ [0, 1, 2], ∃ a, exTagged.Items[A]? = some a) ∧
    exTagged.Items.map (fun item => item.DisplayName) = ["Studio", "Studio", "Dawn"] ∧
    exTagged.SortMaterials [0, 1, 2] = [2, 0, 1] ∧
    (exTagged.SortMaterials [0, 1, 2]).Perm [0, 1, 2] :=
  ⟨fun A hA => Option.isSome_iff_exists.1
      ((by decide : ∀ A ∈ [0, 1, 2], (exTagged.Items[A]?).isSome = true) A hA),
    by decide, by decide,
    (SortMaterials_orders exTagged [0, 1, 2] (fun A hA => Option.isSome_iff_exists.1
      ((by decide : ∀ A ∈ [0, 1, 2], (exTagged.Items[A]?).isSome = true) A hA))).1⟩

/-! ## Text search -/

/-- A loop over the material map that collects the pointers of the valid
items with a property collects them in map order. -/
theorem MaterialMap_collect_loop (Items : List FHdriVaultMaterialItem)
    (P : FHdriVaultMaterialItem → Bool) :
    ∀ (l : TMap TSharedPtr) (acc : List Nat),
    l.foldl (fun (Results : List Nat) MaterialPair =>
      match MaterialPair.2 with
      | some MaterialItem =>
        match Items[MaterialItem]? with
        | some item => if P item then Results ++ [MaterialItem] else Results
        | none => Results
      | none => Results) acc =
    acc ++ (l.filterMap Prod.snd).filter (fun i =>
      match Items[i]? with
      | some item => P item
      | none => false) := by
  intro l
  induction l with
  | nil => intro acc; simp
  | cons q l ih =>
    intro acc
    rw [List.foldl_cons, ih]
    cases hq : q.2 with
    | none => simp [hq]
    | some i =>
      cases hi : Items[i]? with
      | none => simp [hq, hi]
      | some item =>
        cases ht : P item <;> simp [hq, hi, ht]

theorem FString.Contains_ToLower (s term : String) (h : term.data.isEmpty = false) :
    FString.Contains (FString.ToLower s) (FString.ToLower term) = ContainsIgnoringCase s term := by
  have hcomp : (Char.toLower ∘ Char.toLower) = Char.toLower := by
    funext c
    exact Char.toLower_toLower c
  have hne : (List.map Char.toLower term.data).isEmpty = false := by
    cases hd : term.data with
    | nil => rw [hd] at h; exact h
    | cons c cs => rfl
  simp only [FString.Contains, FString.ToLower, ContainsIgnoringCase, List.map_map, hcomp, hne,
    Bool.not_false, Bool.true_and]

/-- C27. `SearchMaterials` returns the empty list for the empty term. For a
term that is not empty it returns exactly the valid items of `MaterialMap`
whose DisplayName or package path contains the term when letter case is
ignored; each of them exactly once, given that no item is stored under two
keys of the map. -/
theorem SearchMaterials_returns_matches (st : UHdriVaultManager) (SearchTerm : String) :
    (SearchTerm = "" → st.SearchMaterials SearchTerm = []) ∧
    (SearchTerm ≠ "" → ∀ i, i ∈ st.SearchMaterials SearchTerm ↔
      ∃ key item, (key, some i) ∈ st.MaterialMap ∧ st.Items[i]? = some item ∧
        (ContainsIgnoringCase item.DisplayName SearchTerm = true ∨
          ContainsIgnoringCase item.AssetData.PackagePath SearchTerm = true)) ∧
    (st.MaterialMap.Pairwise (fun p q => p.2 ≠ q.2) → (st.SearchMaterials SearchTerm).Nodup) := by
  by_cases hterm : SearchTerm = ""
  · subst hterm
    refine ⟨fun _ => rfl, fun h => absurd rfl h, fun _ => ?_⟩
    have : st.SearchMaterials "" = [] := rfl
    rw [this]
    exact List.nodup_nil
  · have hne : SearchTerm.data.isEmpty = false := by
      cases hd : SearchTerm.data with
      | nil => exact absurd (String.ext hd) hterm
      | cons c cs => rfl
    have hloop := MaterialMap_collect_loop st.Items
      (fun item => FString.Contains (FString.ToLower item.DisplayName)
          (FString.ToLower SearchTerm) ||
        FString.Contains (FString.ToLower item.AssetData.PackagePath)
          (FString.ToLower SearchTerm)) st.MaterialMap []
    rw [List.nil_append] at hloop
    have hdef : st.SearchMaterials SearchTerm = st.SortMaterials
        ((st.MaterialMap.filterMap Prod.snd).filter (fun i =>
          match st.Items[i]? with
          | some item => ContainsIgnoringCase item.DisplayName SearchTerm ||
              ContainsIgnoringCase item.AssetData.PackagePath SearchTerm
          | none => false)) := by
      unfold UHdriVaultManager.SearchMaterials
      simp only [hne, Bool.false_eq_true, if_false]
      rw [hloop]
      simp only [FString.Contains_ToLower _ _ hne]
    have hperm := SortMaterials_perm st
        ((st.MaterialMap.filterMap Prod.snd).filter (fun i =>
          match st.Items[i]? with
          | some item => ContainsIgnoringCase item.DisplayName SearchTerm ||
              ContainsIgnoringCase item.AssetData.PackagePath SearchTerm
          | none => false))
    rw [← hdef] at hperm
    refine ⟨fun h => absurd h hterm, fun _ i => ?_, fun hdistinct => ?_⟩
    · rw [hperm.mem_iff, List.mem_filter, List.mem_filterMap]
      constructor
      · rintro ⟨⟨q, hq, hqi⟩, hcond⟩
        cases hi : st.Items[i]? with
        | none => simp [hi] at hcond
        | some item =>
          simp only [hi, Bool.or_eq_true] at hcond
          refine ⟨q.1, item, ?_, rfl, hcond⟩
          have : q = (q.1, some i) := by rw [← hqi]
          rw [← this]
          exact hq
      · rintro ⟨key, item, hq, hi, hcond⟩
        refine ⟨⟨(key, some i), hq, rfl⟩, ?_⟩
        simp only [hi, Bool.or_eq_true]
        exact hcond
    · rw [hperm.nodup_iff]
      apply List.Nodup.filter
      unfold List.Nodup
      rw [List.pairwise_filterMap]
      refine List.Pairwise.imp ?_ hdistinct
      intro p q hpq b hb c hc hbc
      apply hpq
      rw [Option.mem_def] at hb hc
      rw [hb, hc, hbc]

theorem SearchMaterials_returns_matches_witness :
    exTagged.SearchMaterials "" = [] ∧
    exTagged.SearchMaterials "STUD" = [0, 1] ∧
    exTagged.SearchMaterials "other" = [2] ∧
    exTagged.MaterialMap.Pairwise (fun p q => p.2 ≠ q.2) ∧
    (exTagged.SearchMaterials "STUD").Nodup :=
  ⟨(SearchMaterials_returns_matches exTagged "").1 rfl, by decide, by decide, by decide,
    (SearchMaterials_returns_matches exTagged "STUD").2.2 (by decide)⟩

/-! ## Tag editor -/

/-- C29. The tag editor keeps the tag list clean. If the list holds no empty
text and no text twice, the same is true after `OnAddTag`, whatever the text
of the input box, and after `OnRemoveTag`. `OnAddTag` appends the trimmed text
when it is not empty and no tag of the list equals it (tags compare ignoring
case, so the list never gets two tags that differ in case only) and leaves
the list unchanged otherwise. -/
theorem TagEditor_keeps_tags_clean (Tags : List String) (BoxText : String)
    (TagToRemove : Option String) (hempty : "" ∉ Tags) (hnodup : Tags.Nodup) :
    (∃ After, SHdriVaultTagEditor.OnAddTag (some Tags) BoxText = some After ∧
      "" ∉ After ∧ After.Nodup ∧
      (Tags.Pairwise (fun a b => FString.Equals a b = false) →
        After.Pairwise (fun a b => FString.Equals a b = false)) ∧
      After = (if FString.TrimStartAndEnd BoxText ≠ "" ∧
            ∀ t ∈ Tags, FString.Equals t (FString.TrimStartAndEnd BoxText) = false
          then Tags ++ [FString.TrimStartAndEnd BoxText] else Tags)) ∧
    (∃ After, SHdriVaultTagEditor.OnRemoveTag (some Tags) TagToRemove = some After ∧
      "" ∉ After ∧ After.Nodup ∧ After.Sublist Tags) := by
  constructor
  · obtain ⟨NewTag, hNew⟩ : ∃ s, s = FString.TrimStartAndEnd BoxText := ⟨_, rfl⟩
    rw [← hNew]
    have hiff : (NewTag.data.isEmpty = false) ↔ NewTag ≠ "" := by
      constructor
      · intro h heq
        rw [heq] at h
        exact Bool.noConfusion h
      · intro h
        cases hd : NewTag.data with
        | nil => exact absurd (String.ext hd) h
        | cons c cs => rfl
    by_cases hcond : NewTag ≠ "" ∧ ∀ t ∈ Tags, FString.Equals t NewTag = false
    · have hrun : SHdriVaultTagEditor.OnAddTag (some Tags) BoxText = some (Tags ++ [NewTag]) := by
        have h1 : NewTag.data.isEmpty = false := hiff.2 hcond.1
        have h2 : TArray.Contains Tags NewTag = false := by
          unfold TArray.Contains
          rw [List.any_eq_false]
          intro t ht
          simp [hcond.2 t ht]
        simp only [SHdriVaultTagEditor.OnAddTag, ← hNew, h1, h2, Bool.not_false, Bool.and_self,
          if_true]
      have hnotin : NewTag ∉ Tags := by
        intro hmem
        have := hcond.2 NewTag hmem
        rw [FString.Equals_refl] at this
        exact Bool.noConfusion this
      refine ⟨_, hrun, ?_, ?_, ?_, by rw [if_pos hcond]⟩
      · intro hmem
        rcases List.mem_append.1 hmem with h | h
        · exact hempty h
        · rw [List.mem_singleton] at h
          exact hcond.1 h.symm
      · rw [List.nodup_append]
        refine ⟨hnodup, List.nodup_singleton _, ?_⟩
        intro a ha hb
        rw [List.mem_singleton] at hb
        exact hnotin (hb ▸ ha)
      · intro hpw
        rw [List.pairwise_append]
        refine ⟨hpw, List.pairwise_singleton _ _, ?_⟩
        intro a ha b hb
        rw [List.mem_singleton] at hb
        rw [hb]
        exact hcond.2 a ha
    · have hrun : SHdriVaultTagEditor.OnAddTag (some Tags) BoxText = some Tags := by
        simp only [SHdriVaultTagEditor.OnAddTag, ← hNew]
        by_cases h1 : NewTag.data.isEmpty = true
        · simp [h1]
        · have h1' : NewTag.data.isEmpty = false := by simpa using h1
          have hex : ¬ ∀ t ∈ Tags, FString.Equals t NewTag = false :=
            fun h => hcond ⟨hiff.1 h1', h⟩
          have h2 : TArray.Contains Tags NewTag = true := by
            unfold TArray.Contains
            rw [List.any_eq_true]
            push_neg at hex
            obtain ⟨t, ht, hte⟩ := hex
            exact ⟨t, ht, by simpa using hte⟩
          simp [h2]
      exact ⟨_, hrun, hempty, hnodup, fun h => h, by rw [if_neg hcond]⟩
  · cases TagToRemove with
    | none => exact ⟨Tags, rfl, hempty, hnodup, List.Sublist.refl _⟩
    | some t =>
      refine ⟨TArray.Remove Tags t, rfl, ?_, ?_, List.filter_sublist _⟩
      · intro hmem
        exact hempty (List.mem_of_mem_filter hmem)
      · exact hnodup.filter _

theorem TagEditor_keeps_tags_clean_witness :
    "" ∉ ["indoor", "Studio"] ∧ ["indoor", "Studio"].Nodup ∧
    SHdriVaultTagEditor.OnAddTag (some ["indoor", "Studio"]) "  warm light \t" =
      some ["indoor", "Studio", "warm light"] ∧
    SHdriVaultTagEditor.OnAddTag (some ["indoor", "Studio"]) " studio" =
      some ["indoor", "Studio"] ∧
    SHdriVaultTagEditor.OnAddTag (some ["indoor", "Studio"]) "   " = some ["indoor", "Studio"] ∧
    SHdriVaultTagEditor.OnRemoveTag (some ["indoor", "Studio"]) (some "INDOOR") =
      some ["Studio"] ∧
    (∃ After, SHdriVaultTagEditor.OnRemoveTag (some ["indoor", "Studio"]) (some "INDOOR") =
      some After ∧ "" ∉ After ∧ After.Nodup ∧ After.Sublist ["indoor", "Studio"]) :=
  ⟨by decide, by decide, by decide, by decide, by decide, by decide,
    (TagEditor_keeps_tags_clean ["indoor", "Studio"] "x" (some "INDOOR") (by decide)
      (by decide)).2⟩

/-! ## Termination of `GetOrCreateFolderNode` -/

/-- A call of `GetOrCreateFolderNode` that ends within a depth bound ends with
the same result within every larger bound. -/
theorem GetOrCreateFolderNodeAux_succ (fuel : Nat) :
    ∀ (st : UHdriVaultManager) (path : String) (r : UHdriVaultManager × TSharedPtr),
    UHdriVaultManager.GetOrCreateFolderNodeAux fuel st path = some r →
    UHdriVaultManager.GetOrCreateFolderNodeAux (fuel + 1) st path = some r := by
  induction fuel with
  | zero =>
    intro st path r h
    simp [UHdriVaultManager.GetOrCreateFolderNodeAux] at h
  | succ fuel ih =>
    intro st path r h
    unfold UHdriVaultManager.GetOrCreateFolderNodeAux at h ⊢
    cases hc : TMap.Contains st.FolderMap path with
    | true =>
      simp only [hc, if_true] at h ⊢
      exact h
    | false =>
      simp only [hc, Bool.false_eq_true, if_false] at h ⊢
      cases he : path.data.isEmpty with
      | true =>
        simp only [UHdriVaultManager.CreateFolderNode, he, if_true] at h ⊢
        exact h
      | false =>
        simp only [UHdriVaultManager.CreateFolderNode, he, Bool.false_eq_true, if_false] at h ⊢
        rw [← RegisterNewFolder_eq st path he] at h ⊢
        by_cases hrec : (!(FPaths.GetPath path).data.isEmpty &&
            !FString.Equals (FPaths.GetPath path) path) = true
        · simp only [hrec, if_true] at h ⊢
          cases hr : UHdriVaultManager.GetOrCreateFolderNodeAux fuel
              (st.RegisterNewFolder path) (FPaths.GetPath path) with
          | none => simp [hr] at h
          | some q =>
            rw [ih _ _ q hr]
            rw [hr] at h
            exact h
        · simp only [hrec, Bool.false_eq_true, if_false] at h ⊢
          exact h

theorem GetOrCreateFolderNodeAux_mono (fuel k : Nat) (st : UHdriVaultManager) (path : String)
    (r : UHdriVaultManager × TSharedPtr)
    (h : UHdriVaultManager.GetOrCreateFolderNodeAux fuel st path = some r) :
    UHdriVaultManager.GetOrCreateFolderNodeAux (fuel + k) st path = some r := by
  induction k with
  | zero => exact h
  | succ k ih => exact GetOrCreateFolderNodeAux_succ _ st path r ih

/-- The parent path of a path that is not empty is strictly shorter. -/
theorem GetPath_shorter (path : String) (h : path.data.isEmpty = false) :
    (FPaths.GetPath path).data.length < path.data.length := by
  cases hpe : (FPaths.GetPath path).data.isEmpty with
  | false => exact GetPath_length path hpe
  | true =>
    have h0 : (FPaths.GetPath path).data = [] := List.isEmpty_iff.1 hpe
    rw [h0]
    cases hd : path.data with
    | nil => rw [hd] at h; exact Bool.noConfusion h
    | cons c cs => simp

/-- C30. `GetOrCreateFolderNode` terminates for every folder path and every
`FolderMap`: with any depth bound above the length of the path the recursion
ends, always with the same result. A call that does not stop at once makes
its one recursive call on the parent path of its argument (after the new
folder is registered), and the parent path of a path that is not empty is
strictly shorter. The recursion stops at a path already in `FolderMap`, at an
empty path, and at a path without a parent. -/
theorem GetOrCreateFolderNode_terminates (st : UHdriVaultManager) (FolderPath : String) :
    (∀ fuel, FolderPath.data.length < fuel →
      UHdriVaultManager.GetOrCreateFolderNodeAux fuel st FolderPath =
        some (st.GetOrCreateFolderNode FolderPath)) ∧
    (FolderPath.data.isEmpty = false →
      (FPaths.GetPath FolderPath).data.length < FolderPath.data.length) ∧
    (∀ fuel, TMap.Contains st.FolderMap FolderPath = false → FolderPath.data.isEmpty = false →
      (FPaths.GetPath FolderPath).data.isEmpty = false →
      UHdriVaultManager.GetOrCreateFolderNodeAux (fuel + 1) st FolderPath =
        (UHdriVaultManager.GetOrCreateFolderNodeAux fuel (st.RegisterNewFolder FolderPath)
          (FPaths.GetPath FolderPath)).map (fun r =>
            match r.2 with
            | some ParentFolder =>
              (r.1.AttachChild ParentFolder st.Folders.length, some st.Folders.length)
            | none => (r.1, some st.Folders.length))) ∧
    (TMap.Contains st.FolderMap FolderPath = true →
      UHdriVaultManager.GetOrCreateFolderNodeAux 1 st FolderPath =
        some (st, TMap.FindRef st.FolderMap FolderPath)) ∧
    (TMap.Contains st.FolderMap FolderPath = false → FolderPath.data.isEmpty = true →
      UHdriVaultManager.GetOrCreateFolderNodeAux 1 st FolderPath = some (st, none)) ∧
    ((FPaths.GetPath FolderPath).data.isEmpty = true →
      UHdriVaultManager.GetOrCreateFolderNodeAux 1 st FolderPath =
        some (st.GetOrCreateFolderNode FolderPath)) := by
  have hbase := GetOrCreateFolderNode_eq st FolderPath
  refine ⟨?_, GetPath_shorter FolderPath, ?_, ?_, ?_, ?_⟩
  · intro fuel hfuel
    obtain ⟨k, hk⟩ : ∃ k, fuel = FolderPath.data.length + 1 + k := ⟨fuel - (FolderPath.data.length + 1), by omega⟩
    rw [hk]
    exact GetOrCreateFolderNodeAux_mono _ k st FolderPath _ hbase
  · intro fuel hc he hpe
    have hlen := GetPath_length FolderPath hpe
    have hpq : FString.Equals (FPaths.GetPath FolderPath) FolderPath = false := by
      cases hq : FString.Equals (FPaths.GetPath FolderPath) FolderPath with
      | false => rfl
      | true =>
        have := FString.Equals_length hq
        omega
    conv_lhs => unfold UHdriVaultManager.GetOrCreateFolderNodeAux
    simp only [hc, Bool.false_eq_true, if_false, UHdriVaultManager.CreateFolderNode, he, hpe, hpq,
      Bool.not_false, Bool.and_self, if_true]
    rw [← RegisterNewFolder_eq st FolderPath he]
    cases hr : UHdriVaultManager.GetOrCreateFolderNodeAux fuel
        (st.RegisterNewFolder FolderPath) (FPaths.GetPath FolderPath) with
    | none => rfl
    | some q =>
      obtain ⟨st3, pp⟩ := q
      cases pp <;> rfl
  · intro hc
    unfold UHdriVaultManager.GetOrCreateFolderNodeAux
    simp only [hc, if_true]
  · intro hc he
    unfold UHdriVaultManager.GetOrCreateFolderNodeAux
    simp only [hc, Bool.false_eq_true, if_false, UHdriVaultManager.CreateFolderNode, he, if_true]
  · intro hpe
    have h1 : (UHdriVaultManager.GetOrCreateFolderNodeAux 1 st FolderPath).isSome = true := by
      unfold UHdriVaultManager.GetOrCreateFolderNodeAux
      cases hc : TMap.Contains st.FolderMap FolderPath with
      | true => simp
      | false =>
        simp only [Bool.false_eq_true, if_false]
        cases he : FolderPath.data.isEmpty with
        | true => simp [UHdriVaultManager.CreateFolderNode, he]
        | false =>
          simp only [UHdriVaultManager.CreateFolderNode, he, Bool.false_eq_true, if_false, hpe,
            Bool.not_true, Bool.false_and]
          cases hr : st.RootFolderNode <;> simp
    obtain ⟨r, hr⟩ := Option.isSome_iff_exists.1 h1
    have hm := GetOrCreateFolderNodeAux_mono 1 FolderPath.data.length st FolderPath r hr
    rw [Nat.add_comm, hbase] at hm
    rw [hr, ← Option.some.inj hm]

theorem GetOrCreateFolderNode_terminates_witness :
    "/Game/HDRI/Night/Sky".data.length < 100 ∧
    UHdriVaultManager.GetOrCreateFolderNodeAux 100 exIndexed "/Game/HDRI/Night/Sky" =
      some (exIndexed.GetOrCreateFolderNode "/Game/HDRI/Night/Sky") ∧
    (exIndexed.GetOrCreateFolderNode "/Game/HDRI/Night/Sky").1.FolderListing =
      [("/Game", []), ("/Engine", []), ("/Plugins", []), ("/Game/HDRI", [0]),
       ("/Game/HDRI/Night/Sky", []), ("/Game/HDRI/Night", [])] :=
  ⟨by decide,
    (GetOrCreateFolderNode_terminates exIndexed "/Game/HDRI/Night/Sky").1 100 (by decide),
    by decide⟩

/-! ## Revert in the metadata panel -/

/-- C28, failing input. A panel as constructed selects the item Studio, which
was last modified at 00:00:10; the clock reads 00:01:10. `SetMaterialItem`
copies the metadata and clears the flag, then `UpdateUI` sets the empty name
box to `Studio`; the box calls `OnMaterialNameChanged`, and `MarkAsChanged`
sets the flag and stamps the item with 00:01:10. The user types the name
`Dawn` and adds the tag `sky`, and clicks Revert at 00:04:10.
`OnRevertClicked` restores the copy and clears the flag, then `UpdateUI` sets
the name box from `Dawn` to `Studio`; the box calls `OnMaterialNameChanged`
again: `HasUnsavedChanges` is true after Revert and LastModified is the time
of the click, neither the copied 00:00:10 nor the 00:01:10 that the item had
right after the selection. The other fields, Tags among them, are restored. -/
theorem OnRevertClicked_leaves_unsaved_changes :
    (exPanel.SetMaterialItem (some 0)).OriginalMetadata =
      { MaterialName := "Studio", Location := "/Game/HDRI/Studio", Author := "",
        LastModified := { Ticks := 638396640100000000 }, Notes := "",
        Tags := ["indoor", "Studio"], Category := "All", CustomThumbnailPath := "" } ∧
    (exPanel.SetMaterialItem (some 0)).MetadataOf 0 =
      some { MaterialName := "Studio", Location := "/Game/HDRI/Studio", Author := "",
             LastModified := { Ticks := 638396640700000000 }, Notes := "",
             Tags := ["indoor", "Studio"], Category := "All", CustomThumbnailPath := "" } ∧
    (exPanel.SetMaterialItem (some 0)).HasUnsavedChanges = true ∧
    (exEdits.foldl SHdriVaultMetadataPanel.ApplyEdit
        ((exPanel.SetMaterialItem (some 0)).AtTime { Ticks := 638396641900000000 })).MetadataOf 0 =
      some { MaterialName := "Dawn", Location := "/Game/HDRI/Studio", Author := "",
             LastModified := { Ticks := 638396640700000000 }, Notes := "",
             Tags := ["indoor", "Studio", "sky"], Category := "All", CustomThumbnailPath := "" } ∧
    exReverted.MetadataOf 0 =
      some { MaterialName := "Studio", Location := "/Game/HDRI/Studio", Author := "",
             LastModified := { Ticks := 638396642500000000 }, Notes := "",
             Tags := ["indoor", "Studio"], Category := "All", CustomThumbnailPath := "" } ∧
    exReverted.HasUnsavedChanges = true ∧
    exReverted.MaterialNameTextBox = "Studio" := by
  refine ⟨?_, ?_, ?_, ?_, ?_, ?_, ?_⟩ <;> decide

end HdriVault
